import Mathlib

/-!
Verification development for the `json-carver` crate (src/lib.rs).

The carver is a streaming JSON state machine: it scans a byte stream for
candidate JSON values starting at `[` / `{`, validates them byte by byte,
emits completed values to a JSON sink and CSV diagnostic records to a report
sink, and (optionally) repairs corrupted/exhausted candidates by emitting the
prefix up to `partial_close_end` plus synthesized closers.

The embedding below is a shallow model of `src/lib.rs`:
* bytes are `Nat` (values < 256 in practice; the model does not need the bound),
* the byte source is a `List Nat` consumed from the front,
* the two sinks are accumulated `List Nat` outputs (JSON bytes) and a list of
  structured report records (rendered to CSV bytes separately),
* the candidate buffer `processed` models the live prefix `[0..cur)` of the
  Rust backing buffer (the Rust buffer is preallocated and retains stale bytes
  past `cur`; those are never read on any reachable state since
  `partial_close_end < cur` throughout a hunt, which is proved below),
* the nest stack `ident_levels` is a list with the top of the stack first
  (Rust stores it as a preallocated vector indexed by `cur_ident_level`;
  the depth limit `max_ident_depth` is not modelled — the spec leaves
  overflow behaviour as an open question),
* I/O errors and `ErrorKind::Interrupted` retries do not arise for an
  in-memory source, matching the `Reader::Local` used by the crate's tests.
-/

/-- Insignificant whitespace: space, tab, line feed, carriage return
(`CHAR_SPACE | CHAR_TAB | CHAR_NEWLINE | CHAR_CARRIAGE_RETURN`). -/
def isWsByte (b : Nat) : Bool := b = 0x20 || b = 0x09 || b = 0x0A || b = 0x0D

/-- ASCII digit `0`..`9` (`CHAR_ZERO..=CHAR_NINE`). -/
def isDigitByte (b : Nat) : Bool := 0x30 ≤ b && b ≤ 0x39

/-- `byte_needs_escape` from the source: `b < 0x1F`. -/
def byte_needs_escape (b : Nat) : Bool := b < 0x1F

/-- `byte_can_escape` from the source: the bytes allowed after a backslash. -/
def byte_can_escape (b : Nat) : Bool :=
  b = 0x22 || b = 0x5C || b = 0x2F || b = 0x62 || b = 0x66 || b = 0x6E ||
  b = 0x72 || b = 0x74 || b = 0x75

/-- `u8::is_ascii_hexdigit`. -/
def is_ascii_hexdigit (b : Nat) : Bool :=
  (0x30 ≤ b && b ≤ 0x39) || (0x41 ≤ b && b ≤ 0x46) || (0x61 ≤ b && b ≤ 0x66)

/-- `_closing_ident` from the source: the closer matching an opener is the
opener plus 2 (`[` ↦ `]`, `{` ↦ `}`). -/
def _closing_ident (b : Nat) : Nat := b + 0x02

/-- The scanner outcome enum `Cause` of the source, extended with three
model-only constructors:
* `Panicked` marks the `unreachable!()` / `.unwrap()` panic sites inside the
  handlers (`handle_comma`, `handle_string`, `handle_number`,
  `handle_literal`),
* `HuntErr` is `hunt`'s `Err(())` for a dispatch byte without a handler,
* `Spent` is returned only when the model's fuel runs out, which never
  happens for the fuel bounds used below. -/
inductive Cause where
  | Found (b : Nat)
  | Corrupted (b : Nat)
  | Completed
  | Exhausted
  | Panicked
  | HuntErr
  | Spent
deriving Repr, DecidableEq

/-- The `JsonTracker` struct (nesting tracker). `processed` is the live
buffer prefix, so the Rust `cur` is `processed.length`. `ident_levels`
keeps the top of the nest stack first. -/
structure JsonTracker where
  processed : List Nat
  ident_levels : List Nat
  partial_close_end : Nat
  in_key : Bool
  replace_newlines : Bool
deriving Repr, DecidableEq

/-- `cur`: count of bytes appended to the candidate buffer. -/
def JsonTracker.cur (t : JsonTracker) : Nat := t.processed.length

/-- The newline-to-space substitution applied by `JsonTracker::advance` when
`replace_newlines` is set. -/
def subst_newline (r : Bool) (b : Nat) : Nat :=
  if r && b = 0x0A then 0x20 else b

/-- `JsonTracker::advance`: append a byte, substituting newline by space when
`replace_newlines` is set. -/
def JsonTracker.advance (t : JsonTracker) (b : Nat) : JsonTracker :=
  { t with processed := t.processed ++ [subst_newline t.replace_newlines b] }

/-- `JsonTracker::last_byte`. -/
def JsonTracker.last_byte (t : JsonTracker) : Option Nat := t.processed.getLast?

/-- `JsonTracker::last_ident`: the top of the nest stack. -/
def JsonTracker.last_ident (t : JsonTracker) : Option Nat := t.ident_levels.head?

/-- `JsonTracker::add_ident`: bookmark `partial_close_end := cur`, push the
opener, then append it. -/
def JsonTracker.add_ident (t : JsonTracker) (b : Nat) : JsonTracker :=
  let t' := { t with ident_levels := b :: t.ident_levels,
                     partial_close_end := t.processed.length }
  t'.advance b

/-- `JsonTracker::remove_ident`: pop the expected opener (failing with `none`
on mismatch or empty stack), bookmark, append the matching closer; the `Bool`
is `true` iff the stack is now empty (candidate completed). -/
def JsonTracker.remove_ident (t : JsonTracker) (expected : Nat) :
    Option (Bool × JsonTracker) :=
  match t.ident_levels with
  | [] => none
  | top :: rest =>
    if top = expected then
      let t' := { t with ident_levels := rest,
                         partial_close_end := t.processed.length }
      some (decide (rest = []), t'.advance (_closing_ident expected))
    else none

/-- `JsonTracker::quick_clean`: reset between candidates (the Rust buffer
capacity is retained; the model keeps only the live prefix). -/
def JsonTracker.quick_clean (t : JsonTracker) : JsonTracker :=
  { t with processed := [], ident_levels := [], partial_close_end := 0,
           in_key := false }

/-- Result of a handler / of `hunt`: outcome, updated tracker, remaining
stream. -/
abbrev HRes := Cause × JsonTracker × List Nat

/-- Is the byte a legal `Found` byte after `[` (value start, nested opener, or
immediate `]`)? Mirrors the first match arm of `handle_left_square_bracket`. -/
def lsbFoundByte (b : Nat) : Bool :=
  b = 0x5B || b = 0x7B || b = 0x5D || b = 0x22 || b = 0x2D ||
  isDigitByte b || b = 0x66 || b = 0x6E || b = 0x74

/-- Value-start bytes accepted after `:` and after an intra-array `,`
(`{ [ - 0-9 " f n t`; note `]` is absent). -/
def valueStartByte (b : Nat) : Bool :=
  b = 0x7B || b = 0x5B || b = 0x2D || isDigitByte b || b = 0x22 ||
  b = 0x66 || b = 0x6E || b = 0x74

/-- Loop of `handle_left_square_bracket` after the push. -/
def lsb_loop : JsonTracker → List Nat → HRes
  | t, [] => (.Exhausted, t, [])
  | t, b :: rest =>
    if lsbFoundByte b then (.Found b, t, rest)
    else if isWsByte b then lsb_loop (t.advance b) rest
    else (.Corrupted b, t, rest)

/-- `handle_left_square_bracket`. -/
def handle_left_square_bracket (t : JsonTracker) (rem : List Nat) : HRes :=
  lsb_loop (t.add_ident 0x5B) rem

/-- Loop of `handle_left_curly_bracket` after the push: `"` (setting
`in_key`), `}`, or whitespace. -/
def lcb_loop : JsonTracker → List Nat → HRes
  | t, [] => (.Exhausted, t, [])
  | t, b :: rest =>
    if b = 0x22 then (.Found b, { t with in_key := true }, rest)
    else if b = 0x7D then (.Found b, t, rest)
    else if isWsByte b then lcb_loop (t.advance b) rest
    else (.Corrupted b, t, rest)

/-- `handle_left_curly_bracket`. -/
def handle_left_curly_bracket (t : JsonTracker) (rem : List Nat) : HRes :=
  lcb_loop (t.add_ident 0x7B) rem

/-- The loop shared (textually identical in the source) by
`handle_right_square_bracket`, `handle_right_curly_bracket` and the tail of
`handle_literal`: accept `,` `]` `}` as `Found`, skip whitespace, otherwise
`Corrupted`. -/
def sep_loop : JsonTracker → List Nat → HRes
  | t, [] => (.Exhausted, t, [])
  | t, b :: rest =>
    if b = 0x2C || b = 0x5D || b = 0x7D then (.Found b, t, rest)
    else if isWsByte b then sep_loop (t.advance b) rest
    else (.Corrupted b, t, rest)

/-- `handle_right_square_bracket`: pop `[` (mismatch ⇒ `Corrupted(']')`),
complete if the stack emptied, else scan for the separator. -/
def handle_right_square_bracket (t : JsonTracker) (rem : List Nat) : HRes :=
  match t.remove_ident 0x5B with
  | some (true, t') => (.Completed, t', rem)
  | some (false, t') => sep_loop t' rem
  | none => (.Corrupted 0x5D, t, rem)

/-- `handle_right_curly_bracket`. -/
def handle_right_curly_bracket (t : JsonTracker) (rem : List Nat) : HRes :=
  match t.remove_ident 0x7B with
  | some (true, t') => (.Completed, t', rem)
  | some (false, t') => sep_loop t' rem
  | none => (.Corrupted 0x7D, t, rem)

/-- Loop shared by `handle_colon` and the array branch of `handle_comma`:
accept a value-start byte, skip whitespace, otherwise `Corrupted`. -/
def value_start_loop : JsonTracker → List Nat → HRes
  | t, [] => (.Exhausted, t, [])
  | t, b :: rest =>
    if valueStartByte b then (.Found b, t, rest)
    else if isWsByte b then value_start_loop (t.advance b) rest
    else (.Corrupted b, t, rest)

/-- `handle_colon`: clear `in_key`, append `:`, scan for a value start. -/
def handle_colon (t : JsonTracker) (rem : List Nat) : HRes :=
  value_start_loop ({ t with in_key := false }.advance 0x3A) rem

/-- Object branch of `handle_comma`: only `"` (setting `in_key`) or
whitespace. -/
def comma_obj_loop : JsonTracker → List Nat → HRes
  | t, [] => (.Exhausted, t, [])
  | t, b :: rest =>
    if b = 0x22 then (.Found b, { t with in_key := true }, rest)
    else if isWsByte b then comma_obj_loop (t.advance b) rest
    else (.Corrupted b, t, rest)

/-- `handle_comma`: append `,`, then branch on the top of the nest stack.
The `Some(_)` / `None` fall-through arms are `unreachable!()` in the source,
modelled as `Panicked`. -/
def handle_comma (t : JsonTracker) (rem : List Nat) : HRes :=
  match (t.advance 0x2C).last_ident with
  | some li =>
    if li = 0x5B then value_start_loop (t.advance 0x2C) rem
    else if li = 0x7B then comma_obj_loop (t.advance 0x2C) rem
    else (.Panicked, t.advance 0x2C, rem)
  | none => (.Panicked, t.advance 0x2C, rem)

/-- Loop of `handle_string`. State: `in_string`, `in_escape`,
`in_escaped_unicode`. The match arms are kept in source order. The
`last_ident().unwrap()` is modelled by the `none ⇒ Panicked` branch. -/
def string_loop : JsonTracker → Bool → Bool → Nat → List Nat → HRes
  | t, _, _, _, [] => (.Exhausted, t, [])
  | t, in_string, in_escape, in_eu, b :: rest =>
    match t.last_ident with
    | none => (.Panicked, t, b :: rest)
    | some last_ident =>
      if in_string = false then
        if isWsByte b then string_loop (t.advance b) in_string in_escape in_eu rest
        else if (b = 0x2C || b = 0x5D) && last_ident = 0x5B then (.Found b, t, rest)
        else if (b = 0x2C || b = 0x7D) && last_ident = 0x7B && t.in_key = false then
          (.Found b, t, rest)
        else if b = 0x3A && last_ident = 0x7B && t.in_key = true then (.Found b, t, rest)
        else (.Corrupted b, t, rest)
      else
        if b = 0x5C && in_escape = false && in_eu = 0 then
          string_loop (t.advance b) in_string true in_eu rest
        else if b = 0x22 && in_escape = false && in_eu = 0 then
          string_loop (t.advance b) false in_escape in_eu rest
        else if b < 0x1F then (.Corrupted b, t, rest)
        else if in_escape = false && in_eu = 0 then
          if byte_needs_escape b then (.Corrupted b, t, rest)
          else string_loop (t.advance b) in_string in_escape in_eu rest
        else if b = 0x75 && in_escape = true && in_eu = 0 then
          string_loop (t.advance b) in_string false 4 rest
        else if in_escape = true && in_eu = 0 then
          if byte_can_escape b then string_loop (t.advance b) in_string false in_eu rest
          else (.Corrupted b, t, rest)
        else if 1 ≤ in_eu && in_eu ≤ 4 then
          if is_ascii_hexdigit b then
            string_loop (t.advance b) in_string in_escape (in_eu - 1) rest
          else (.Corrupted b, t, rest)
        else (.Corrupted b, t, rest)

/-- `handle_string`: append the opening quote and scan. -/
def handle_string (t : JsonTracker) (rem : List Nat) : HRes :=
  string_loop (t.advance 0x22) true false 0 rem

/-- The `Some(true)` test `in_leading_zero == Some(true)`. -/
def isSomeTrue (o : Option Bool) : Bool :=
  match o with
  | some true => true
  | _ => false

/-- The lazy initialisation of `in_leading_zero` at the top of each
`handle_number` iteration: when still `None`, a minus keeps it `None`, a
leading `0` makes it `Some(true)`, anything else `Some(false)`. -/
def number_lz_seen (in_lz : Option Bool) (last_byte : Nat) : Option Bool :=
  if in_lz = none then
    if last_byte = 0x2D then none
    else if last_byte = 0x30 then some true
    else some false
  else in_lz

/-- After the leading-zero check fires without corrupting, `Some(true)` decays
to `Some(false)`. -/
def number_lz_clear (lz : Option Bool) : Option Bool :=
  if isSomeTrue lz then some false else lz

/-- Loop of `handle_number`. State: `in_frac`, `in_exp`, `in_leading_zero`.
The `last_byte().unwrap()` is modelled by the `none ⇒ Panicked` branch; the
transition arms are kept in source order (note the absence of carriage return
0x0D in the digit-to-whitespace arm, as in the source). -/
def number_loop : JsonTracker → Bool → Bool → Option Bool → List Nat → HRes
  | t, _, _, _, [] => (.Exhausted, t, [])
  | t, in_frac, in_exp, in_lz, b :: rest =>
    match t.last_byte with
    | none => (.Panicked, t, b :: rest)
    | some last_byte =>
      if isSomeTrue (number_lz_seen in_lz last_byte) && isDigitByte b then
        (.Corrupted b, t, rest)
      else
        if (last_byte = 0x2D || last_byte = 0x2B || last_byte = 0x2E) && isDigitByte b then
          number_loop (t.advance b) in_frac in_exp
            (number_lz_clear (number_lz_seen in_lz last_byte)) rest
        else if (last_byte = 0x65 || last_byte = 0x45) &&
            (isDigitByte b || b = 0x2D || b = 0x2B) then
          number_loop (t.advance b) in_frac in_exp
            (number_lz_clear (number_lz_seen in_lz last_byte)) rest
        else if isDigitByte last_byte &&
            (isDigitByte b || b = 0x20 || b = 0x09 || b = 0x0A) then
          number_loop (t.advance b) in_frac in_exp
            (number_lz_clear (number_lz_seen in_lz last_byte)) rest
        else if isDigitByte last_byte && b = 0x2E then
          if in_frac || in_exp then (.Corrupted b, t, rest)
          else number_loop (t.advance b) true in_exp
            (number_lz_clear (number_lz_seen in_lz last_byte)) rest
        else if isDigitByte last_byte && (b = 0x65 || b = 0x45) then
          if in_exp then (.Corrupted b, t, rest)
          else number_loop (t.advance b) in_frac true
            (number_lz_clear (number_lz_seen in_lz last_byte)) rest
        else if (isWsByte last_byte || isDigitByte last_byte) &&
            (b = 0x2C || b = 0x5D || b = 0x7D) then
          (.Found b, t, rest)
        else (.Corrupted b, t, rest)

/-- `handle_number`: append the starting byte and scan. -/
def handle_number (t : JsonTracker) (start_num : Nat) (rem : List Nat) : HRes :=
  number_loop (t.advance start_num) false false none rem

/-- First loop of `handle_literal`: match the fixed tail byte by byte; on full
match fall through to the separator loop. A drained stream mid-tail is
`Exhausted` (in the source the first `for` ends and the second `for` over the
drained reader immediately yields `Exhausted`). -/
def literal_tail_loop : List Nat → JsonTracker → List Nat → HRes
  | [], t, rem => sep_loop t rem
  | _ :: _, t, [] => (.Exhausted, t, [])
  | l :: ls, t, b :: rest =>
    if l = b then literal_tail_loop ls (t.advance b) rest
    else (.Corrupted b, t, rest)

/-- `handle_literal`: append the initiator, then require the fixed tail
(`alse` / `ull` / `rue`). The catch-all initiator arm is `unreachable!()`. -/
def handle_literal (t : JsonTracker) (start_char : Nat) (rem : List Nat) : HRes :=
  if start_char = 0x66 then literal_tail_loop [0x61, 0x6C, 0x73, 0x65] (t.advance start_char) rem
  else if start_char = 0x6E then literal_tail_loop [0x75, 0x6C, 0x6C] (t.advance start_char) rem
  else if start_char = 0x74 then literal_tail_loop [0x72, 0x75, 0x65] (t.advance start_char) rem
  else (.Panicked, t.advance start_char, rem)

/-- One dispatch step of `hunt`: select the handler by the current byte; a
byte without a handler is `hunt`'s `Err(())`, modelled as `HuntErr`. -/
def hunt_step (ch : Nat) (t : JsonTracker) (rem : List Nat) : HRes :=
  if ch = 0x5B then handle_left_square_bracket t rem
  else if ch = 0x7B then handle_left_curly_bracket t rem
  else if ch = 0x5D then handle_right_square_bracket t rem
  else if ch = 0x7D then handle_right_curly_bracket t rem
  else if ch = 0x3A then handle_colon t rem
  else if ch = 0x2C then handle_comma t rem
  else if ch = 0x22 then handle_string t rem
  else if ch = 0x2D || isDigitByte ch then handle_number t ch rem
  else if ch = 0x66 || ch = 0x6E || ch = 0x74 then handle_literal t ch rem
  else (.HuntErr, t, rem)

/-- `Carver::hunt`: dispatch loop, re-dispatching on `Found(b)`. Fuel-indexed;
every `Found` consumes at least one byte, so fuel `rem.length + 1` suffices
(`hunt_fuel_enough` below). -/
def hunt : Nat → Nat → JsonTracker → List Nat → HRes
  | 0, _, t, rem => (.Spent, t, rem)
  | fuel + 1, ch, t, rem =>
    match hunt_step ch t rem with
    | (.Found b, t', rem') => hunt fuel b t' rem'
    | other => other

/-- `Carver::scout`: skip to the first `[` / `{`. Returns
`(some (bytes_consumed, matched_byte), remaining)` — the matched byte is
consumed and counted — or `(none, [])` when the source drains without a
match. -/
def scout : List Nat → Option (Nat × Nat) × List Nat
  | [] => (none, [])
  | b :: rest =>
    if b = 0x5B || b = 0x7B then (some (1, b), rest)
    else
      match scout rest with
      | (some (n, ch), rem') => (some (n + 1, ch), rem')
      | (none, rem') => (none, rem')

/-- Carver configuration: `min_size` and `fix_incomplete` live on `Carver`,
`replace_newlines` is forwarded to the tracker. -/
structure Carver where
  min_size : Nat
  fix_incomplete : Bool
  replace_newlines : Bool
deriving Repr, DecidableEq

/-- A report record (`Report` in the source): status plus absolute offsets. -/
structure ReportRec where
  status : Cause
  start : Nat
  end_ : Nat
  partial_end : Nat
deriving Repr, DecidableEq

/-- Decimal ASCII digits of a natural number (for CSV rendering). -/
def natDigitsCore : Nat → Nat → List Nat
  | 0, _ => []
  | fuel + 1, n =>
    if n < 10 then [0x30 + n]
    else natDigitsCore fuel (n / 10) ++ [0x30 + n % 10]

/-- Decimal ASCII rendering of a natural number. -/
def natDigits (n : Nat) : List Nat := natDigitsCore (n + 1) n

/-- `Report::print`: one CSV line `status,start,end,partial_end\n`.
The status words are `corrupted` / `exhausted` / `completed` as byte lists. -/
def report_print (r : ReportRec) : List Nat :=
  (match r.status with
   | .Exhausted => [0x65, 0x78, 0x68, 0x61, 0x75, 0x73, 0x74, 0x65, 0x64]
   | .Corrupted _ => [0x63, 0x6F, 0x72, 0x72, 0x75, 0x70, 0x74, 0x65, 0x64]
   | _ => [0x63, 0x6F, 0x6D, 0x70, 0x6C, 0x65, 0x74, 0x65, 0x64]) ++
  [0x2C] ++ natDigits r.start ++ [0x2C] ++ natDigits r.end_ ++
  [0x2C] ++ natDigits r.partial_end ++ [0x0A]

/-- CSV rendering of a report list. -/
def reports_csv (rs : List ReportRec) : List Nat := (rs.map report_print).flatten

/-- `Carver::_print_incomplete` (repair writer): buffer bytes
`[0 .. partial_close_end]` inclusive, then for each still-open container from
the top of the stack down the matching closer, then a newline. (The source
slices the backing buffer; on every reachable repair state
`partial_close_end < cur`, so the slice is within the live prefix.) -/
def print_incomplete (t : JsonTracker) : List Nat :=
  t.processed.take (t.partial_close_end + 1) ++
  t.ident_levels.map _closing_ident ++ [0x0A]

/-- The per-candidate sink output of `Carver::parse`'s outcome dispatch:
given the hunt outcome and final tracker, the bytes appended to the JSON sink
and the records appended to the report sink for this candidate. -/
def candidate_output (c : Carver) (res : Cause) (t : JsonTracker) (start : Nat) :
    List Nat × List ReportRec :=
  match res with
  | .Completed =>
    (if c.min_size ≤ t.cur then t.processed ++ [0x0A] else [], [])
  | .Corrupted cb =>
    if c.min_size ≤ t.partial_close_end then
      ((if c.fix_incomplete then print_incomplete t else []),
       [{ status := .Corrupted cb, start := start,
          end_ := start + t.cur - 1,
          partial_end := start + t.partial_close_end }])
    else ([], [])
  | .Exhausted =>
    if c.min_size ≤ t.partial_close_end then
      ((if c.fix_incomplete then print_incomplete t else []),
       [{ status := .Exhausted, start := start,
          end_ := start + t.cur - 1,
          partial_end := start + t.partial_close_end }])
    else ([], [])
  | _ => ([], [])

/-- The head of each `Carver::parse` iteration: when `lastb` is a pre-read
opener reuse it with `read = 0`, otherwise call `scout`; `none` means the
scout hit end-of-stream (the loop breaks). -/
def parse_step (lastb : Option Nat) (rem : List Nat) :
    Option ((Nat × Nat) × List Nat) :=
  match lastb with
  | some b =>
    if b = 0x7B || b = 0x5B then some ((0, b), rem)
    else match scout rem with
         | (some rc, rem1) => some (rc, rem1)
         | (none, _) => none
  | none =>
    match scout rem with
    | (some rc, rem1) => some (rc, rem1)
    | (none, _) => none

/-- The driver loop of `Carver::parse`. State: remaining bytes, absolute
`start`, the optional pre-read byte `lastb`, the (reused) tracker, and the
accumulated sink contents. Fuel-indexed; every non-terminating iteration
consumes at least one input byte. -/
def parse_loop :
    Nat → Carver → JsonTracker → List Nat → Nat → Option Nat →
    List Nat → List ReportRec → List Nat × List ReportRec
  | 0, _, _, _, _, _, jout, rout => (jout, rout)
  | fuel + 1, c, t, rem, start, lastb, jout, rout =>
    match parse_step lastb rem with
    | none => (jout, rout)
    | some ((read, ch), rem1) =>
      let start1 := start + read - 1
      let start2 := if lastb.isSome then start1 + 1 else start1
      match hunt (rem1.length + 1) ch t rem1 with
      | (.Completed, t', rem2) =>
        let out := candidate_output c .Completed t' start2
        parse_loop fuel c t'.quick_clean rem2 (start2 + t'.cur - 1 + 1) none
          (jout ++ out.1) (rout ++ out.2)
      | (.Corrupted cb, t', rem2) =>
        let out := candidate_output c (.Corrupted cb) t' start2
        parse_loop fuel c t'.quick_clean rem2 (start2 + t'.cur - 1 + 1) (some cb)
          (jout ++ out.1) (rout ++ out.2)
      | (.Exhausted, t', _) =>
        let out := candidate_output c .Exhausted t' start2
        (jout ++ out.1, rout ++ out.2)
      | (_, _, _) => (jout, rout)

/-- Fresh tracker for a carver configuration. -/
def Carver.initTracker (c : Carver) : JsonTracker :=
  { processed := [], ident_levels := [], partial_close_end := 0,
    in_key := false, replace_newlines := c.replace_newlines }

/-- `Carver::parse` on a whole in-memory input: the JSON sink bytes and the
report records. -/
def Carver.parse (c : Carver) (input : List Nat) : List Nat × List ReportRec :=
  parse_loop (input.length + 2) c c.initTracker input 0 none [] []

/-- The configuration used by the crate's tests and by the spec's concrete
scenarios: `min_size = 0`, `fix_incomplete` on, no newline replacement. -/
def fixCfg : Carver := { min_size := 0, fix_incomplete := true, replace_newlines := false }

/-- `min_size = 0`, `fix_incomplete` off. -/
def plainCfg : Carver := { min_size := 0, fix_incomplete := false, replace_newlines := false }

/-! ### Concrete inputs used by the claims -/

/-- The spec's concrete scenario input `[1]{"key":"val":  [2],[fal[3]]]`. -/
def scenarioInput : List Nat :=
  [0x5B, 0x31, 0x5D, 0x7B, 0x22, 0x6B, 0x65, 0x79, 0x22, 0x3A, 0x22, 0x76,
   0x61, 0x6C, 0x22, 0x3A, 0x20, 0x20, 0x5B, 0x32, 0x5D, 0x2C, 0x5B, 0x66,
   0x61, 0x6C, 0x5B, 0x33, 0x5D, 0x5D, 0x5D]

/-- Expected JSON sink bytes for the scenario:
`[1]`, `{}`, `[2]`, `[]`, `[3]`, each newline-terminated. -/
def scenarioJson : List Nat :=
  [0x5B, 0x31, 0x5D, 0x0A, 0x7B, 0x7D, 0x0A, 0x5B, 0x32, 0x5D, 0x0A,
   0x5B, 0x5D, 0x0A, 0x5B, 0x33, 0x5D, 0x0A]

/-- Expected report CSV for the scenario:
`corrupted,3,14,3` then `corrupted,22,25,22`, each newline-terminated. -/
def scenarioCsv : List Nat :=
  [0x63, 0x6F, 0x72, 0x72, 0x75, 0x70, 0x74, 0x65, 0x64, 0x2C, 0x33, 0x2C,
   0x31, 0x34, 0x2C, 0x33, 0x0A,
   0x63, 0x6F, 0x72, 0x72, 0x75, 0x70, 0x74, 0x65, 0x64, 0x2C, 0x32, 0x32,
   0x2C, 0x32, 0x35, 0x2C, 0x32, 0x32, 0x0A]

/-- C1: with `min_size = 0` and `fix_incomplete` on, the carver on the sole
input `[1]{"key":"val":  [2],[fal[3]]]` writes exactly the five values `[1]`,
`{}`, `[2]`, `[]`, `[3]` in this order, each newline-terminated, to the JSON
sink, and exactly the records `corrupted,3,14,3` and `corrupted,22,25,22` in
this order to the report sink. -/
theorem C1_scenario_output :
    (Carver.parse fixCfg scenarioInput).1 = scenarioJson ∧
    reports_csv (Carver.parse fixCfg scenarioInput).2 = scenarioCsv := by
  decide

/-- A fresh tracker that has just pushed `[` (the state on entering a handler
dispatched right after an array opener). -/
def arrTracker : JsonTracker := (Carver.initTracker plainCfg).add_ident 0x5B

/-- C3 (code bug): the unescaped control byte 0x1F inside a string is NOT
rejected. On input `["<0x1F>"]` the string handler appends 0x1F and returns
`Found(']')` instead of `Corrupted(0x1F)` (the `0x00..0x1F` match arm is an
exclusive range and `byte_needs_escape` tests `b < 0x1F`, so 0x1F slips
through both), and the whole carver emits the RFC-invalid value verbatim.
By contrast 0x1E is rejected as the spec describes. -/
theorem C3_control_byte_0x1F_accepted :
    (handle_string arrTracker [0x1F, 0x22, 0x5D]).1 = Cause.Found 0x5D ∧
    (handle_string arrTracker [0x1F, 0x22, 0x5D]).2.1.processed =
      [0x5B, 0x22, 0x1F, 0x22] ∧
    (Carver.parse plainCfg [0x5B, 0x22, 0x1F, 0x22, 0x5D]).1 =
      [0x5B, 0x22, 0x1F, 0x22, 0x5D, 0x0A] ∧
    (handle_string arrTracker [0x1E, 0x22, 0x5D]).1 = Cause.Corrupted 0x1E := by
  decide

/-- C4 (code bug): a carriage return (0x0D) immediately following a digit in
the number handler is NOT treated as insignificant whitespace: the
digit-to-whitespace transition arm lists only space, tab and line feed, so the
handler returns `Corrupted(0x0D)`, contradicting both the spec's transition
table and the source comment that digits, insignificant whitespace, or
`,]}` can always follow digits. On `[1\r]` the carver therefore emits
nothing. -/
theorem C4_carriage_return_after_digit_corrupts :
    (handle_number arrTracker 0x31 [0x0D, 0x5D]).1 = Cause.Corrupted 0x0D ∧
    (Carver.parse plainCfg [0x5B, 0x31, 0x0D, 0x5D]).1 = [] := by
  decide

/-- C5 counterexample: `scout` consumes the matched opener rather than
leaving the reader positioned at it. On input `a[b` it returns
`(bytes_consumed, matched_byte) = (2, 0x5B)` with remaining stream `b`, so
the next pull yields 0x62, not the opener 0x5B. -/
theorem C5_scout_consumes_matched_byte :
    scout [0x61, 0x5B, 0x62] = (some (2, 0x5B), [0x62]) ∧
    ([0x62] : List Nat).head? ≠ some 0x5B := by
  decide

/-- C6 counterexample: with `fix_incomplete` enabled, the synthesized closer
of a repair emission is not a verbatim byte of the input. On the sole input
`{` the JSON sink receives `{}` plus newline, and the byte `}` (0x7D) is
neither a newline separator nor (modulo the newline substitution) a byte of
the input. -/
theorem C6_repair_closer_not_input_byte :
    (Carver.parse fixCfg [0x7B]).1 = [0x7B, 0x7D, 0x0A] ∧
    (0x7D : Nat) ∈ (Carver.parse fixCfg [0x7B]).1 ∧
    (0x7D : Nat) ≠ 0x0A ∧
    (0x7D : Nat) ∉ ([0x7B] : List Nat).map (subst_newline fixCfg.replace_newlines) := by
  decide

/-- C7: the threshold gate of `Carver::parse`'s outcome dispatch. A report
record is produced iff the candidate ended `Corrupted` or `Exhausted` and
`partial_close_end ≥ min_size`; a completed candidate's buffered bytes are
written to the JSON sink iff `cur ≥ min_size`; below these thresholds the
candidate produces no output on either sink, and a completed candidate never
produces a report record. -/
theorem C7_threshold_gate (c : Carver) (res : Cause) (t : JsonTracker) (start : Nat) :
    ((candidate_output c res t start).2 ≠ [] ↔
      (((∃ b, res = Cause.Corrupted b) ∨ res = Cause.Exhausted) ∧
        c.min_size ≤ t.partial_close_end)) ∧
    (res = Cause.Completed →
      ((candidate_output c res t start).1 ≠ [] ↔ c.min_size ≤ t.cur)) ∧
    (res = Cause.Completed → (candidate_output c res t start).2 = []) ∧
    ((((∃ b, res = Cause.Corrupted b) ∨ res = Cause.Exhausted) ∧
        t.partial_close_end < c.min_size) →
      candidate_output c res t start = ([], [])) := by
  refine ⟨?_, ?_, ?_, ?_⟩ <;>
    cases res <;>
      simp +arith [candidate_output, JsonTracker.cur] <;>
        by_cases h : c.min_size ≤ t.partial_close_end <;>
          simp +arith [h]

/-- Witness for `C7_threshold_gate` at concrete inputs. -/
theorem C7_threshold_gate_witness :
    (candidate_output fixCfg Cause.Completed arrTracker 0).1 ≠ [] ∧
    (candidate_output fixCfg Cause.Exhausted arrTracker 0).2 ≠ [] :=
  ⟨((C7_threshold_gate fixCfg Cause.Completed arrTracker 0).2.1 rfl).mpr (by decide),
   (C7_threshold_gate fixCfg Cause.Exhausted arrTracker 0).1.mpr
     (by exact ⟨Or.inr rfl, by decide⟩)⟩

/-! ### The bookmark invariant `partial_close_end < cur`

`partial_close_end` is set to `cur` immediately before an opener/closer byte
is appended, and `cur` only grows, so from the first push of a hunt onwards
the bookmark stays strictly below `cur`. -/

/-- The bookmark is strictly inside the live buffer. -/
def PceLt (t : JsonTracker) : Prop :=
  t.partial_close_end < t.processed.length

theorem advance_processed (t : JsonTracker) (b : Nat) :
    (t.advance b).processed = t.processed ++ [subst_newline t.replace_newlines b] := rfl

theorem pcelt_advance {t : JsonTracker} (b : Nat) (h : PceLt t) : PceLt (t.advance b) := by
  simp only [PceLt, JsonTracker.advance, List.length_append, List.length_cons,
    List.length_nil] at *
  omega

theorem pcelt_add_ident (t : JsonTracker) (b : Nat) : PceLt (t.add_ident b) := by
  simp [PceLt, JsonTracker.add_ident, JsonTracker.advance]

theorem pcelt_remove_ident {t : JsonTracker} {e : Nat} {c : Bool} {t' : JsonTracker}
    (h : t.remove_ident e = some (c, t')) : PceLt t' := by
  cases hs : t.ident_levels with
  | nil => simp [JsonTracker.remove_ident, hs] at h
  | cons top rest =>
    simp only [JsonTracker.remove_ident, hs] at h
    by_cases he : top = e
    · rw [if_pos he] at h
      injection h with h2
      injection h2 with hc ht
      subst ht
      simp [PceLt, JsonTracker.advance]
    · rw [if_neg he] at h; exact absurd h (by simp)

theorem lsb_loop_pcelt : ∀ rem t, PceLt t → PceLt (lsb_loop t rem).2.1 := by
  intro rem
  induction rem with
  | nil => intro t h; simpa [lsb_loop] using h
  | cons b rest ih =>
    intro t h
    unfold lsb_loop
    split
    · exact h
    · split
      · exact ih _ (pcelt_advance b h)
      · exact h

theorem lcb_loop_pcelt : ∀ rem t, PceLt t → PceLt (lcb_loop t rem).2.1 := by
  intro rem
  induction rem with
  | nil => intro t h; simpa [lcb_loop] using h
  | cons b rest ih =>
    intro t h
    unfold lcb_loop
    split
    · exact h
    · split
      · exact h
      · split
        · exact ih _ (pcelt_advance b h)
        · exact h

theorem sep_loop_pcelt : ∀ rem t, PceLt t → PceLt (sep_loop t rem).2.1 := by
  intro rem
  induction rem with
  | nil => intro t h; simpa [sep_loop] using h
  | cons b rest ih =>
    intro t h
    unfold sep_loop
    split
    · exact h
    · split
      · exact ih _ (pcelt_advance b h)
      · exact h

theorem value_start_loop_pcelt : ∀ rem t, PceLt t → PceLt (value_start_loop t rem).2.1 := by
  intro rem
  induction rem with
  | nil => intro t h; simpa [value_start_loop] using h
  | cons b rest ih =>
    intro t h
    unfold value_start_loop
    split
    · exact h
    · split
      · exact ih _ (pcelt_advance b h)
      · exact h

theorem comma_obj_loop_pcelt : ∀ rem t, PceLt t → PceLt (comma_obj_loop t rem).2.1 := by
  intro rem
  induction rem with
  | nil => intro t h; simpa [comma_obj_loop] using h
  | cons b rest ih =>
    intro t h
    unfold comma_obj_loop
    split
    · exact h
    · split
      · exact ih _ (pcelt_advance b h)
      · exact h

theorem string_loop_pcelt :
    ∀ rem t is ie eu, PceLt t → PceLt (string_loop t is ie eu rem).2.1 := by
  intro rem
  induction rem with
  | nil => intro t is ie eu h; simpa [string_loop] using h
  | cons b rest ih =>
    intro t is ie eu h
    unfold string_loop
    cases t.last_ident with
    | none => exact h
    | some li =>
      simp only
      split
      · split
        · exact ih _ _ _ _ (pcelt_advance b h)
        · split
          · exact h
          · split
            · exact h
            · split
              · exact h
              · exact h
      · split
        · exact ih _ _ _ _ (pcelt_advance b h)
        · split
          · exact ih _ _ _ _ (pcelt_advance b h)
          · split
            · exact h
            · split
              · split
                · exact h
                · exact ih _ _ _ _ (pcelt_advance b h)
              · split
                · exact ih _ _ _ _ (pcelt_advance b h)
                · split
                  · split
                    · exact ih _ _ _ _ (pcelt_advance b h)
                    · exact h
                  · split
                    · split
                      · exact ih _ _ _ _ (pcelt_advance b h)
                      · exact h
                    · exact h

theorem number_loop_pcelt :
    ∀ rem t f e lz, PceLt t → PceLt (number_loop t f e lz rem).2.1 := by
  intro rem
  induction rem with
  | nil => intro t f e lz h; simpa [number_loop] using h
  | cons b rest ih =>
    intro t f e lz h
    unfold number_loop
    cases t.last_byte with
    | none => exact h
    | some lb =>
      simp only
      split
      · exact h
      · split
        · exact ih _ _ _ _ (pcelt_advance b h)
        · split
          · exact ih _ _ _ _ (pcelt_advance b h)
          · split
            · exact ih _ _ _ _ (pcelt_advance b h)
            · split
              · split
                · exact h
                · exact ih _ _ _ _ (pcelt_advance b h)
              · split
                · split
                  · exact h
                  · exact ih _ _ _ _ (pcelt_advance b h)
                · split
                  · exact h
                  · exact h

theorem literal_tail_loop_pcelt :
    ∀ ls rem t, PceLt t → PceLt (literal_tail_loop ls t rem).2.1 := by
  intro ls
  induction ls with
  | nil => intro rem t h; exact sep_loop_pcelt rem t h
  | cons l ls ih =>
    intro rem t h
    cases rem with
    | nil => simpa [literal_tail_loop] using h
    | cons b rest =>
      unfold literal_tail_loop
      split
      · exact ih _ _ (pcelt_advance b h)
      · exact h

theorem hunt_step_pcelt (ch : Nat) (t : JsonTracker) (rem : List Nat) (h : PceLt t) :
    PceLt (hunt_step ch t rem).2.1 := by
  unfold hunt_step
  split
  · exact lsb_loop_pcelt rem _ (pcelt_add_ident t 0x5B)
  · split
    · exact lcb_loop_pcelt rem _ (pcelt_add_ident t 0x7B)
    · split
      · unfold handle_right_square_bracket
        split
        · next t' _ heq => exact pcelt_remove_ident heq
        · next t' _ heq => exact sep_loop_pcelt rem _ (pcelt_remove_ident heq)
        · exact h
      · split
        · unfold handle_right_curly_bracket
          split
          · next t' _ heq => exact pcelt_remove_ident heq
          · next t' _ heq => exact sep_loop_pcelt rem _ (pcelt_remove_ident heq)
          · exact h
        · split
          · exact value_start_loop_pcelt rem _ (pcelt_advance 0x3A h)
          · split
            · unfold handle_comma
              split
              · split
                · exact value_start_loop_pcelt rem _ (pcelt_advance 0x2C h)
                · split
                  · exact comma_obj_loop_pcelt rem _ (pcelt_advance 0x2C h)
                  · exact pcelt_advance 0x2C h
              · exact pcelt_advance 0x2C h
            · split
              · exact string_loop_pcelt rem _ _ _ _ (pcelt_advance 0x22 h)
              · split
                · exact number_loop_pcelt rem _ _ _ _ (pcelt_advance ch h)
                · split
                  · unfold handle_literal
                    split
                    · exact literal_tail_loop_pcelt _ rem _ (pcelt_advance ch h)
                    · split
                      · exact literal_tail_loop_pcelt _ rem _ (pcelt_advance ch h)
                      · split
                        · exact literal_tail_loop_pcelt _ rem _ (pcelt_advance ch h)
                        · exact pcelt_advance ch h
                  · exact h

theorem hunt_step_open_pcelt (ch : Nat) (t : JsonTracker) (rem : List Nat)
    (h : ch = 0x5B ∨ ch = 0x7B) : PceLt (hunt_step ch t rem).2.1 := by
  rcases h with h | h <;> subst h <;> unfold hunt_step <;> simp
  · exact lsb_loop_pcelt rem _ (pcelt_add_ident t 0x5B)
  · exact lcb_loop_pcelt rem _ (pcelt_add_ident t 0x7B)

theorem hunt_pcelt : ∀ fuel ch t rem, PceLt t → PceLt (hunt fuel ch t rem).2.1 := by
  intro fuel
  induction fuel with
  | zero => intro ch t rem h; simpa [hunt] using h
  | succ f ih =>
    intro ch t rem h
    unfold hunt
    rcases hr : hunt_step ch t rem with ⟨cause, t', rem'⟩
    have ht' : PceLt t' := by
      have := hunt_step_pcelt ch t rem h; rw [hr] at this; exact this
    cases cause <;> simp only <;> first
      | exact ih _ _ _ ht'
      | exact ht'

theorem hunt_open_pcelt (fuel ch : Nat) (t : JsonTracker) (rem : List Nat)
    (h : ch = 0x5B ∨ ch = 0x7B) : PceLt (hunt (fuel + 1) ch t rem).2.1 := by
  unfold hunt
  rcases hr : hunt_step ch t rem with ⟨cause, t', rem'⟩
  have ht' : PceLt t' := by
    have := hunt_step_open_pcelt ch t rem h; rw [hr] at this; exact this
  cases cause <;> simp only <;> first
    | exact hunt_pcelt _ _ _ _ ht'
    | exact ht'

theorem scout_opener :
    ∀ rem n ch rem', scout rem = (some (n, ch), rem') → ch = 0x5B ∨ ch = 0x7B := by
  intro rem
  induction rem with
  | nil => intro n ch rem' h; exact absurd h (by simp [scout])
  | cons b rest ih =>
    intro n ch rem' h
    unfold scout at h
    split at h
    · next hb =>
      simp only [Prod.mk.injEq, Option.some.injEq] at h
      rcases h with ⟨⟨_, hch⟩, _⟩
      subst hch
      simpa using hb
    · rcases hs : scout rest with ⟨o, r2⟩
      rw [hs] at h
      cases o with
      | none => exact absurd h (by simp)
      | some p =>
        rcases p with ⟨n2, ch2⟩
        simp only [Prod.mk.injEq, Option.some.injEq] at h
        rcases h with ⟨⟨_, hch⟩, _⟩
        subst hch
        exact ih _ _ _ hs

/-- Well-ordered report offsets: `start ≤ partial_end ≤ end`. -/
def ReportOK (r : ReportRec) : Prop :=
  r.start ≤ r.partial_end ∧ r.partial_end ≤ r.end_

theorem candidate_output_reportok {c : Carver} {res : Cause} {t : JsonTracker}
    {start : Nat} (h : PceLt t) :
    ∀ r ∈ (candidate_output c res t start).2, ReportOK r := by
  intro r hr
  have hlt : t.partial_close_end < t.processed.length := h
  cases res <;> simp only [candidate_output] at hr
  · simp at hr
  · split at hr
    · simp only [List.mem_singleton] at hr
      subst hr
      constructor
      · simp [ReportOK]
      · simp only [JsonTracker.cur]
        omega
    · simp at hr
  · simp at hr
  · split at hr
    · simp only [List.mem_singleton] at hr
      subst hr
      constructor
      · simp [ReportOK]
      · simp only [JsonTracker.cur]
        omega
    · simp at hr
  · simp at hr
  · simp at hr
  · simp at hr

theorem parse_step_opener {lastb : Option Nat} {rem : List Nat} {read ch : Nat}
    {rem1 : List Nat} (h : parse_step lastb rem = some ((read, ch), rem1)) :
    ch = 0x5B ∨ ch = 0x7B := by
  unfold parse_step at h
  rcases lastb with _ | b
  · simp only at h
    rcases hs : scout rem with ⟨o, r2⟩
    rw [hs] at h
    cases o with
    | none => simp at h
    | some rc =>
      rcases rc with ⟨n0, c0⟩
      simp only [Option.some.injEq, Prod.mk.injEq] at h
      rcases h with ⟨⟨_, hch⟩, _⟩
      subst hch
      exact scout_opener rem n0 c0 r2 hs
  · simp only at h
    split at h
    · next hb =>
      simp only [Option.some.injEq, Prod.mk.injEq] at h
      rcases h with ⟨⟨_, hch⟩, _⟩
      subst hch
      simpa [Or.comm] using hb
    · rcases hs : scout rem with ⟨o, r2⟩
      rw [hs] at h
      cases o with
      | none => simp at h
      | some rc =>
        rcases rc with ⟨n0, c0⟩
        simp only [Option.some.injEq, Prod.mk.injEq] at h
        rcases h with ⟨⟨_, hch⟩, _⟩
        subst hch
        exact scout_opener rem n0 c0 r2 hs

theorem parse_loop_reportok :
    ∀ fuel c t rem start lastb jout rout,
      (∀ r ∈ rout, ReportOK r) →
      ∀ r ∈ (parse_loop fuel c t rem start lastb jout rout).2, ReportOK r := by
  intro fuel
  induction fuel with
  | zero => intro c t rem start lastb jout rout hout; simpa [parse_loop] using hout
  | succ f ih =>
    intro c t rem start lastb jout rout hout r hr
    unfold parse_loop at hr
    rcases hstep : parse_step lastb rem with _ | p
    · rw [hstep] at hr
      exact hout r hr
    · rcases p with ⟨⟨read, ch⟩, rem1⟩
      rw [hstep] at hr
      simp only at hr
      have hop : ch = 0x5B ∨ ch = 0x7B := parse_step_opener hstep
      have hpce : PceLt (hunt (rem1.length + 1) ch t rem1).2.1 :=
        hunt_open_pcelt rem1.length ch t rem1 hop
      rcases hh : hunt (rem1.length + 1) ch t rem1 with ⟨cause, t', rem2⟩
      rw [hh] at hpce hr
      have ht' : PceLt t' := hpce
      cases cause with
      | Found b =>
        simp only at hr
        exact hout r hr
      | Corrupted cb =>
        simp only at hr
        refine ih c t'.quick_clean rem2 _ _ _ _ ?_ r hr
        intro r2 hr2
        rcases List.mem_append.mp hr2 with h2 | h2
        · exact hout r2 h2
        · exact candidate_output_reportok ht' r2 h2
      | Completed =>
        simp only at hr
        refine ih c t'.quick_clean rem2 _ _ _ _ ?_ r hr
        intro r2 hr2
        rcases List.mem_append.mp hr2 with h2 | h2
        · exact hout r2 h2
        · exact candidate_output_reportok ht' r2 h2
      | Exhausted =>
        simp only at hr
        rcases List.mem_append.mp hr with h2 | h2
        · exact hout r h2
        · exact candidate_output_reportok ht' r h2
      | Panicked => simp only at hr; exact hout r hr
      | HuntErr => simp only at hr; exact hout r hr
      | Spent => simp only at hr; exact hout r hr

/-- C8: every report record written by the carver satisfies
`start ≤ partial_end ≤ end` (with `partial_end = start + partial_close_end`
and `end = start + cur - 1`): from the first push of a hunt onwards the
bookmark satisfies `partial_close_end < cur`. -/
theorem C8_report_offsets_ordered (c : Carver) (input : List Nat) :
    ∀ r ∈ (c.parse input).2, r.start ≤ r.partial_end ∧ r.partial_end ≤ r.end_ := by
  intro r hr
  exact parse_loop_reportok (input.length + 2) c c.initTracker input 0 none [] []
    (by simp) r hr

/-- Witness for `C8_report_offsets_ordered`: the sole record produced by the
input `{a` is `corrupted,0,0,0`, and `0 ≤ 0 ∧ 0 ≤ 1`. -/
theorem C8_report_offsets_ordered_witness :
    ({ status := Cause.Corrupted 0x61, start := 0, end_ := 0, partial_end := 0 } :
        ReportRec).start ≤
      ({ status := Cause.Corrupted 0x61, start := 0, end_ := 0, partial_end := 0 } :
        ReportRec).partial_end ∧
    ({ status := Cause.Corrupted 0x61, start := 0, end_ := 0, partial_end := 0 } :
        ReportRec).partial_end ≤
      ({ status := Cause.Corrupted 0x61, start := 0, end_ := 0, partial_end := 0 } :
        ReportRec).end_ :=
  C8_report_offsets_ordered plainCfg [0x7B, 0x61] _ (by decide)

/-! ### The nest-stack invariant and panic freedom (C10)

Only `[` and `{` are ever pushed, and the stack is emptied only at the
completing pop, which exits the hunt immediately. Hence every handler that a
`Found` byte can dispatch runs with a non-empty stack of openers, and the
partial operations (`handle_comma`'s match, `handle_string`'s
`last_ident().unwrap()`, `handle_number`'s `last_byte().unwrap()`) cannot
fail; the model's `Panicked` outcome, which marks exactly those sites, is
unreachable. -/

/-- All stack entries are openers. -/
def StackElems (t : JsonTracker) : Prop :=
  ∀ x ∈ t.ident_levels, x = 0x5B ∨ x = 0x7B

/-- Non-empty stack of openers. -/
def StackInv (t : JsonTracker) : Prop :=
  t.ident_levels ≠ [] ∧ StackElems t

/-- Panic-freedom postcondition: the outcome is not a panic, and a `Found`
outcome hands the next handler a tracker that again satisfies `StackInv`. -/
def NPF (r : HRes) : Prop :=
  r.1 ≠ Cause.Panicked ∧ (∀ b, r.1 = Cause.Found b → StackInv r.2.1)

theorem stackinv_advance {t : JsonTracker} (b : Nat) (h : StackInv t) :
    StackInv (t.advance b) := h

theorem stackelems_advance {t : JsonTracker} (b : Nat) (h : StackElems t) :
    StackElems (t.advance b) := h

theorem stackinv_add_ident {t : JsonTracker} {b : Nat} (he : StackElems t)
    (hb : b = 0x5B ∨ b = 0x7B) : StackInv (t.add_ident b) := by
  refine ⟨by simp [JsonTracker.add_ident, JsonTracker.advance], ?_⟩
  intro x hx
  simp only [JsonTracker.add_ident, JsonTracker.advance, List.mem_cons] at hx
  rcases hx with hx | hx
  · subst hx; exact hb
  · exact he x hx

theorem lsb_loop_npf : ∀ rem t, StackInv t → NPF (lsb_loop t rem) := by
  intro rem
  induction rem with
  | nil =>
    intro t h
    exact ⟨by simp [lsb_loop], by intro b hb; simp [lsb_loop] at hb⟩
  | cons b rest ih =>
    intro t h
    unfold lsb_loop
    split
    · exact ⟨by simp, fun b' _ => h⟩
    · split
      · exact ih _ (stackinv_advance b h)
      · exact ⟨by simp, by intro b' hb; simp at hb⟩

theorem lcb_loop_npf : ∀ rem t, StackInv t → NPF (lcb_loop t rem) := by
  intro rem
  induction rem with
  | nil =>
    intro t h
    exact ⟨by simp [lcb_loop], by intro b hb; simp [lcb_loop] at hb⟩
  | cons b rest ih =>
    intro t h
    unfold lcb_loop
    split
    · exact ⟨by simp, fun b' _ => h⟩
    · split
      · exact ⟨by simp, fun b' _ => h⟩
      · split
        · exact ih _ (stackinv_advance b h)
        · exact ⟨by simp, by intro b' hb; simp at hb⟩

theorem sep_loop_npf : ∀ rem t, StackInv t → NPF (sep_loop t rem) := by
  intro rem
  induction rem with
  | nil =>
    intro t h
    exact ⟨by simp [sep_loop], by intro b hb; simp [sep_loop] at hb⟩
  | cons b rest ih =>
    intro t h
    unfold sep_loop
    split
    · exact ⟨by simp, fun b' _ => h⟩
    · split
      · exact ih _ (stackinv_advance b h)
      · exact ⟨by simp, by intro b' hb; simp at hb⟩

theorem value_start_loop_npf : ∀ rem t, StackInv t → NPF (value_start_loop t rem) := by
  intro rem
  induction rem with
  | nil =>
    intro t h
    exact ⟨by simp [value_start_loop], by intro b hb; simp [value_start_loop] at hb⟩
  | cons b rest ih =>
    intro t h
    unfold value_start_loop
    split
    · exact ⟨by simp, fun b' _ => h⟩
    · split
      · exact ih _ (stackinv_advance b h)
      · exact ⟨by simp, by intro b' hb; simp at hb⟩

theorem comma_obj_loop_npf : ∀ rem t, StackInv t → NPF (comma_obj_loop t rem) := by
  intro rem
  induction rem with
  | nil =>
    intro t h
    exact ⟨by simp [comma_obj_loop], by intro b hb; simp [comma_obj_loop] at hb⟩
  | cons b rest ih =>
    intro t h
    unfold comma_obj_loop
    split
    · exact ⟨by simp, fun b' _ => h⟩
    · split
      · exact ih _ (stackinv_advance b h)
      · exact ⟨by simp, by intro b' hb; simp at hb⟩

theorem string_loop_npf :
    ∀ rem t is ie eu, StackInv t → NPF (string_loop t is ie eu rem) := by
  intro rem
  induction rem with
  | nil =>
    intro t is ie eu h
    exact ⟨by simp [string_loop], by intro b hb; simp [string_loop] at hb⟩
  | cons b rest ih =>
    intro t is ie eu h
    unfold string_loop
    have hli : ∃ x, t.last_ident = some x := by
      unfold JsonTracker.last_ident
      cases hs : t.ident_levels with
      | nil => exact absurd hs h.1
      | cons a as => exact ⟨a, by simp⟩
    rcases hli with ⟨x, hx⟩
    rw [hx]
    simp only
    split
    · split
      · exact ih _ _ _ _ (stackinv_advance b h)
      · split
        · exact ⟨by simp, fun b' _ => h⟩
        · split
          · exact ⟨by simp, fun b' _ => h⟩
          · split
            · exact ⟨by simp, fun b' _ => h⟩
            · exact ⟨by simp, by intro b' hb; simp at hb⟩
    · split
      · exact ih _ _ _ _ (stackinv_advance b h)
      · split
        · exact ih _ _ _ _ (stackinv_advance b h)
        · split
          · exact ⟨by simp, by intro b' hb; simp at hb⟩
          · split
            · split
              · exact ⟨by simp, by intro b' hb; simp at hb⟩
              · exact ih _ _ _ _ (stackinv_advance b h)
            · split
              · exact ih _ _ _ _ (stackinv_advance b h)
              · split
                · split
                  · exact ih _ _ _ _ (stackinv_advance b h)
                  · exact ⟨by simp, by intro b' hb; simp at hb⟩
                · split
                  · split
                    · exact ih _ _ _ _ (stackinv_advance b h)
                    · exact ⟨by simp, by intro b' hb; simp at hb⟩
                  · exact ⟨by simp, by intro b' hb; simp at hb⟩

theorem number_loop_npf :
    ∀ rem t f e lz, StackInv t → t.processed ≠ [] → NPF (number_loop t f e lz rem) := by
  intro rem
  induction rem with
  | nil =>
    intro t f e lz h hp
    exact ⟨by simp [number_loop], by intro b hb; simp [number_loop] at hb⟩
  | cons b rest ih =>
    intro t f e lz h hp
    unfold number_loop
    have hlb : ∃ x, t.last_byte = some x := by
      unfold JsonTracker.last_byte
      cases hs : t.processed with
      | nil => exact absurd hs hp
      | cons a as => exact ⟨(a :: as).getLast (by simp), by simp [List.getLast?_eq_getLast]⟩
    rcases hlb with ⟨x, hx⟩
    rw [hx]
    simp only
    have hp' : ∀ y, (t.advance y).processed ≠ [] := by
      intro y; simp [JsonTracker.advance]
    split
    · exact ⟨by simp, by intro b' hb; simp at hb⟩
    · split
      · exact ih _ _ _ _ (stackinv_advance b h) (hp' b)
      · split
        · exact ih _ _ _ _ (stackinv_advance b h) (hp' b)
        · split
          · exact ih _ _ _ _ (stackinv_advance b h) (hp' b)
          · split
            · split
              · exact ⟨by simp, by intro b' hb; simp at hb⟩
              · exact ih _ _ _ _ (stackinv_advance b h) (hp' b)
            · split
              · split
                · exact ⟨by simp, by intro b' hb; simp at hb⟩
                · exact ih _ _ _ _ (stackinv_advance b h) (hp' b)
              · split
                · exact ⟨by simp, fun b' _ => h⟩
                · exact ⟨by simp, by intro b' hb; simp at hb⟩

theorem literal_tail_loop_npf :
    ∀ ls rem t, StackInv t → NPF (literal_tail_loop ls t rem) := by
  intro ls
  induction ls with
  | nil => intro rem t h; exact sep_loop_npf rem t h
  | cons l ls ih =>
    intro rem t h
    cases rem with
    | nil =>
      exact ⟨by simp [literal_tail_loop], by intro b hb; simp [literal_tail_loop] at hb⟩
    | cons b rest =>
      unfold literal_tail_loop
      split
      · exact ih _ _ (stackinv_advance b h)
      · exact ⟨by simp, by intro b' hb; simp at hb⟩

theorem stackinv_remove_ident {t : JsonTracker} {e : Nat} {t' : JsonTracker}
    (he : StackElems t) (heq : t.remove_ident e = some (false, t')) : StackInv t' := by
  cases hs : t.ident_levels with
  | nil => simp [JsonTracker.remove_ident, hs] at heq
  | cons top rest =>
    simp only [JsonTracker.remove_ident, hs] at heq
    by_cases hte : top = e
    · rw [if_pos hte] at heq
      injection heq with h2
      injection h2 with hc ht
      subst ht
      refine ⟨?_, ?_⟩
      · have hr : rest ≠ [] := by
          intro hnil; rw [hnil] at hc; simp at hc
        simpa [JsonTracker.advance] using hr
      · intro x hx
        have hx' : x ∈ rest := hx
        exact he x (by rw [hs]; exact List.mem_cons_of_mem _ hx')
    · rw [if_neg hte] at heq; exact absurd heq (by simp)

theorem handle_comma_npf (t : JsonTracker) (rem : List Nat) (h : StackInv t) :
    NPF (handle_comma t rem) := by
  unfold handle_comma
  rcases h with ⟨hne, helems⟩
  cases hs : t.ident_levels with
  | nil => exact absurd hs hne
  | cons x xs =>
    have hli : (t.advance 0x2C).last_ident = some x := by
      simp [JsonTracker.last_ident, JsonTracker.advance, hs]
    rw [hli]
    simp only
    rcases helems x (by rw [hs]; exact List.mem_cons_self x xs) with hx | hx <;> subst hx
    · rw [if_pos rfl]
      exact value_start_loop_npf rem _ (stackinv_advance 0x2C ⟨hne, helems⟩)
    · rw [if_neg (by omega), if_pos rfl]
      exact comma_obj_loop_npf rem _ (stackinv_advance 0x2C ⟨hne, helems⟩)

theorem hunt_step_npf (ch : Nat) (t : JsonTracker) (rem : List Nat)
    (he : StackElems t) (h : StackInv t ∨ ch = 0x5B ∨ ch = 0x7B) :
    NPF (hunt_step ch t rem) := by
  unfold hunt_step
  split
  · exact lsb_loop_npf rem _ (stackinv_add_ident he (Or.inl rfl))
  · split
    · exact lcb_loop_npf rem _ (stackinv_add_ident he (Or.inr rfl))
    · have hsi : StackInv t := by
        rcases h with h | h | h
        · exact h
        · subst h; omega
        · subst h; omega
      split
      · unfold handle_right_square_bracket
        split
        · exact ⟨by simp, by intro b hb; simp at hb⟩
        · next heq => exact sep_loop_npf rem _ (stackinv_remove_ident hsi.2 heq)
        · exact ⟨by simp, by intro b hb; simp at hb⟩
      · split
        · unfold handle_right_curly_bracket
          split
          · exact ⟨by simp, by intro b hb; simp at hb⟩
          · next heq => exact sep_loop_npf rem _ (stackinv_remove_ident hsi.2 heq)
          · exact ⟨by simp, by intro b hb; simp at hb⟩
        · split
          · exact value_start_loop_npf rem _ hsi
          · split
            · exact handle_comma_npf t rem hsi
            · split
              · exact string_loop_npf rem _ true false 0 (stackinv_advance 0x22 hsi)
              · split
                · exact number_loop_npf rem _ false false none
                    (stackinv_advance ch hsi) (by simp [JsonTracker.advance])
                · split
                  · next hch =>
                    unfold handle_literal
                    split
                    · exact literal_tail_loop_npf _ rem _ (stackinv_advance ch hsi)
                    · split
                      · exact literal_tail_loop_npf _ rem _ (stackinv_advance ch hsi)
                      · split
                        · exact literal_tail_loop_npf _ rem _ (stackinv_advance ch hsi)
                        · exfalso
                          simp only [Bool.or_eq_true, decide_eq_true_eq] at hch
                          omega
                  · exact ⟨by simp, by intro b hb; simp at hb⟩

theorem hunt_noPanic :
    ∀ fuel ch t rem, StackElems t → (StackInv t ∨ ch = 0x5B ∨ ch = 0x7B) →
      (hunt fuel ch t rem).1 ≠ Cause.Panicked := by
  intro fuel
  induction fuel with
  | zero => intro ch t rem _ _; simp [hunt]
  | succ f ih =>
    intro ch t rem he h
    unfold hunt
    rcases hr : hunt_step ch t rem with ⟨cause, t', rem'⟩
    have hnpf := hunt_step_npf ch t rem he h
    rw [hr] at hnpf
    cases cause with
    | Found b =>
      simp only
      have hsi' : StackInv t' := hnpf.2 b rfl
      exact ih b t' rem' hsi'.2 (Or.inl hsi')
    | Corrupted b => simp
    | Completed => simp
    | Exhausted => simp
    | Panicked => exact (hnpf.1 rfl).elim
    | HuntErr => simp
    | Spent => simp

/-- C10: whenever `hunt` is entered with an opener byte (as the driver always
does, with a freshly cleaned tracker), no handler panics: the comma handler
always finds a non-empty nest stack topped by `[` or `{` (its
`unreachable!()` arms never execute), the string handler's
`last_ident().unwrap()` succeeds, and the number handler's
`last_byte().unwrap()` succeeds. The model's `Panicked` outcome marks
exactly those panic sites, and the hunt never returns it. -/
theorem C10_hunt_never_panics (input : List Nat) (ch : Nat) (t : JsonTracker)
    (hch : ch = 0x5B ∨ ch = 0x7B) (ht : StackElems t) :
    (hunt (input.length + 1) ch t input).1 ≠ Cause.Panicked :=
  hunt_noPanic (input.length + 1) ch t input ht (Or.inr hch)

/-- Witness for `C10_hunt_never_panics`: a hunt entered on `[` over the
bytes `,,` (the `[`-handler returns `Corrupted` on the first comma) does
not panic. -/
theorem C10_hunt_never_panics_witness :
    (hunt 3 0x5B (Carver.initTracker plainCfg) [0x2C, 0x2C]).1 ≠ Cause.Panicked :=
  C10_hunt_never_panics [0x2C, 0x2C] 0x5B (Carver.initTracker plainCfg)
    (Or.inl rfl) (by intro x hx; simp [Carver.initTracker] at hx)

/-- C5 (amended): `scout` consumes bytes up to and including the first
occurrence of `[` (0x5B) or `{` (0x7B) and returns `(bytes_consumed,
matched_byte)` with the matched byte counted in `bytes_consumed` and
consumed, so the next pull returns the byte after it; all bytes strictly
before the match are non-openers; if the source drains without a match,
end-of-stream is signalled (`none`) with the whole stream consumed. -/
theorem C5_scout_consumes_through_opener (rem : List Nat) :
    (∀ n ch rem', scout rem = (some (n, ch), rem') →
      1 ≤ n ∧ n ≤ rem.length ∧ rem' = rem.drop n ∧ rem[n - 1]? = some ch ∧
      (ch = 0x5B ∨ ch = 0x7B) ∧
      (∀ i, i < n - 1 → ∀ x, rem[i]? = some x → ¬(x = 0x5B ∨ x = 0x7B))) ∧
    (∀ rem', scout rem = (none, rem') →
      rem' = [] ∧ ∀ x ∈ rem, ¬(x = 0x5B ∨ x = 0x7B)) := by
  induction rem with
  | nil =>
    constructor
    · intro n ch rem' h; simp [scout] at h
    · intro rem' h
      simp only [scout, Prod.mk.injEq] at h
      exact ⟨h.2.symm, by simp⟩
  | cons b rest ih =>
    constructor
    · intro n ch rem' h
      unfold scout at h
      split at h
      · next hb =>
        simp only [Prod.mk.injEq, Option.some.injEq] at h
        rcases h with ⟨⟨hn, hch⟩, hrem⟩
        subst hn; subst hch; subst hrem
        refine ⟨le_refl 1, by simp, by simp, by simp, by simpa using hb, ?_⟩
        intro i hi
        omega
      · next hb =>
        rcases hs : scout rest with ⟨o, r2⟩
        rw [hs] at h
        cases o with
        | none => simp at h
        | some p =>
          rcases p with ⟨n2, ch2⟩
          simp only [Prod.mk.injEq, Option.some.injEq] at h
          rcases h with ⟨⟨hn, hch⟩, hrem⟩
          subst hch
          have hrec := ih.1 n2 _ r2 hs
          rcases hrec with ⟨h1, h2, h3, h4, h5, h6⟩
          subst hn
          refine ⟨by omega, by simpa using by omega, ?_, ?_, h5, ?_⟩
          · subst hrem; simp [h3]
          · have : n2 + 1 - 1 = n2 := by omega
            rw [this]
            have hne : n2 ≠ 0 := by omega
            rw [List.getElem?_cons]
            rw [if_neg hne]
            have : n2 - 1 = n2 - 1 := rfl
            simpa using h4
          · intro i hi x hx
            rcases Nat.eq_zero_or_pos i with hz | hpos
            · subst hz
              rw [List.getElem?_cons_zero] at hx
              injection hx with hx
              subst hx
              simpa using hb
            · have hne : i ≠ 0 := by omega
              rw [List.getElem?_cons, if_neg hne] at hx
              exact h6 (i - 1) (by omega) x hx
    · intro rem' h
      unfold scout at h
      split at h
      · simp at h
      · next hb =>
        rcases hs : scout rest with ⟨o, r2⟩
        rw [hs] at h
        cases o with
        | some p => rcases p with ⟨n2, ch2⟩; simp at h
        | none =>
          simp only [Prod.mk.injEq] at h
          have hrec := ih.2 r2 hs
          refine ⟨by rw [← h.2]; exact hrec.1, ?_⟩
          intro x hx
          rcases List.mem_cons.mp hx with hx | hx
          · subst hx; simpa using hb
          · exact hrec.2 x hx

/-- Witness for `C5_scout_consumes_through_opener` on the stream `a[b`. -/
theorem C5_scout_consumes_through_opener_witness :
    1 ≤ 2 ∧ 2 ≤ ([0x61, 0x5B, 0x62] : List Nat).length ∧
    ([0x62] : List Nat) = ([0x61, 0x5B, 0x62] : List Nat).drop 2 ∧
    ([0x61, 0x5B, 0x62] : List Nat)[2 - 1]? = some 0x5B ∧
    ((0x5B : Nat) = 0x5B ∨ (0x5B : Nat) = 0x7B) ∧
    (∀ i, i < 2 - 1 → ∀ x, ([0x61, 0x5B, 0x62] : List Nat)[i]? = some x →
      ¬(x = 0x5B ∨ x = 0x7B)) :=
  (C5_scout_consumes_through_opener [0x61, 0x5B, 0x62]).1 2 0x5B [0x62] (by decide)

/-! ### Provenance of JSON-sink bytes (C6)

Every byte the tracker appends is the newline-substituted image of a consumed
input byte (the constants appended by the handlers equal the dispatched byte,
which was itself consumed from the input), so every byte emitted to the JSON
sink is either such an image, a newline separator, or a closer synthesized by
the repair writer. -/

/-- Postcondition of a handler for the provenance invariant: every live
buffer byte satisfies `P`, the remaining stream is a sub-multiset of the
entry stream, a `Found` byte was consumed from the entry stream, the stack
still holds only openers, and `replace_newlines` is unchanged. -/
def C6Post (P : Nat → Prop) (r : Bool) (rem : List Nat) (res : HRes) : Prop :=
  (∀ x ∈ res.2.1.processed, P x) ∧
  (∀ x ∈ res.2.2, x ∈ rem) ∧
  (∀ b, res.1 = Cause.Found b → b ∈ rem) ∧
  (∀ b, res.1 = Cause.Corrupted b → P (subst_newline r b)) ∧
  StackElems res.2.1 ∧
  res.2.1.replace_newlines = r

theorem C6Post.mono {P : Nat → Prop} {r : Bool} {rem1 rem2 : List Nat} {res : HRes}
    (h : C6Post P r rem1 res) (hsub : ∀ x ∈ rem1, x ∈ rem2) : C6Post P r rem2 res :=
  ⟨h.1, fun x hx => hsub _ (h.2.1 x hx), fun b hb => hsub _ (h.2.2.1 b hb),
   h.2.2.2.1, h.2.2.2.2.1, h.2.2.2.2.2⟩

/-- The entry hypotheses of the provenance invariant. -/
def C6Pre (P : Nat → Prop) (r : Bool) (t : JsonTracker) (rem : List Nat) : Prop :=
  (∀ x ∈ t.processed, P x) ∧ (∀ x ∈ rem, P (subst_newline r x)) ∧
  StackElems t ∧ t.replace_newlines = r

theorem c6pre_advance {P : Nat → Prop} {r : Bool} {t : JsonTracker} {b : Nat}
    {rest : List Nat} (h : C6Pre P r t (b :: rest)) : C6Pre P r (t.advance b) rest := by
  obtain ⟨h1, h2, h3, h4⟩ := h
  refine ⟨?_, fun x hx => h2 x (List.mem_cons_of_mem _ hx), h3, h4⟩
  intro x hx
  rcases List.mem_append.mp hx with hx | hx
  · exact h1 x hx
  · rw [List.mem_singleton] at hx
    subst hx
    rw [h4]
    exact h2 b (List.mem_cons_self b rest)

theorem c6post_stay {P : Nat → Prop} {r : Bool} {t : JsonTracker} {c : Cause}
    {rem rem' : List Nat} (h : C6Pre P r t rem) (hsub : ∀ x ∈ rem', x ∈ rem)
    (hnf : ∀ b, c ≠ Cause.Found b)
    (hcor : ∀ b, c = Cause.Corrupted b → P (subst_newline r b)) :
    C6Post P r rem (c, t, rem') :=
  ⟨h.1, hsub, fun b hb => absurd hb (hnf b), hcor, h.2.2.1, h.2.2.2⟩

theorem c6post_corrupt {P : Nat → Prop} {r : Bool} {t : JsonTracker} {b : Nat}
    {rest : List Nat} (h : C6Pre P r t (b :: rest)) :
    C6Post P r (b :: rest) (Cause.Corrupted b, t, rest) :=
  ⟨h.1, fun x hx => List.mem_cons_of_mem _ hx, fun b' hb' => by simp at hb',
   fun b' hb' => by
     injection hb' with hb'
     subst hb'
     exact h.2.1 b (List.mem_cons_self b rest),
   h.2.2.1, h.2.2.2⟩

theorem c6post_found {P : Nat → Prop} {r : Bool} {t : JsonTracker} {b : Nat}
    {rest : List Nat} (h : C6Pre P r t (b :: rest)) :
    C6Post P r (b :: rest) (Cause.Found b, t, rest) :=
  ⟨h.1, fun x hx => List.mem_cons_of_mem _ hx,
   fun b' hb' => by
     injection hb' with hb'
     subst hb'
     exact List.mem_cons_self b rest,
   fun b' hb' => by simp at hb',
   h.2.2.1, h.2.2.2⟩

theorem c6post_found_inkey {P : Nat → Prop} {r : Bool} {t : JsonTracker} {b : Nat}
    {rest : List Nat} (h : C6Pre P r t (b :: rest)) :
    C6Post P r (b :: rest) (Cause.Found b, { t with in_key := true }, rest) :=
  ⟨h.1, fun x hx => List.mem_cons_of_mem _ hx,
   fun b' hb' => by
     injection hb' with hb'
     subst hb'
     exact List.mem_cons_self b rest,
   fun b' hb' => by simp at hb',
   h.2.2.1, h.2.2.2⟩

theorem lsb_loop_c6 {P : Nat → Prop} {r : Bool} :
    ∀ rem t, C6Pre P r t rem → C6Post P r rem (lsb_loop t rem) := by
  intro rem
  induction rem with
  | nil => intro t h; exact c6post_stay h (by simp) (by simp) (by simp)
  | cons b rest ih =>
    intro t h
    unfold lsb_loop
    split
    · exact c6post_found h
    · split
      · exact (ih _ (c6pre_advance h)).mono (fun x hx => List.mem_cons_of_mem _ hx)
      · exact c6post_corrupt h

theorem lcb_loop_c6 {P : Nat → Prop} {r : Bool} :
    ∀ rem t, C6Pre P r t rem → C6Post P r rem (lcb_loop t rem) := by
  intro rem
  induction rem with
  | nil => intro t h; exact c6post_stay h (by simp) (by simp) (by simp)
  | cons b rest ih =>
    intro t h
    unfold lcb_loop
    split
    · exact c6post_found_inkey h
    · split
      · exact c6post_found h
      · split
        · exact (ih _ (c6pre_advance h)).mono (fun x hx => List.mem_cons_of_mem _ hx)
        · exact c6post_corrupt h

theorem sep_loop_c6 {P : Nat → Prop} {r : Bool} :
    ∀ rem t, C6Pre P r t rem → C6Post P r rem (sep_loop t rem) := by
  intro rem
  induction rem with
  | nil => intro t h; exact c6post_stay h (by simp) (by simp) (by simp)
  | cons b rest ih =>
    intro t h
    unfold sep_loop
    split
    · exact c6post_found h
    · split
      · exact (ih _ (c6pre_advance h)).mono (fun x hx => List.mem_cons_of_mem _ hx)
      · exact c6post_corrupt h

theorem value_start_loop_c6 {P : Nat → Prop} {r : Bool} :
    ∀ rem t, C6Pre P r t rem → C6Post P r rem (value_start_loop t rem) := by
  intro rem
  induction rem with
  | nil => intro t h; exact c6post_stay h (by simp) (by simp) (by simp)
  | cons b rest ih =>
    intro t h
    unfold value_start_loop
    split
    · exact c6post_found h
    · split
      · exact (ih _ (c6pre_advance h)).mono (fun x hx => List.mem_cons_of_mem _ hx)
      · exact c6post_corrupt h

theorem comma_obj_loop_c6 {P : Nat → Prop} {r : Bool} :
    ∀ rem t, C6Pre P r t rem → C6Post P r rem (comma_obj_loop t rem) := by
  intro rem
  induction rem with
  | nil => intro t h; exact c6post_stay h (by simp) (by simp) (by simp)
  | cons b rest ih =>
    intro t h
    unfold comma_obj_loop
    split
    · exact c6post_found_inkey h
    · split
      · exact (ih _ (c6pre_advance h)).mono (fun x hx => List.mem_cons_of_mem _ hx)
      · exact c6post_corrupt h

theorem string_loop_c6 {P : Nat → Prop} {r : Bool} :
    ∀ rem t is ie eu, C6Pre P r t rem → C6Post P r rem (string_loop t is ie eu rem) := by
  intro rem
  induction rem with
  | nil => intro t is ie eu h; exact c6post_stay h (by simp) (by simp) (by simp)
  | cons b rest ih =>
    intro t is ie eu h
    unfold string_loop
    cases t.last_ident with
    | none => exact c6post_stay h (fun x hx => hx) (by simp) (by simp)
    | some li =>
      simp only
      have hmono : ∀ res : HRes, C6Post P r rest res → C6Post P r (b :: rest) res :=
        fun res hres => hres.mono (fun x hx => List.mem_cons_of_mem _ hx)
      split
      · split
        · exact hmono _ (ih _ _ _ _ (c6pre_advance h))
        · split
          · exact c6post_found h
          · split
            · exact c6post_found h
            · split
              · exact c6post_found h
              · exact c6post_corrupt h
      · split
        · exact hmono _ (ih _ _ _ _ (c6pre_advance h))
        · split
          · exact hmono _ (ih _ _ _ _ (c6pre_advance h))
          · split
            · exact c6post_corrupt h
            · split
              · split
                · exact c6post_corrupt h
                · exact hmono _ (ih _ _ _ _ (c6pre_advance h))
              · split
                · exact hmono _ (ih _ _ _ _ (c6pre_advance h))
                · split
                  · split
                    · exact hmono _ (ih _ _ _ _ (c6pre_advance h))
                    · exact c6post_corrupt h
                  · split
                    · split
                      · exact hmono _ (ih _ _ _ _ (c6pre_advance h))
                      · exact c6post_corrupt h
                    · exact c6post_corrupt h

theorem number_loop_c6 {P : Nat → Prop} {r : Bool} :
    ∀ rem t f e lz, C6Pre P r t rem → C6Post P r rem (number_loop t f e lz rem) := by
  intro rem
  induction rem with
  | nil => intro t f e lz h; exact c6post_stay h (by simp) (by simp) (by simp)
  | cons b rest ih =>
    intro t f e lz h
    unfold number_loop
    cases t.last_byte with
    | none => exact c6post_stay h (fun x hx => hx) (by simp) (by simp)
    | some lb =>
      simp only
      have hmono : ∀ res : HRes, C6Post P r rest res → C6Post P r (b :: rest) res :=
        fun res hres => hres.mono (fun x hx => List.mem_cons_of_mem _ hx)
      split
      · exact c6post_corrupt h
      · split
        · exact hmono _ (ih _ _ _ _ (c6pre_advance h))
        · split
          · exact hmono _ (ih _ _ _ _ (c6pre_advance h))
          · split
            · exact hmono _ (ih _ _ _ _ (c6pre_advance h))
            · split
              · split
                · exact c6post_corrupt h
                · exact hmono _ (ih _ _ _ _ (c6pre_advance h))
              · split
                · split
                  · exact c6post_corrupt h
                  · exact hmono _ (ih _ _ _ _ (c6pre_advance h))
                · split
                  · exact c6post_found h
                  · exact c6post_corrupt h

theorem literal_tail_loop_c6 {P : Nat → Prop} {r : Bool} :
    ∀ ls rem t, C6Pre P r t rem → C6Post P r rem (literal_tail_loop ls t rem) := by
  intro ls
  induction ls with
  | nil => intro rem t h; exact sep_loop_c6 rem t h
  | cons l ls ih =>
    intro rem t h
    cases rem with
    | nil => exact c6post_stay h (by simp) (by simp) (by simp)
    | cons b rest =>
      unfold literal_tail_loop
      split
      · exact (ih _ _ (c6pre_advance h)).mono (fun x hx => List.mem_cons_of_mem _ hx)
      · exact c6post_corrupt h

theorem c6pre_push_const {P : Nat → Prop} {r : Bool} {t : JsonTracker}
    {rem : List Nat} (h : C6Pre P r t rem) (b : Nat) (hb : P (subst_newline r b)) :
    C6Pre P r (t.advance b) rem := by
  obtain ⟨h1, h2, h3, h4⟩ := h
  refine ⟨?_, h2, h3, h4⟩
  intro x hx
  rcases List.mem_append.mp hx with hx | hx
  · exact h1 x hx
  · rw [List.mem_singleton] at hx
    subst hx
    rw [h4]
    exact hb

theorem c6pre_add_ident {P : Nat → Prop} {r : Bool} {t : JsonTracker}
    {rem : List Nat} (h : C6Pre P r t rem) {b : Nat} (hb : P (subst_newline r b))
    (hop : b = 0x5B ∨ b = 0x7B) : C6Pre P r (t.add_ident b) rem := by
  obtain ⟨h1, h2, h3, h4⟩ := h
  refine ⟨?_, h2, ?_, h4⟩
  · intro x hx
    simp only [JsonTracker.add_ident, JsonTracker.advance] at hx
    rcases List.mem_append.mp hx with hx | hx
    · exact h1 x hx
    · rw [List.mem_singleton] at hx
      subst hx
      rw [h4]
      exact hb
  · intro x hx
    simp only [JsonTracker.add_ident, JsonTracker.advance, List.mem_cons] at hx
    rcases hx with hx | hx
    · subst hx; exact hop
    · exact h3 x hx

theorem c6pre_remove_ident {P : Nat → Prop} {r : Bool} {t : JsonTracker}
    {rem : List Nat} {e : Nat} {c : Bool} {t' : JsonTracker} (h : C6Pre P r t rem)
    (hcl : P (subst_newline r (_closing_ident e)))
    (heq : t.remove_ident e = some (c, t')) : C6Pre P r t' rem := by
  obtain ⟨h1, h2, h3, h4⟩ := h
  cases hs : t.ident_levels with
  | nil => simp [JsonTracker.remove_ident, hs] at heq
  | cons top rest =>
    simp only [JsonTracker.remove_ident, hs] at heq
    by_cases hte : top = e
    · rw [if_pos hte] at heq
      injection heq with h5
      injection h5 with hc ht
      subst ht
      refine ⟨?_, h2, ?_, h4⟩
      · intro x hx
        simp only [JsonTracker.advance] at hx
        rcases List.mem_append.mp hx with hx | hx
        · exact h1 x hx
        · rw [List.mem_singleton] at hx
          subst hx
          show P (subst_newline t.replace_newlines (_closing_ident e))
          rw [h4]
          exact hcl
      · intro x hx
        have hx' : x ∈ rest := hx
        exact h3 x (by rw [hs]; exact List.mem_cons_of_mem _ hx')
    · rw [if_neg hte] at heq; exact absurd heq (by simp)

theorem hunt_step_c6 {P : Nat → Prop} {r : Bool} (ch : Nat) (t : JsonTracker)
    (rem : List Nat) (h : C6Pre P r t rem) (hch : P (subst_newline r ch)) :
    C6Post P r rem (hunt_step ch t rem) := by
  unfold hunt_step
  split
  · next hc => subst hc; exact lsb_loop_c6 rem _ (c6pre_add_ident h hch (Or.inl rfl))
  · split
    · next hc => subst hc; exact lcb_loop_c6 rem _ (c6pre_add_ident h hch (Or.inr rfl))
    · split
      · next hc =>
        subst hc
        unfold handle_right_square_bracket
        split
        · next heq =>
          exact c6post_stay (c6pre_remove_ident h hch heq) (fun x hx => hx)
            (by simp) (by simp)
        · next heq => exact sep_loop_c6 rem _ (c6pre_remove_ident h hch heq)
        · exact c6post_stay h (fun x hx => hx) (by simp)
            (fun b' hb' => by injection hb' with hb'; subst hb'; exact hch)
      · split
        · next hc =>
          subst hc
          unfold handle_right_curly_bracket
          split
          · next heq =>
            exact c6post_stay (c6pre_remove_ident h hch heq) (fun x hx => hx)
              (by simp) (by simp)
          · next heq => exact sep_loop_c6 rem _ (c6pre_remove_ident h hch heq)
          · exact c6post_stay h (fun x hx => hx) (by simp)
              (fun b' hb' => by injection hb' with hb'; subst hb'; exact hch)
        · split
          · next hc =>
            subst hc
            exact value_start_loop_c6 rem _ (c6pre_push_const h 0x3A hch)
          · split
            · next hc =>
              subst hc
              unfold handle_comma
              split
              · split
                · exact value_start_loop_c6 rem _ (c6pre_push_const h 0x2C hch)
                · split
                  · exact comma_obj_loop_c6 rem _ (c6pre_push_const h 0x2C hch)
                  · exact c6post_stay (c6pre_push_const h 0x2C hch)
                      (fun x hx => hx) (by simp) (by simp)
              · exact c6post_stay (c6pre_push_const h 0x2C hch)
                  (fun x hx => hx) (by simp) (by simp)
            · split
              · next hc =>
                subst hc
                exact string_loop_c6 rem _ true false 0 (c6pre_push_const h 0x22 hch)
              · split
                · exact number_loop_c6 rem _ false false none (c6pre_push_const h ch hch)
                · split
                  · unfold handle_literal
                    split
                    · exact literal_tail_loop_c6 _ rem _ (c6pre_push_const h ch hch)
                    · split
                      · exact literal_tail_loop_c6 _ rem _ (c6pre_push_const h ch hch)
                      · split
                        · exact literal_tail_loop_c6 _ rem _ (c6pre_push_const h ch hch)
                        · exact c6post_stay (c6pre_push_const h ch hch)
                            (fun x hx => hx) (by simp) (by simp)
                  · exact c6post_stay h (fun x hx => hx) (by simp) (by simp)

theorem hunt_c6 {P : Nat → Prop} {r : Bool} :
    ∀ fuel ch t rem, C6Pre P r t rem → P (subst_newline r ch) →
      C6Post P r rem (hunt fuel ch t rem) := by
  intro fuel
  induction fuel with
  | zero =>
    intro ch t rem h hch
    exact c6post_stay h (fun x hx => hx) (by simp) (by simp)
  | succ f ih =>
    intro ch t rem h hch
    unfold hunt
    rcases hr : hunt_step ch t rem with ⟨cause, t', rem'⟩
    have hpost := hunt_step_c6 ch t rem h hch
    rw [hr] at hpost
    cases cause with
    | Found b =>
      simp only
      have hbrem : b ∈ rem := hpost.2.2.1 b rfl
      have hpre' : C6Pre P r t' rem' :=
        ⟨hpost.1, fun x hx => h.2.1 x (hpost.2.1 x hx), hpost.2.2.2.2.1,
         hpost.2.2.2.2.2⟩
      exact (ih b t' rem' hpre' (h.2.1 b hbrem)).mono hpost.2.1
    | Corrupted b => exact hpost
    | Completed => exact hpost
    | Exhausted => exact hpost
    | Panicked => exact hpost
    | HuntErr => exact hpost
    | Spent => exact hpost

theorem candidate_output_c6 {P : Nat → Prop} {c : Carver} {res : Cause}
    {t : JsonTracker} {start : Nat} (hproc : ∀ x ∈ t.processed, P x)
    (hst : StackElems t) (h10 : P 0x0A)
    (h5D : c.fix_incomplete = true → P 0x5D)
    (h7D : c.fix_incomplete = true → P 0x7D) :
    ∀ b ∈ (candidate_output c res t start).1, P b := by
  have hinc : c.fix_incomplete = true → ∀ b ∈ print_incomplete t, P b := by
    intro hfix b hb
    simp only [print_incomplete, List.append_assoc, List.mem_append] at hb
    rcases hb with hb | hb | hb
    · exact hproc b (List.take_subset _ _ hb)
    · rcases List.mem_map.mp hb with ⟨y, hy, hxy⟩
      rcases hst y hy with h5 | h7
      · subst h5; rw [← hxy]; exact h5D hfix
      · subst h7; rw [← hxy]; exact h7D hfix
    · rw [List.mem_singleton] at hb; subst hb; exact h10
  intro b hb
  cases res <;> simp only [candidate_output] at hb
  · simp at hb
  · split at hb
    · split at hb
      · rename_i hfix
        exact hinc hfix b hb
      · simp at hb
    · simp at hb
  · split at hb
    · rcases List.mem_append.mp hb with hb | hb
      · exact hproc b hb
      · rw [List.mem_singleton] at hb; subst hb; exact h10
    · simp at hb
  · split at hb
    · split at hb
      · rename_i hfix
        exact hinc hfix b hb
      · simp at hb
    · simp at hb
  · simp at hb
  · simp at hb
  · simp at hb

theorem parse_step_sub {lastb : Option Nat} {rem : List Nat} {read ch : Nat}
    {rem1 : List Nat} (h : parse_step lastb rem = some ((read, ch), rem1)) :
    (∀ x ∈ rem1, x ∈ rem) ∧ (ch ∈ rem ∨ lastb = some ch) := by
  unfold parse_step at h
  rcases lastb with _ | lb
  · rcases hs : scout rem with ⟨o, r2⟩
    rw [hs] at h
    cases o with
    | none => simp at h
    | some p =>
      rcases p with ⟨n0, c0⟩
      simp only [Option.some.injEq, Prod.mk.injEq] at h
      rcases h with ⟨⟨_, hch⟩, hr1⟩
      subst hch
      subst hr1
      have hc5 := (C5_scout_consumes_through_opener rem).1 n0 c0 r2 hs
      refine ⟨?_, Or.inl (List.getElem?_mem hc5.2.2.2.1)⟩
      intro x hx
      rw [hc5.2.2.1] at hx
      exact List.drop_subset _ _ hx
  · simp only at h
    split at h
    · injection h with h2
      injection h2 with h3 h4
      injection h3 with h5 h6
      subst h6
      subst h4
      exact ⟨fun x hx => hx, Or.inr rfl⟩
    · rcases hs : scout rem with ⟨o, r2⟩
      rw [hs] at h
      cases o with
      | none => simp at h
      | some p =>
        rcases p with ⟨n0, c0⟩
        simp only [Option.some.injEq, Prod.mk.injEq] at h
        rcases h with ⟨⟨_, hch⟩, hr1⟩
        subst hch
        subst hr1
        have hc5 := (C5_scout_consumes_through_opener rem).1 n0 c0 r2 hs
        refine ⟨?_, Or.inl (List.getElem?_mem hc5.2.2.2.1)⟩
        intro x hx
        rw [hc5.2.2.1] at hx
        exact List.drop_subset _ _ hx

theorem parse_loop_c6 {P : Nat → Prop} :
    ∀ fuel c t rem start lastb jout rout,
      C6Pre P c.replace_newlines t rem →
      (∀ b ∈ jout, P b) →
      (∀ b, lastb = some b → P (subst_newline c.replace_newlines b)) →
      P 0x0A → (c.fix_incomplete = true → P 0x5D) →
      (c.fix_incomplete = true → P 0x7D) →
      ∀ b ∈ (parse_loop fuel c t rem start lastb jout rout).1, P b := by
  intro fuel
  induction fuel with
  | zero =>
    intro c t rem start lastb jout rout h hj hl h10 h5D h7D
    simpa [parse_loop] using hj
  | succ f ih =>
    intro c t rem start lastb jout rout h hj hl h10 h5D h7D b hb
    unfold parse_loop at hb
    rcases hstep : parse_step lastb rem with _ | p
    · rw [hstep] at hb; exact hj b hb
    · rcases p with ⟨⟨read, ch⟩, rem1⟩
      rw [hstep] at hb
      simp only at hb
      have hsub := parse_step_sub hstep
      have hch : P (subst_newline c.replace_newlines ch) := by
        rcases hsub.2 with hc | hc
        · exact h.2.1 ch hc
        · exact hl ch hc
      have hpre1 : C6Pre P c.replace_newlines t rem1 :=
        ⟨h.1, fun x hx => h.2.1 x (hsub.1 x hx), h.2.2.1, h.2.2.2⟩
      have hpost := hunt_c6 (rem1.length + 1) ch t rem1 hpre1 hch
      rcases hh : hunt (rem1.length + 1) ch t rem1 with ⟨cause, t', rem2⟩
      rw [hh] at hpost hb
      have hproc' : ∀ x ∈ t'.processed, P x := hpost.1
      have hst' : StackElems t' := hpost.2.2.2.2.1
      have hrepl' : t'.replace_newlines = c.replace_newlines := hpost.2.2.2.2.2
      have hpre2 : ∀ rem2', (∀ x ∈ rem2', x ∈ rem1) →
          C6Pre P c.replace_newlines t'.quick_clean rem2' := by
        intro rem2' hs2
        refine ⟨by simp [JsonTracker.quick_clean], ?_,
          by intro x hx; simp [JsonTracker.quick_clean, StackElems] at hx ⊢, ?_⟩
        · intro x hx
          exact h.2.1 x (hsub.1 x (hs2 x hx))
        · simpa [JsonTracker.quick_clean] using hrepl'
      cases cause with
      | Completed =>
        simp only at hb
        refine ih c t'.quick_clean rem2 _ none _ _ (hpre2 rem2 hpost.2.1) ?_
          (by simp) h10 h5D h7D b hb
        intro x hx
        rcases List.mem_append.mp hx with hx | hx
        · exact hj x hx
        · exact candidate_output_c6 hproc' hst' h10 h5D h7D x hx
      | Corrupted cb =>
        simp only at hb
        refine ih c t'.quick_clean rem2 _ (some cb) _ _ (hpre2 rem2 hpost.2.1) ?_
          ?_ h10 h5D h7D b hb
        · intro x hx
          rcases List.mem_append.mp hx with hx | hx
          · exact hj x hx
          · exact candidate_output_c6 hproc' hst' h10 h5D h7D x hx
        · intro b' hb'
          injection hb' with hb'
          subst hb'
          exact hpost.2.2.2.1 cb rfl
      | Exhausted =>
        simp only at hb
        rcases List.mem_append.mp hb with hb2 | hb2
        · exact hj b hb2
        · exact candidate_output_c6 hproc' hst' h10 h5D h7D b hb2
      | Found b2 => simp only at hb; exact hj b hb
      | Panicked => simp only at hb; exact hj b hb
      | HuntErr => simp only at hb; exact hj b hb
      | Spent => simp only at hb; exact hj b hb

/-- C6 (amended): every byte written to the JSON sink is either the
(newline-substituted image of a) verbatim byte of the input, a trailing
newline separator, or — only when `fix_incomplete` is enabled — a closing
bracket (`]` / `}`) synthesized by the repair writer. -/
theorem C6_json_sink_provenance (c : Carver) (input : List Nat) :
    ∀ b ∈ (c.parse input).1,
      b ∈ input.map (subst_newline c.replace_newlines) ∨
      b = 0x0A ∨ (c.fix_incomplete = true ∧ (b = 0x5D ∨ b = 0x7D)) := by
  intro b hb
  refine @parse_loop_c6
    (fun y => y ∈ input.map (subst_newline c.replace_newlines) ∨
      y = 0x0A ∨ (c.fix_incomplete = true ∧ (y = 0x5D ∨ y = 0x7D)))
    (input.length + 2) c c.initTracker input 0 none [] []
    ?_ (by simp) (by simp) (Or.inr (Or.inl rfl))
    (fun hfix => Or.inr (Or.inr ⟨hfix, Or.inl rfl⟩))
    (fun hfix => Or.inr (Or.inr ⟨hfix, Or.inr rfl⟩)) b hb
  refine ⟨by simp [Carver.initTracker], ?_,
    by intro x hx; simp [Carver.initTracker, StackElems] at hx ⊢, rfl⟩
  intro x hx
  exact Or.inl (List.mem_map.mpr ⟨x, hx, rfl⟩)

/-- Witness for `C6_json_sink_provenance`: the closing brace emitted for the
repaired sole input `{` is covered by the synthesized-closer disjunct, which
records that `fix_incomplete` was on. -/
theorem C6_json_sink_provenance_witness :
    (0x7D : Nat) ∈ ([0x7B] : List Nat).map (subst_newline fixCfg.replace_newlines) ∨
    (0x7D : Nat) = 0x0A ∨
    (fixCfg.fix_incomplete = true ∧ ((0x7D : Nat) = 0x5D ∨ (0x7D : Nat) = 0x7D)) :=
  C6_json_sink_provenance fixCfg [0x7B] 0x7D (by decide)

/-! ### A byte-level JSON grammar (for C2 and C9)

`G lo k s` is a structural (RFC 8259) grammar over byte lists, parametrized
by the lowest byte `lo` allowed unescaped inside strings: `lo = 0x20` is the
RFC rule (controls below space must be escaped), `lo = 0x1F` additionally
admits the raw byte 0x1F, matching what the carver's string handler actually
accepts (see `C3_control_byte_0x1F_accepted`). The kinds other than `vK`
(a complete value) describe the partially-built inner byte string of a
container, mirroring the machine's syntactic positions:
`aFK`/`aMK` array expecting a (first/subsequent) value, `aAK` array after a
value, `oFK`/`oMK` object expecting a (first/subsequent) key, `oCK` object
after a key (expecting colon), `oVK` object after colon, `oAK` object after
a value. -/

/-- The states of the RFC 8259 number automaton
(`-? (0 | [1-9][0-9]*) (\.[0-9]+)? ([eE][+-]?[0-9]+)?`). -/
inductive NS where
  | start | sgn | zer | intg | dot | frac | ex | exsgn | exdig | dead
deriving Repr, DecidableEq

/-- Transition function of the number automaton. -/
def nstep (q : NS) (b : Nat) : NS :=
  match q with
  | .start =>
    if b = 0x2D then .sgn
    else if b = 0x30 then .zer
    else if 0x31 ≤ b ∧ b ≤ 0x39 then .intg
    else .dead
  | .sgn =>
    if b = 0x30 then .zer
    else if 0x31 ≤ b ∧ b ≤ 0x39 then .intg
    else .dead
  | .zer =>
    if b = 0x2E then .dot
    else if b = 0x65 ∨ b = 0x45 then .ex
    else .dead
  | .intg =>
    if isDigitByte b then .intg
    else if b = 0x2E then .dot
    else if b = 0x65 ∨ b = 0x45 then .ex
    else .dead
  | .dot => if isDigitByte b then .frac else .dead
  | .frac =>
    if isDigitByte b then .frac
    else if b = 0x65 ∨ b = 0x45 then .ex
    else .dead
  | .ex =>
    if b = 0x2D ∨ b = 0x2B then .exsgn
    else if isDigitByte b then .exdig
    else .dead
  | .exsgn => if isDigitByte b then .exdig else .dead
  | .exdig => if isDigitByte b then .exdig else .dead
  | .dead => .dead

/-- Accepting states of the number automaton. -/
def naccept (q : NS) : Bool :=
  match q with
  | .zer | .intg | .frac | .exdig => true
  | _ => false

/-- A byte list is an RFC 8259 number. -/
def numOk (s : List Nat) : Bool := naccept (s.foldl nstep NS.start)

/-- String-token scanner for the bytes after the opening quote: escapes per
RFC (`\" \\ \/ \b \f \n \r \t \uXXXX`), plain bytes at least `lo`, and the
closing quote must end the token. -/
def strTail (lo : Nat) : List Nat → Bool → Nat → Bool
  | [], _, _ => false
  | b :: rest, esc, eu =>
    if 0 < eu then
      if is_ascii_hexdigit b then strTail lo rest esc (eu - 1) else false
    else if esc then
      if b = 0x75 then strTail lo rest false 4
      else if byte_can_escape b then strTail lo rest false 0
      else false
    else if b = 0x22 then decide (rest = [])
    else if b = 0x5C then strTail lo rest true 0
    else if lo ≤ b then strTail lo rest false 0
    else false

/-- A byte list is a complete string token `"…"`. -/
def strLit (lo : Nat) (s : List Nat) : Bool :=
  match s with
  | 0x22 :: rest => strTail lo rest false 0
  | _ => false

/-- A byte list is one of the literals `true`, `false`, `null`. -/
def litOk (s : List Nat) : Bool :=
  decide (s = [0x74, 0x72, 0x75, 0x65]) ||
  decide (s = [0x66, 0x61, 0x6C, 0x73, 0x65]) ||
  decide (s = [0x6E, 0x75, 0x6C, 0x6C])

/-- Grammar kinds: a complete value, or a partially-built container inner. -/
inductive GKind where
  | vK | aFK | aAK | aMK | oFK | oAK | oMK | oCK | oVK
deriving Repr, DecidableEq

/-- Array-inner kinds. -/
def isArrK : GKind → Bool
  | .aFK | .aAK | .aMK => true
  | _ => false

/-- Object-inner kinds. -/
def isObjK : GKind → Bool
  | .oFK | .oAK | .oMK | .oCK | .oVK => true
  | _ => false

/-- Kinds at which the machine expects a value next. -/
def expectsValK : GKind → Bool
  | .aFK | .aMK | .oVK => true
  | _ => false

/-- Kinds at which the enclosing container may legally close. -/
def closableK : GKind → Bool
  | .aFK | .aAK | .oFK | .oAK => true
  | _ => false

/-- The byte-level JSON grammar. -/
inductive G (lo : Nat) : GKind → List Nat → Prop where
  | num (s : List Nat) : numOk s = true → G lo .vK s
  | strv (s : List Nat) : strLit lo s = true → G lo .vK s
  | lit (s : List Nat) : litOk s = true → G lo .vK s
  | arr (k : GKind) (s : List Nat) : isArrK k = true → closableK k = true →
      G lo k s → G lo .vK (0x5B :: (s ++ [0x5D]))
  | obj (k : GKind) (s : List Nat) : isObjK k = true → closableK k = true →
      G lo k s → G lo .vK (0x7B :: (s ++ [0x7D]))
  | afNil : G lo .aFK []
  | ofNil : G lo .oFK []
  | wsApp (k : GKind) (s : List Nat) (b : Nat) : k ≠ .vK → G lo k s →
      isWsByte b = true → G lo k (s ++ [b])
  | aVal (k : GKind) (s v : List Nat) : (k = .aFK ∨ k = .aMK) → G lo k s →
      G lo .vK v → G lo .aAK (s ++ v)
  | oVal (s v : List Nat) : G lo .oVK s → G lo .vK v → G lo .oAK (s ++ v)
  | aComma (s : List Nat) : G lo .aAK s → G lo .aMK (s ++ [0x2C])
  | oComma (s : List Nat) : G lo .oAK s → G lo .oMK (s ++ [0x2C])
  | oKey (k : GKind) (s ks : List Nat) : (k = .oFK ∨ k = .oMK) → G lo k s →
      strLit lo ks = true → G lo .oCK (s ++ ks)
  | oColon (s : List Nat) : G lo .oCK s → G lo .oVK (s ++ [0x3A])

/-- C9 (code bug): `[1\r]` is a structurally valid RFC 8259 JSON value whose
first byte is `[` (a carriage return is JSON whitespace), yet the carver with
`min_size = 0` emits nothing for it (the number handler corrupts on the
carriage return, see `C4_carriage_return_after_digit_corrupts`), instead of
emitting it byte-identical plus a newline. -/
theorem C9_valid_value_not_emitted :
    G 0x20 GKind.vK [0x5B, 0x31, 0x0D, 0x5D] ∧
    (Carver.parse plainCfg [0x5B, 0x31, 0x0D, 0x5D]).1 = [] ∧
    (Carver.parse fixCfg [0x5B, 0x31, 0x0D, 0x5D]).1 ≠
      [0x5B, 0x31, 0x0D, 0x5D, 0x0A] := by
  refine ⟨?_, by decide, by decide⟩
  have h1 : G 0x20 GKind.aAK [0x31] :=
    G.aVal .aFK [] [0x31] (Or.inl rfl) G.afNil (G.num [0x31] (by decide))
  have h2 : G 0x20 GKind.aAK [0x31, 0x0D] :=
    G.wsApp .aAK [0x31] 0x0D (by decide) h1 (by decide)
  exact G.arr .aAK [0x31, 0x0D] rfl rfl h2

theorem nstep_dead : ∀ s : List Nat, s.foldl nstep NS.dead = NS.dead := by
  intro s
  induction s with
  | nil => rfl
  | cons b rest ih => simpa [nstep] using ih

theorem nstep_small {b : Nat} (hb : b < 0x20) (q : NS) : nstep q b = NS.dead := by
  cases q <;> unfold nstep <;> (try rfl) <;> (repeat' split) <;>
    first
      | rfl
      | omega
      | (rename_i hc; rcases hc with hc | hc <;> omega)
      | (rename_i hc; simp only [isDigitByte, Bool.and_eq_true,
          decide_eq_true_eq] at hc; omega)

theorem numOk_bytes :
    ∀ (s : List Nat) (q : NS), naccept (s.foldl nstep q) = true → ∀ b ∈ s, 0x20 ≤ b := by
  intro s
  induction s with
  | nil => intro q _ b hb; simp at hb
  | cons c rest ih =>
    intro q hacc b hb
    rcases List.mem_cons.mp hb with hb | hb
    · subst hb
      by_cases h20 : 0x20 ≤ b
      · exact h20
      · exfalso
        rw [List.foldl_cons, nstep_small (by omega) q, nstep_dead] at hacc
        simp [naccept] at hacc
    · exact ih (nstep q c) (by simpa using hacc) b hb

theorem strTail_small {c : Nat} (hc : c < 0x20) (rest : List Nat) (esc : Bool)
    (eu : Nat) : strTail 0x20 (c :: rest) esc eu = false := by
  have hhex : ¬(is_ascii_hexdigit c = true) := by
    intro hx
    simp only [is_ascii_hexdigit, Bool.or_eq_true, Bool.and_eq_true,
      decide_eq_true_eq] at hx
    rcases hx with (hx | hx) | hx <;> omega
  have hce : ¬(byte_can_escape c = true) := by
    intro hx
    simp only [byte_can_escape, Bool.or_eq_true, decide_eq_true_eq] at hx
    rcases hx with ((((((((hx | hx) | hx) | hx) | hx) | hx) | hx) | hx) | hx) <;> omega
  unfold strTail
  rcases Nat.eq_zero_or_pos eu with heu | heu
  · subst heu
    rw [if_neg (by omega)]
    cases esc with
    | true =>
      rw [if_pos rfl, if_neg (by omega), if_neg hce]
    | false =>
      rw [if_neg (by simp), if_neg (by omega), if_neg (by omega), if_neg (by omega)]
  · rw [if_pos heu, if_neg hhex]

theorem strTail_bytes :
    ∀ (s : List Nat) (esc : Bool) (eu : Nat), strTail 0x20 s esc eu = true →
      ∀ b ∈ s, 0x20 ≤ b := by
  intro s
  induction s with
  | nil => intro esc eu h b hb; simp at hb
  | cons c rest ih =>
    intro esc eu h b hb
    rcases List.mem_cons.mp hb with hb | hb
    · subst hb
      by_cases h20 : 0x20 ≤ b
      · exact h20
      · rw [strTail_small (by omega) rest esc eu] at h
        exact absurd h (by simp)
    · unfold strTail at h
      split at h
      · split at h
        · exact ih _ _ h b hb
        · exact absurd h (by simp)
      · split at h
        · split at h
          · exact ih _ _ h b hb
          · split at h
            · exact ih _ _ h b hb
            · exact absurd h (by simp)
        · split at h
          · have hr : rest = [] := by simpa using h
            subst hr
            simp at hb
          · split at h
            · exact ih _ _ h b hb
            · split at h
              · exact ih _ _ h b hb
              · exact absurd h (by simp)

theorem strLit_bytes {s : List Nat} (h : strLit 0x20 s = true) : ∀ b ∈ s, 0x20 ≤ b := by
  unfold strLit at h
  split at h
  · next rest =>
    intro b hb
    rcases List.mem_cons.mp hb with hb | hb
    · subst hb; omega
    · exact strTail_bytes rest false 0 h b hb
  · simp at h

theorem litOk_bytes {s : List Nat} (h : litOk s = true) : ∀ b ∈ s, 0x20 ≤ b := by
  intro b hb
  simp only [litOk, Bool.or_eq_true, decide_eq_true_eq] at h
  rcases h with (h | h) | h <;> subst h <;> fin_cases hb <;> omega

/-- In the strict (`lo = 0x20`) grammar every byte is either at least 0x20 or
an insignificant-whitespace byte; in particular the raw control byte 0x1F
never occurs. -/
theorem g_strict_bytes {k : GKind} {s : List Nat} (h : G 0x20 k s) :
    ∀ b ∈ s, 0x20 ≤ b ∨ isWsByte b = true := by
  induction h with
  | num s hn => intro b hb; exact Or.inl (numOk_bytes s NS.start hn b hb)
  | strv s hs => intro b hb; exact Or.inl (strLit_bytes hs b hb)
  | lit s hs => intro b hb; exact Or.inl (litOk_bytes hs b hb)
  | arr k s _ _ _ ih =>
    intro b hb
    rcases List.mem_cons.mp hb with hb | hb
    · subst hb; exact Or.inl (by omega)
    · rcases List.mem_append.mp hb with hb | hb
      · exact ih b hb
      · rw [List.mem_singleton] at hb; subst hb; exact Or.inl (by omega)
  | obj k s _ _ _ ih =>
    intro b hb
    rcases List.mem_cons.mp hb with hb | hb
    · subst hb; exact Or.inl (by omega)
    · rcases List.mem_append.mp hb with hb | hb
      · exact ih b hb
      · rw [List.mem_singleton] at hb; subst hb; exact Or.inl (by omega)
  | afNil => intro b hb; simp at hb
  | ofNil => intro b hb; simp at hb
  | wsApp k s bb _ _ hw ih =>
    intro b hb
    rcases List.mem_append.mp hb with hb | hb
    · exact ih b hb
    · rw [List.mem_singleton] at hb; subst hb; exact Or.inr hw
  | aVal k s v _ _ _ ih1 ih2 =>
    intro b hb
    rcases List.mem_append.mp hb with hb | hb
    · exact ih1 b hb
    · exact ih2 b hb
  | oVal s v _ _ ih1 ih2 =>
    intro b hb
    rcases List.mem_append.mp hb with hb | hb
    · exact ih1 b hb
    · exact ih2 b hb
  | aComma s _ ih =>
    intro b hb
    rcases List.mem_append.mp hb with hb | hb
    · exact ih b hb
    · rw [List.mem_singleton] at hb; subst hb; exact Or.inl (by omega)
  | oComma s _ ih =>
    intro b hb
    rcases List.mem_append.mp hb with hb | hb
    · exact ih b hb
    · rw [List.mem_singleton] at hb; subst hb; exact Or.inl (by omega)
  | oKey k s ks _ _ hks ih =>
    intro b hb
    rcases List.mem_append.mp hb with hb | hb
    · exact ih b hb
    · exact Or.inl (strLit_bytes hks b hb)
  | oColon s _ ih =>
    intro b hb
    rcases List.mem_append.mp hb with hb | hb
    · exact ih b hb
    · rw [List.mem_singleton] at hb; subst hb; exact Or.inl (by omega)

/-- C2 counterexample: on the sole input `["<0x1F>",[` the hunt ends
`Exhausted`; the bytes the repair emission places before the newline are
`["<0x1F>",[]]`, which is NOT a structurally valid RFC 8259 JSON value: it
carries the raw control byte 0x1F inside a string (the string-handler bug of
`C3_control_byte_0x1F_accepted`). -/
theorem C2_repair_not_strictly_valid :
    (hunt 6 0x5B fixCfg.initTracker [0x22, 0x1F, 0x22, 0x2C, 0x5B]).1 =
      Cause.Exhausted ∧
    print_incomplete (hunt 6 0x5B fixCfg.initTracker [0x22, 0x1F, 0x22, 0x2C, 0x5B]).2.1 =
      [0x5B, 0x22, 0x1F, 0x22, 0x2C, 0x5B, 0x5D, 0x5D, 0x0A] ∧
    ¬ G 0x20 GKind.vK [0x5B, 0x22, 0x1F, 0x22, 0x2C, 0x5B, 0x5D, 0x5D] := by
  refine ⟨by decide, by decide, ?_⟩
  intro h
  have := g_strict_bytes h 0x1F (by decide)
  rcases this with h' | h' <;> exact absurd h' (by decide)

/-! ### Machine soundness of the repair writer (C2)

The invariant machinery below proves that every repair emission produced by
`_print_incomplete` after a `Corrupted` / `Exhausted` hunt is a value of the
relaxed grammar `G 0x1F` (strict RFC 8259 except that strings may carry the
raw control byte 0x1F, the known scanner slip). -/

/-- Appending on the right does not change a `take` that stays inside the
left list. -/
theorem take_app_stable {α : Type} {l1 l2 : List α} :
    ∀ {n : Nat}, n ≤ l1.length → (l1 ++ l2).take n = l1.take n := by
  induction l1 with
  | nil =>
    intro n h
    have h0 : n = 0 := Nat.le_zero.mp h
    subst h0
    rfl
  | cons a l1 ih =>
    intro n h
    cases n with
    | zero => rfl
    | succ n =>
      simp only [List.cons_append, List.take_succ_cons]
      exact congrArg _ (ih (Nat.le_of_succ_le_succ h))

/-- Newline substitution keeps whitespace bytes whitespace. -/
theorem subst_ws {r : Bool} {b : Nat} (h : isWsByte b = true) :
    isWsByte (subst_newline r b) = true := by
  unfold subst_newline
  split
  · decide
  · exact h

/-- Bytes other than the newline pass through the substitution unchanged. -/
theorem subst_id {r : Bool} {b : Nat} (h : b ≠ 0x0A) : subst_newline r b = b := by
  unfold subst_newline
  split
  · rename_i hx
    rw [Bool.and_eq_true, decide_eq_true_eq] at hx
    exact absurd hx.2 h
  · rfl

/-- Kinds the partial inner content of a container opened by `op` may take. -/
def openerMatches (op : Nat) (k : GKind) : Prop :=
  (op = 0x5B ∧ isArrK k = true) ∨ (op = 0x7B ∧ isObjK k = true)

/-- Inner kind right after a complete value was appended inside the container
opened by `op`. -/
def afterValK (op : Nat) : GKind :=
  if op = 0x5B then GKind.aAK else GKind.oAK

/-- Inner kind right after the opener `op` itself. -/
def openK (op : Nat) : GKind :=
  if op = 0x5B then GKind.aFK else GKind.oFK

/-- Well-formedness of the candidate buffer relative to the nest stack: the
buffer is a chain of opened containers (outermost first), each inner one
standing at a value position of its parent, and the innermost partial content
derives kind `k`. -/
inductive BufOK (lo : Nat) : List Nat → List Nat → GKind → Prop where
  | one (op : Nat) (s : List Nat) (k : GKind) :
      openerMatches op k → G lo k s → BufOK lo (op :: s) [op] k
  | push (p : List Nat) (stk : List Nat) (ko : GKind) (op : Nat) (s : List Nat)
      (k : GKind) : BufOK lo p stk ko → expectsValK ko = true →
      openerMatches op k → G lo k s → BufOK lo (p ++ op :: s) (op :: stk) k

theorem bufok_stack_cons {lo : Nat} {p stk : List Nat} {k : GKind}
    (h : BufOK lo p stk k) : ∃ op stk2, stk = op :: stk2 := by
  cases h with
  | one op s k2 hm hg => exact ⟨op, [], rfl⟩
  | push p2 stk2 ko op s k2 hb he hm hg => exact ⟨op, stk2, rfl⟩

theorem bufok_top {lo : Nat} {p stk : List Nat} {k : GKind} (h : BufOK lo p stk k) :
    ∀ op, stk.head? = some op → openerMatches op k := by
  intro op hop
  cases h with
  | one op2 s k2 hm hg =>
    simp only [List.head?_cons, Option.some.injEq] at hop
    subst hop
    exact hm
  | push p2 stk2 ko op2 s k2 hb he hm hg =>
    simp only [List.head?_cons, Option.some.injEq] at hop
    subst hop
    exact hm

/-- Extending the innermost partial content along a grammar step preserves
buffer well-formedness. -/
theorem bufok_inner {lo : Nat} {p stk : List Nat} {k k2 : GKind} {xs : List Nat}
    (h : BufOK lo p stk k)
    (hstep : ∀ s, G lo k s → G lo k2 (s ++ xs))
    (hmatch : ∀ op, stk.head? = some op → openerMatches op k2) :
    BufOK lo (p ++ xs) stk k2 := by
  cases h with
  | one op s k3 hm hg =>
    have h2 : (op :: s) ++ xs = op :: (s ++ xs) := by simp
    rw [h2]
    exact BufOK.one op (s ++ xs) k2 (hmatch op (by simp)) (hstep s hg)
  | push p2 stk2 ko op s k3 hb he hm hg =>
    have h2 : (p2 ++ op :: s) ++ xs = p2 ++ op :: (s ++ xs) := by simp
    rw [h2]
    exact BufOK.push p2 stk2 ko op (s ++ xs) k2 hb he (hmatch op (by simp)) (hstep s hg)

/-- Appending a complete value at a value-expecting position. -/
theorem bufok_afterVal {lo : Nat} {p stk : List Nat} {k : GKind} {v : List Nat}
    (h : BufOK lo p stk k) (he : expectsValK k = true) (hv : G lo GKind.vK v)
    {op : Nat} (htop : stk.head? = some op) :
    BufOK lo (p ++ v) stk (afterValK op) := by
  have hm := bufok_top h op htop
  rcases hm with ⟨hop, hk⟩ | ⟨hop, hk⟩
  · subst hop
    have hk2 : k = GKind.aFK ∨ k = GKind.aMK := by
      cases k <;> revert hk he <;> decide
    unfold afterValK
    rw [if_pos rfl]
    refine bufok_inner h (fun s hs => G.aVal k s v hk2 hs hv) (fun op2 hop2 => ?_)
    rw [htop] at hop2
    injection hop2 with h3
    subst h3
    exact Or.inl ⟨rfl, rfl⟩
  · subst hop
    have hk2 : k = GKind.oVK := by
      cases k <;> revert hk he <;> decide
    subst hk2
    unfold afterValK
    rw [if_neg (by decide)]
    refine bufok_inner h (fun s hs => G.oVal s v hs hv) (fun op2 hop2 => ?_)
    rw [htop] at hop2
    injection hop2 with h3
    subst h3
    exact Or.inr ⟨rfl, rfl⟩

/-- Closing the innermost container pops it into a value of its parent. -/
theorem bufok_close {lo : Nat} {p : List Nat} {op : Nat} {stk2 : List Nat}
    {k : GKind} {o2 : Nat} (h : BufOK lo p (op :: stk2) k)
    (hc : closableK k = true) (h2 : stk2.head? = some o2) :
    BufOK lo (p ++ [_closing_ident op]) stk2 (afterValK o2) := by
  cases h with
  | one op2 s k2 hm hg => simp at h2
  | push p2 stk3 ko op2 s k2 hb he hm hg =>
    have hv : G lo GKind.vK (op :: (s ++ [_closing_ident op])) := by
      rcases hm with ⟨hop, hk⟩ | ⟨hop, hk⟩
      · subst hop
        have harr := G.arr k s hk hc hg
        have hcl : _closing_ident 0x5B = 0x5D := by decide
        rw [hcl]
        exact harr
      · subst hop
        have hobj := G.obj k s hk hc hg
        have hcl : _closing_ident 0x7B = 0x7D := by decide
        rw [hcl]
        exact hobj
    have hre : (p2 ++ op :: s) ++ [_closing_ident op] =
        p2 ++ (op :: (s ++ [_closing_ident op])) := by simp
    rw [hre]
    exact bufok_afterVal hb he hv h2

/-- Closing everything that is still open yields a complete value of the
relaxed grammar: the heart of the repair writer's correctness. -/
theorem bufok_closers {lo : Nat} :
    ∀ (stk p : List Nat) (k : GKind), BufOK lo p stk k → closableK k = true →
      G lo GKind.vK (p ++ stk.map _closing_ident) := by
  intro stk
  induction stk with
  | nil =>
    intro p k h hc
    cases h
  | cons op stk2 ih =>
    intro p k h hc
    cases stk2 with
    | nil =>
      cases h with
      | one op2 s k2 hm hg =>
        rcases hm with ⟨hop, hk⟩ | ⟨hop, hk⟩
        · subst hop
          have hv := G.arr k s hk hc hg
          simpa [_closing_ident] using hv
        · subst hop
          have hv := G.obj k s hk hc hg
          simpa [_closing_ident] using hv
      | push p2 stk3 ko op2 s k2 hb he hm hg => cases hb
    | cons o2 stk3 =>
      have hstep := bufok_close h hc (show (o2 :: stk3).head? = some o2 from rfl)
      have hc2 : closableK (afterValK o2) = true := by
        unfold afterValK
        split <;> rfl
      have hrec := ih (p ++ [_closing_ident op]) (afterValK o2) hstep hc2
      simpa [List.append_assoc] using hrec

/-- Repair-truncation invariant: the buffer truncated right after the byte at
`partial_close_end`, with the current nest stack, is a well-formed closable
machine buffer. -/
def RT (t : JsonTracker) : Prop :=
  ∃ kb, BufOK 0x1F (t.processed.take (t.partial_close_end + 1)) t.ident_levels kb ∧
    closableK kb = true

/-- Machine-state invariant between appends: the full buffer is well-formed at
kind `k`, the repair truncation is closable, and the bookmark is inside the
buffer. -/
def MState (t : JsonTracker) (k : GKind) : Prop :=
  BufOK 0x1F t.processed t.ident_levels k ∧ RT t ∧ PceLt t

theorem rt_advance {t : JsonTracker} {b : Nat} (hp : PceLt t) (h : RT t) :
    RT (t.advance b) := by
  obtain ⟨kb, h1, h2⟩ := h
  refine ⟨kb, ?_, h2⟩
  show BufOK 0x1F ((t.processed ++ [subst_newline t.replace_newlines b]).take
    (t.partial_close_end + 1)) t.ident_levels kb
  rw [take_app_stable hp]
  exact h1

theorem mstate_step {t : JsonTracker} {k k2 : GKind} {b : Nat} (h : MState t k)
    (hstep : ∀ s, G 0x1F k s →
      G 0x1F k2 (s ++ [subst_newline t.replace_newlines b]))
    (hmatch : ∀ op, t.ident_levels.head? = some op → openerMatches op k2) :
    MState (t.advance b) k2 :=
  ⟨bufok_inner h.1 hstep hmatch, rt_advance h.2.2 h.2.1, pcelt_advance b h.2.2⟩

theorem mstate_ws {t : JsonTracker} {k : GKind} {b : Nat} (h : MState t k)
    (hk : k ≠ GKind.vK) (hb : isWsByte b = true) : MState (t.advance b) k :=
  mstate_step h (fun s hs => G.wsApp k s _ hk hs (subst_ws hb)) (bufok_top h.1)

theorem mstate_inkey {t : JsonTracker} {k : GKind} {x : Bool} (h : MState t k) :
    MState { t with in_key := x } k := h

/-- A closable truncation closes to a complete value of the relaxed grammar:
what `_print_incomplete` places before its newline. -/
theorem rt_repair {t : JsonTracker} (h : RT t) :
    G 0x1F GKind.vK (t.processed.take (t.partial_close_end + 1) ++
      t.ident_levels.map _closing_ident) := by
  obtain ⟨kb, h1, h2⟩ := h
  exact bufok_closers _ _ _ h1 h2

/-- Precondition of each dispatch byte: what the machine state must look like
for the grammar to move along with the handler the byte selects. -/
def DPre (ch : Nat) (k : GKind) (top : Option Nat) (ik : Bool) : Prop :=
  ((ch = 0x5B ∨ ch = 0x7B) → expectsValK k = true ∧ ik = false) ∧
  (ch = 0x5D → (top = some 0x5B → closableK k = true) ∧ ik = false) ∧
  (ch = 0x7D → (top = some 0x7B → closableK k = true) ∧ ik = false) ∧
  (ch = 0x3A → k = GKind.oCK) ∧
  (ch = 0x2C → ((top = some 0x5B ∧ k = GKind.aAK) ∨
                (top = some 0x7B ∧ k = GKind.oAK)) ∧ ik = false) ∧
  (ch = 0x22 → (ik = true ∧ (k = GKind.oFK ∨ k = GKind.oMK)) ∨
               (ik = false ∧ expectsValK k = true)) ∧
  ((ch = 0x2D ∨ isDigitByte ch = true) → expectsValK k = true ∧ ik = false) ∧
  ((ch = 0x66 ∨ ch = 0x6E ∨ ch = 0x74) → expectsValK k = true ∧ ik = false)

/-- Hunt-loop invariant at a dispatch: either the fresh entry state with an
opener byte, or a run state whose kind satisfies the byte's precondition. -/
def HInv (ch : Nat) (t : JsonTracker) : Prop :=
  (t.processed = [] ∧ t.ident_levels = [] ∧ t.in_key = false ∧
    (ch = 0x5B ∨ ch = 0x7B)) ∨
  (∃ k, MState t k ∧ DPre ch k t.ident_levels.head? t.in_key)

/-- Postcondition of a handler or of `hunt_step`: a `Found` byte re-establishes
the dispatch invariant, a repair outcome keeps the truncation closable. -/
def MPost (res : HRes) : Prop :=
  match res with
  | (Cause.Found b, t2, _) => HInv b t2
  | (Cause.Corrupted _, t2, _) => RT t2
  | (Cause.Exhausted, t2, _) => RT t2
  | _ => True

theorem dpre_val {ch : Nat} {k : GKind} (hv : valueStartByte ch = true)
    (he : expectsValK k = true) (top : Option Nat) : DPre ch k top false := by
  refine ⟨fun _ => ⟨he, rfl⟩, fun h => ?_, fun h => ?_, fun h => ?_, fun h => ?_,
    fun _ => Or.inr ⟨rfl, he⟩, fun _ => ⟨he, rfl⟩, fun _ => ⟨he, rfl⟩⟩ <;>
    (subst h; exact absurd hv (by decide))

theorem dpre_sep {b : Nat} {k : GKind} {top : Option Nat}
    (hb : b = 0x2C ∨ b = 0x5D ∨ b = 0x7D)
    (hk : (top = some 0x5B ∧ k = GKind.aAK) ∨ (top = some 0x7B ∧ k = GKind.oAK)) :
    DPre b k top false := by
  refine ⟨fun h => ?_, fun _ => ⟨fun ht => ?_, rfl⟩, fun _ => ⟨fun ht => ?_, rfl⟩,
    fun h => ?_, fun _ => ⟨hk, rfl⟩, fun h => ?_, fun h => ?_, fun h => ?_⟩
  · rcases hb with hb | hb | hb <;> subst hb <;> rcases h with h | h <;> omega
  · rcases hk with ⟨ht2, hk⟩ | ⟨ht2, hk⟩
    · subst hk; rfl
    · rw [ht2] at ht; injection ht with ht; omega
  · rcases hk with ⟨ht2, hk⟩ | ⟨ht2, hk⟩
    · rw [ht2] at ht; injection ht with ht; omega
    · subst hk; rfl
  · rcases hb with hb | hb | hb <;> omega
  · rcases hb with hb | hb | hb <;> omega
  · rcases h with h | h
    · rcases hb with hb | hb | hb <;> omega
    · simp only [isDigitByte, Bool.and_eq_true, decide_eq_true_eq] at h
      rcases hb with hb | hb | hb <;> omega
  · rcases h with h | h | h <;> rcases hb with hb | hb | hb <;> omega

theorem dpre_key {k : GKind} {top : Option Nat}
    (hk : k = GKind.oFK ∨ k = GKind.oMK) : DPre 0x22 k top true := by
  refine ⟨fun h => ?_, fun h => ?_, fun h => ?_, fun h => ?_, fun h => ?_,
    fun _ => Or.inl ⟨rfl, hk⟩, fun h => ?_, fun h => ?_⟩
  · rcases h with h | h <;> omega
  · omega
  · omega
  · omega
  · omega
  · rcases h with h | h
    · omega
    · simp only [isDigitByte, Bool.and_eq_true, decide_eq_true_eq] at h; omega
  · rcases h with h | h | h <;> omega

theorem dpre_colon {top : Option Nat} {ik : Bool} : DPre 0x3A GKind.oCK top ik := by
  refine ⟨fun h => ?_, fun h => ?_, fun h => ?_, fun _ => rfl, fun h => ?_,
    fun h => ?_, fun h => ?_, fun h => ?_⟩
  · rcases h with h | h <;> omega
  · omega
  · omega
  · omega
  · omega
  · rcases h with h | h
    · omega
    · simp only [isDigitByte, Bool.and_eq_true, decide_eq_true_eq] at h; omega
  · rcases h with h | h | h <;> omega

theorem dpre_rsb {k : GKind} {top : Option Nat} (hc : closableK k = true) :
    DPre 0x5D k top false := by
  refine ⟨fun h => ?_, fun _ => ⟨fun _ => hc, rfl⟩, fun h => ?_, fun h => ?_,
    fun h => ?_, fun h => ?_, fun h => ?_, fun h => ?_⟩
  · rcases h with h | h <;> omega
  · omega
  · omega
  · omega
  · omega
  · rcases h with h | h
    · omega
    · simp only [isDigitByte, Bool.and_eq_true, decide_eq_true_eq] at h; omega
  · rcases h with h | h | h <;> omega

theorem dpre_rcb {k : GKind} {top : Option Nat} (hc : closableK k = true) :
    DPre 0x7D k top false := by
  refine ⟨fun h => ?_, fun h => ?_, fun _ => ⟨fun _ => hc, rfl⟩, fun h => ?_,
    fun h => ?_, fun h => ?_, fun h => ?_, fun h => ?_⟩
  · rcases h with h | h <;> omega
  · omega
  · omega
  · omega
  · omega
  · rcases h with h | h
    · omega
    · simp only [isDigitByte, Bool.and_eq_true, decide_eq_true_eq] at h; omega
  · rcases h with h | h | h <;> omega

theorem expectsValK_ne_vK {k : GKind} (h : expectsValK k = true) : k ≠ GKind.vK := by
  cases k <;> revert h <;> decide

theorem lsb_loop_m : ∀ (rem : List Nat) (t : JsonTracker), MState t GKind.aFK →
    t.in_key = false → MPost (lsb_loop t rem) := by
  intro rem
  induction rem with
  | nil =>
    intro t h hik
    exact h.2.1
  | cons b rest ih =>
    intro t h hik
    unfold lsb_loop
    split
    · rename_i hb
      have hb2 : b = 0x5D ∨ valueStartByte b = true := by
        simp only [lsbFoundByte, Bool.or_eq_true, decide_eq_true_eq] at hb
        rcases hb with ((((((((h2 | h2) | h2) | h2) | h2) | h2) | h2) | h2) | h2)
        · exact Or.inr (by subst h2; decide)
        · exact Or.inr (by subst h2; decide)
        · exact Or.inl h2
        · exact Or.inr (by subst h2; decide)
        · exact Or.inr (by subst h2; decide)
        · exact Or.inr (by simp [valueStartByte, h2])
        · exact Or.inr (by subst h2; decide)
        · exact Or.inr (by subst h2; decide)
        · exact Or.inr (by subst h2; decide)
      rcases hb2 with hb2 | hb2
      · subst hb2
        refine Or.inr ⟨GKind.aFK, h, ?_⟩
        rw [hik]
        exact dpre_rsb rfl
      · refine Or.inr ⟨GKind.aFK, h, ?_⟩
        rw [hik]
        exact dpre_val hb2 (by decide) _
    · split
      · rename_i hw
        exact ih (t.advance b) (mstate_ws h (by decide) hw) hik
      · exact h.2.1

theorem lcb_loop_m : ∀ (rem : List Nat) (t : JsonTracker), MState t GKind.oFK →
    t.in_key = false → MPost (lcb_loop t rem) := by
  intro rem
  induction rem with
  | nil =>
    intro t h hik
    exact h.2.1
  | cons b rest ih =>
    intro t h hik
    unfold lcb_loop
    split
    · rename_i hb
      subst hb
      exact Or.inr ⟨GKind.oFK, mstate_inkey h, dpre_key (Or.inl rfl)⟩
    · split
      · rename_i hb
        subst hb
        refine Or.inr ⟨GKind.oFK, h, ?_⟩
        rw [hik]
        exact dpre_rcb rfl
      · split
        · rename_i hw
          exact ih (t.advance b) (mstate_ws h (by decide) hw) hik
        · exact h.2.1

theorem sep_loop_m : ∀ (rem : List Nat) (t : JsonTracker) (k : GKind), MState t k →
    t.in_key = false →
    ((t.ident_levels.head? = some 0x5B ∧ k = GKind.aAK) ∨
     (t.ident_levels.head? = some 0x7B ∧ k = GKind.oAK)) →
    MPost (sep_loop t rem) := by
  intro rem
  induction rem with
  | nil =>
    intro t k h hik hd
    exact h.2.1
  | cons b rest ih =>
    intro t k h hik hd
    unfold sep_loop
    split
    · rename_i hb
      have hb2 : b = 0x2C ∨ b = 0x5D ∨ b = 0x7D := by
        simp only [Bool.or_eq_true, decide_eq_true_eq] at hb
        rcases hb with (h2 | h2) | h2
        · exact Or.inl h2
        · exact Or.inr (Or.inl h2)
        · exact Or.inr (Or.inr h2)
      refine Or.inr ⟨k, h, ?_⟩
      rw [hik]
      exact dpre_sep hb2 hd
    · split
      · rename_i hw
        refine ih (t.advance b) k
          (mstate_ws h (by rcases hd with ⟨_, hk⟩ | ⟨_, hk⟩ <;> subst hk <;> decide) hw)
          hik hd
      · exact h.2.1

theorem value_start_loop_m : ∀ (rem : List Nat) (t : JsonTracker) (k : GKind),
    MState t k → t.in_key = false → expectsValK k = true →
    MPost (value_start_loop t rem) := by
  intro rem
  induction rem with
  | nil =>
    intro t k h hik he
    exact h.2.1
  | cons b rest ih =>
    intro t k h hik he
    unfold value_start_loop
    split
    · rename_i hb
      refine Or.inr ⟨k, h, ?_⟩
      rw [hik]
      exact dpre_val hb he _
    · split
      · rename_i hw
        exact ih (t.advance b) k (mstate_ws h (expectsValK_ne_vK he) hw) hik he
      · exact h.2.1

theorem comma_obj_loop_m : ∀ (rem : List Nat) (t : JsonTracker),
    MState t GKind.oMK → t.in_key = false → MPost (comma_obj_loop t rem) := by
  intro rem
  induction rem with
  | nil =>
    intro t h hik
    exact h.2.1
  | cons b rest ih =>
    intro t h hik
    unfold comma_obj_loop
    split
    · rename_i hb
      subst hb
      exact Or.inr ⟨GKind.oMK, mstate_inkey h, dpre_key (Or.inr rfl)⟩
    · split
      · rename_i hw
        exact ih (t.advance b) (mstate_ws h (by decide) hw) hik
      · exact h.2.1

/-- One-step unfolding of the string-token scanner. -/
theorem strTail_cons (lo b : Nat) (rest : List Nat) (esc : Bool) (eu : Nat) :
    strTail lo (b :: rest) esc eu =
      if 0 < eu then
        (if is_ascii_hexdigit b then strTail lo rest esc (eu - 1) else false)
      else if esc then
        (if b = 0x75 then strTail lo rest false 4
         else if byte_can_escape b then strTail lo rest false 0
         else false)
      else if b = 0x22 then decide (rest = [])
      else if b = 0x5C then strTail lo rest true 0
      else if lo ≤ b then strTail lo rest false 0
      else false := rfl

/-- Continuation equation of a partial string content `sp` against the scanner
state (`esc`, `eu`): scanning `sp` from the clean state leaves exactly that
state for whatever follows. -/
def SP (sp : List Nat) (esc : Bool) (eu : Nat) : Prop :=
  ∀ cont, strTail 0x1F (sp ++ cont) false 0 = strTail 0x1F cont esc eu

theorem sp_nil : SP [] false 0 := fun _ => rfl

theorem sp_app {sp : List Nat} {b : Nat} (cont : List Nat) :
    (sp ++ [b]) ++ cont = sp ++ (b :: cont) := by simp

theorem sp_plain {sp : List Nat} {b : Nat} (h : SP sp false 0) (hb : 0x1F ≤ b)
    (h22 : b ≠ 0x22) (h5c : b ≠ 0x5C) : SP (sp ++ [b]) false 0 := by
  intro cont
  rw [sp_app cont, h (b :: cont), strTail_cons,
    if_neg (by omega), if_neg (by decide), if_neg h22, if_neg h5c, if_pos hb]

theorem sp_esc {sp : List Nat} (h : SP sp false 0) : SP (sp ++ [0x5C]) true 0 := by
  intro cont
  rw [sp_app cont, h (0x5C :: cont), strTail_cons,
    if_neg (by omega), if_neg (by decide), if_neg (by decide), if_pos rfl]

theorem sp_esc_char {sp : List Nat} {b : Nat} (h : SP sp true 0)
    (hb : byte_can_escape b = true) (h75 : b ≠ 0x75) : SP (sp ++ [b]) false 0 := by
  intro cont
  rw [sp_app cont, h (b :: cont), strTail_cons,
    if_neg (by omega), if_pos rfl, if_neg h75, if_pos hb]

theorem sp_esc_u {sp : List Nat} (h : SP sp true 0) : SP (sp ++ [0x75]) false 4 := by
  intro cont
  rw [sp_app cont, h (0x75 :: cont), strTail_cons,
    if_neg (by omega), if_pos rfl, if_pos rfl]

theorem sp_hex {sp : List Nat} {b : Nat} {esc : Bool} {eu : Nat} (h : SP sp esc eu)
    (heu : 0 < eu) (hb : is_ascii_hexdigit b = true) :
    SP (sp ++ [b]) esc (eu - 1) := by
  intro cont
  rw [sp_app cont, h (b :: cont), strTail_cons, if_pos heu, if_pos hb]

theorem can_escape_ne_nl {b : Nat} (h : byte_can_escape b = true) : b ≠ 0x0A := by
  simp only [byte_can_escape, Bool.or_eq_true, decide_eq_true_eq] at h
  rcases h with ((((((((h | h) | h) | h) | h) | h) | h) | h) | h) <;> omega

theorem hexdigit_ne_nl {b : Nat} (h : is_ascii_hexdigit b = true) : b ≠ 0x0A := by
  simp only [is_ascii_hexdigit, Bool.or_eq_true, Bool.and_eq_true,
    decide_eq_true_eq] at h
  rcases h with (h | h) | h <;> omega

/-- In-string phase invariant of `string_loop`: the buffer is a well-formed
prefix `p0` followed by the opening quote and the partial content `sp`, whose
scan state is (`esc`, `eu`); the mode ties `in_key` to the kind at entry. -/
def SInvIn (t : JsonTracker) (esc : Bool) (eu : Nat) : Prop :=
  ∃ p0 k0 sp, t.processed = p0 ++ 0x22 :: sp ∧
    BufOK 0x1F p0 t.ident_levels k0 ∧ RT t ∧ PceLt t ∧ SP sp esc eu ∧
    ((t.in_key = true ∧ (k0 = GKind.oFK ∨ k0 = GKind.oMK)) ∨
     (t.in_key = false ∧ expectsValK k0 = true))

/-- Post-string phase invariant of `string_loop` (after the closing quote):
the machine state is well formed at the kind the finished token produced. -/
def SInvOut (t : JsonTracker) : Prop :=
  ∃ k1, MState t k1 ∧
    ((t.in_key = true ∧ k1 = GKind.oCK) ∨
     (t.in_key = false ∧
       ((t.ident_levels.head? = some 0x5B ∧ k1 = GKind.aAK) ∨
        (t.ident_levels.head? = some 0x7B ∧ k1 = GKind.oAK))))

theorem sinvin_advance {t : JsonTracker} {esc esc2 : Bool} {eu eu2 b : Nat}
    (h : SInvIn t esc eu) (hb : b ≠ 0x0A)
    (hsp2 : ∀ sp, SP sp esc eu → SP (sp ++ [b]) esc2 eu2) :
    SInvIn (t.advance b) esc2 eu2 := by
  obtain ⟨p0, k0, sp, hproc, hb0, hrt, hpl, hsp, hkv⟩ := h
  refine ⟨p0, k0, sp ++ [b], ?_, hb0, rt_advance hpl hrt, pcelt_advance b hpl,
    hsp2 sp hsp, hkv⟩
  show t.processed ++ [subst_newline t.replace_newlines b] = p0 ++ 0x22 :: (sp ++ [b])
  rw [subst_id hb, hproc]
  simp

theorem sinvin_corrupt {t : JsonTracker} {esc : Bool} {eu : Nat}
    (h : SInvIn t esc eu) : RT t := by
  obtain ⟨p0, k0, sp, _, _, hrt, _, _, _⟩ := h
  exact hrt

theorem sinvin_close {t : JsonTracker} {esc : Bool} {eu : Nat}
    (h : SInvIn t esc eu) (hesc : esc = false) (heu : eu = 0) :
    SInvOut (t.advance 0x22) := by
  subst hesc
  subst heu
  obtain ⟨p0, k0, sp, hproc, hb0, hrt, hpl, hsp, hkv⟩ := h
  have hT : strTail 0x1F (sp ++ [0x22]) false 0 = true := by
    rw [hsp [0x22]]
    decide
  have hT2 : strLit 0x1F (0x22 :: (sp ++ [0x22])) = true := hT
  have hproc2 : (t.advance 0x22).processed = p0 ++ (0x22 :: (sp ++ [0x22])) := by
    show t.processed ++ [subst_newline t.replace_newlines 0x22] = _
    rw [subst_id (by omega), hproc]
    simp
  rcases hkv with ⟨hik, hk0⟩ | ⟨hik, hk0⟩
  · have hmt : ∀ op, t.ident_levels.head? = some op → openerMatches op GKind.oCK := by
      intro op hop
      have hm := bufok_top hb0 op hop
      rcases hm with ⟨h1, h2⟩ | ⟨h1, h2⟩
      · rcases hk0 with hk0 | hk0 <;> subst hk0 <;> simp [isArrK] at h2
      · exact Or.inr ⟨h1, rfl⟩
    have hbo : BufOK 0x1F (p0 ++ (0x22 :: (sp ++ [0x22]))) t.ident_levels GKind.oCK :=
      bufok_inner hb0 (fun s hs => G.oKey k0 s _ hk0 hs hT2) hmt
    refine ⟨GKind.oCK, ⟨?_, rt_advance hpl hrt, pcelt_advance _ hpl⟩, Or.inl ⟨hik, rfl⟩⟩
    rw [hproc2]
    exact hbo
  · obtain ⟨op, stk2, hstk⟩ := bufok_stack_cons hb0
    have htop : t.ident_levels.head? = some op := by rw [hstk]; rfl
    have hv : G 0x1F GKind.vK (0x22 :: (sp ++ [0x22])) := G.strv _ hT2
    have hbo := bufok_afterVal hb0 hk0 hv htop
    refine ⟨afterValK op, ⟨?_, rt_advance hpl hrt, pcelt_advance _ hpl⟩,
      Or.inr ⟨hik, ?_⟩⟩
    · rw [hproc2]
      exact hbo
    · have hm := bufok_top hb0 op htop
      rcases hm with ⟨h1, _⟩ | ⟨h1, _⟩
      · subst h1
        exact Or.inl ⟨htop, by decide⟩
      · subst h1
        exact Or.inr ⟨htop, by decide⟩

theorem sinvout_ws {t : JsonTracker} {b : Nat} (h : SInvOut t)
    (hb : isWsByte b = true) : SInvOut (t.advance b) := by
  obtain ⟨k1, hms, hd⟩ := h
  have hk1 : k1 ≠ GKind.vK := by
    rcases hd with ⟨_, hk⟩ | ⟨_, ⟨_, hk⟩ | ⟨_, hk⟩⟩ <;> subst hk <;> decide
  exact ⟨k1, mstate_ws hms hk1 hb, hd⟩

theorem string_loop_m : ∀ (rem : List Nat) (t : JsonTracker) (ins esc : Bool)
    (eu : Nat), (ins = true → SInvIn t esc eu) → (ins = false → SInvOut t) →
    MPost (string_loop t ins esc eu rem) := by
  intro rem
  induction rem with
  | nil =>
    intro t ins esc eu hin hout
    cases ins
    · obtain ⟨k1, hms, _⟩ := hout rfl
      exact hms.2.1
    · exact sinvin_corrupt (hin rfl)
  | cons b rest ih =>
    intro t ins esc eu hin hout
    unfold string_loop
    cases hli : t.last_ident with
    | none => trivial
    | some li =>
      simp only
      have hhd : t.ident_levels.head? = some li := hli
      split
      · rename_i hins0
        have hso := hout hins0
        split
        · rename_i hw
          exact ih (t.advance b) ins esc eu
            (fun hT => by rw [hins0] at hT; exact absurd hT (by decide))
            (fun _ => sinvout_ws hso hw)
        · split
          · rename_i hc
            simp only [Bool.and_eq_true, Bool.or_eq_true, decide_eq_true_eq] at hc
            obtain ⟨hor, hli5⟩ := hc
            subst hli5
            obtain ⟨k1, hms, hd⟩ := hso
            rcases hd with ⟨hik, hk1⟩ | ⟨hik, ⟨hd5, hk1⟩ | ⟨hd7, hk1⟩⟩
            · subst hk1
              have hm := bufok_top hms.1 0x5B hhd
              rcases hm with ⟨_, h2⟩ | ⟨h1, _⟩
              · simp [isArrK] at h2
              · omega
            · subst hk1
              refine Or.inr ⟨GKind.aAK, hms, ?_⟩
              rw [hik]
              refine dpre_sep ?_ (Or.inl ⟨hd5, rfl⟩)
              rcases hor with h | h
              · exact Or.inl h
              · exact Or.inr (Or.inl h)
            · rw [hhd] at hd7
              injection hd7 with hd7
              omega
          · split
            · rename_i hc
              simp only [Bool.and_eq_true, Bool.or_eq_true, decide_eq_true_eq] at hc
              obtain ⟨⟨hor, hli7⟩, hik0⟩ := hc
              subst hli7
              obtain ⟨k1, hms, hd⟩ := hso
              rcases hd with ⟨hik, hk1⟩ | ⟨hik, ⟨hd5, hk1⟩ | ⟨hd7, hk1⟩⟩
              · rw [hik] at hik0
                exact absurd hik0 (by decide)
              · rw [hhd] at hd5
                injection hd5 with hd5
                omega
              · subst hk1
                refine Or.inr ⟨GKind.oAK, hms, ?_⟩
                rw [hik]
                refine dpre_sep ?_ (Or.inr ⟨hd7, rfl⟩)
                rcases hor with h | h
                · exact Or.inl h
                · exact Or.inr (Or.inr h)
            · split
              · rename_i hc
                simp only [Bool.and_eq_true, decide_eq_true_eq] at hc
                obtain ⟨⟨hb3a, hli7⟩, hikT⟩ := hc
                subst hb3a
                obtain ⟨k1, hms, hd⟩ := hso
                rcases hd with ⟨hik, hk1⟩ | ⟨hik, _⟩
                · subst hk1
                  exact Or.inr ⟨GKind.oCK, hms, dpre_colon⟩
                · rw [hik] at hikT
                  exact absurd hikT (by decide)
              · obtain ⟨k1, hms, _⟩ := hso
                exact hms.2.1
      · rename_i hins1
        have hins : ins = true := by
          cases ins
          · exact absurd rfl hins1
          · rfl
        have hsi := hin hins
        split
        · rename_i hc
          simp only [Bool.and_eq_true, decide_eq_true_eq] at hc
          obtain ⟨⟨hb5, hesc⟩, heu⟩ := hc
          subst hb5
          subst hesc
          subst heu
          exact ih (t.advance 0x5C) ins true 0
            (fun _ => sinvin_advance hsi (by omega) (fun sp hsp => sp_esc hsp))
            (fun hF => by rw [hins] at hF; exact absurd hF (by decide))
        · split
          · rename_i hc
            simp only [Bool.and_eq_true, decide_eq_true_eq] at hc
            obtain ⟨⟨hb2, hesc⟩, heu⟩ := hc
            subst hb2
            exact ih (t.advance 0x22) false esc eu
              (fun hF => absurd hF (by decide))
              (fun _ => sinvin_close hsi hesc heu)
          · split
            · exact sinvin_corrupt hsi
            · split
              · split
                · exact sinvin_corrupt hsi
                · rename_i hn1 hn2 hn3 hc hne
                  simp only [Bool.and_eq_true, decide_eq_true_eq] at hc
                  obtain ⟨hesc, heu⟩ := hc
                  subst hesc
                  subst heu
                  have hge : 0x1F ≤ b := by omega
                  have h22 : b ≠ 0x22 := by
                    intro he
                    subst he
                    exact hn2 (by decide)
                  have h5c : b ≠ 0x5C := by
                    intro he
                    subst he
                    exact hn1 (by decide)
                  exact ih (t.advance b) ins false 0
                    (fun _ => sinvin_advance hsi (by omega)
                      (fun sp hsp => sp_plain hsp hge h22 h5c))
                    (fun hF => by rw [hins] at hF; exact absurd hF (by decide))
              · split
                · rename_i hn1 hn2 hn3 hn4 hc
                  simp only [Bool.and_eq_true, decide_eq_true_eq] at hc
                  obtain ⟨⟨hb75, hesc⟩, heu⟩ := hc
                  subst hb75
                  subst hesc
                  subst heu
                  exact ih (t.advance 0x75) ins false 4
                    (fun _ => sinvin_advance hsi (by omega)
                      (fun sp hsp => sp_esc_u hsp))
                    (fun hF => by rw [hins] at hF; exact absurd hF (by decide))
                · split
                  · split
                    · rename_i hn1 hn2 hn3 hn4 hn5 hc hcan
                      simp only [Bool.and_eq_true, decide_eq_true_eq] at hc
                      obtain ⟨hesc, heu⟩ := hc
                      subst hesc
                      subst heu
                      have h75 : b ≠ 0x75 := by
                        intro he
                        subst he
                        exact hn5 (by decide)
                      exact ih (t.advance b) ins false 0
                        (fun _ => sinvin_advance hsi (can_escape_ne_nl hcan)
                          (fun sp hsp => sp_esc_char hsp hcan h75))
                        (fun hF => by rw [hins] at hF; exact absurd hF (by decide))
                    · exact sinvin_corrupt hsi
                  · split
                    · split
                      · rename_i hn1 hn2 hn3 hn4 hn5 hn6 hc hhex
                        simp only [Bool.and_eq_true, decide_eq_true_eq] at hc
                        obtain ⟨heu1, heu4⟩ := hc
                        exact ih (t.advance b) ins esc (eu - 1)
                          (fun _ => sinvin_advance hsi (hexdigit_ne_nl hhex)
                            (fun sp hsp => sp_hex hsp (by omega) hhex))
                          (fun hF => by rw [hins] at hF; exact absurd hF (by decide))
                      · exact sinvin_corrupt hsi
                    · exact sinvin_corrupt hsi

theorem digit_bounds {b : Nat} (h : isDigitByte b = true) : 0x30 ≤ b ∧ b ≤ 0x39 := by
  simp only [isDigitByte, Bool.and_eq_true, decide_eq_true_eq] at h
  exact h

theorem foldl_concat_nstep (s : List Nat) (b : Nat) :
    (s ++ [b]).foldl nstep NS.start = nstep (s.foldl nstep NS.start) b := by
  rw [List.foldl_append]
  rfl

theorem seen_some (x : Bool) (lb : Nat) : number_lz_seen (some x) lb = some x := by
  unfold number_lz_seen
  rw [if_neg (by simp)]

theorem seen_none_other {lb : Nat} (h2d : lb ≠ 0x2D) (h30 : lb ≠ 0x30) :
    number_lz_seen none lb = some false := by
  unfold number_lz_seen
  rw [if_pos rfl, if_neg h2d, if_neg h30]

theorem clear_somefalse : number_lz_clear (some false) = some false := rfl

theorem clear_sometrue : number_lz_clear (some true) = some false := rfl

theorem lz_resolve {lz : Option Bool} (hnt : lz ≠ some true) (hnn : lz ≠ none) :
    lz = some false := by
  cases lz with
  | none => exact absurd rfl hnn
  | some x =>
    cases x
    · rfl
    · exact absurd rfl hnt

theorem seen_eval {lz : Option Bool} {lb : Nat} (hnt : lz ≠ some true)
    (hd : lb ≠ 0x2D) (hs0 : isSomeTrue (number_lz_seen lz lb) = false) :
    number_lz_seen lz lb = some false := by
  cases lz with
  | none =>
    by_cases h30 : lb = 0x30
    · subst h30
      rw [show number_lz_seen none 0x30 = some true from by decide] at hs0
      exact absurd hs0 (by decide)
    · exact seen_none_other hd h30
  | some x =>
    cases x
    · exact seen_some false lb
    · exact absurd rfl hnt

theorem nstep_sgn_zero : nstep NS.sgn 0x30 = NS.zer := by decide

theorem nstep_sgn_digit {b : Nat} (h : isDigitByte b = true) (h30 : b ≠ 0x30) :
    nstep NS.sgn b = NS.intg := by
  have hb := digit_bounds h
  simp only [nstep]
  rw [if_neg h30, if_pos ⟨by omega, hb.2⟩]

theorem nstep_intg_digit {b : Nat} (h : isDigitByte b = true) :
    nstep NS.intg b = NS.intg := by
  simp only [nstep]
  rw [if_pos h]

theorem nstep_frac_digit {b : Nat} (h : isDigitByte b = true) :
    nstep NS.frac b = NS.frac := by
  simp only [nstep]
  rw [if_pos h]

theorem nstep_exdig_digit {b : Nat} (h : isDigitByte b = true) :
    nstep NS.exdig b = NS.exdig := by
  simp only [nstep]
  rw [if_pos h]

theorem nstep_dot_digit {b : Nat} (h : isDigitByte b = true) :
    nstep NS.dot b = NS.frac := by
  simp only [nstep]
  rw [if_pos h]

theorem nstep_exsgn_digit {b : Nat} (h : isDigitByte b = true) :
    nstep NS.exsgn b = NS.exdig := by
  simp only [nstep]
  rw [if_pos h]

theorem nstep_zer_dot : nstep NS.zer 0x2E = NS.dot := by decide

theorem nstep_intg_dot : nstep NS.intg 0x2E = NS.dot := by decide

theorem nstep_zer_e {b : Nat} (h : b = 0x65 ∨ b = 0x45) : nstep NS.zer b = NS.ex := by
  rcases h with h | h <;> subst h <;> decide

theorem nstep_intg_e {b : Nat} (h : b = 0x65 ∨ b = 0x45) : nstep NS.intg b = NS.ex := by
  rcases h with h | h <;> subst h <;> decide

theorem nstep_frac_e {b : Nat} (h : b = 0x65 ∨ b = 0x45) : nstep NS.frac b = NS.ex := by
  rcases h with h | h <;> subst h <;> decide

theorem nstep_ex_sgn {b : Nat} (h : b = 0x2D ∨ b = 0x2B) : nstep NS.ex b = NS.exsgn := by
  simp only [nstep]
  rw [if_pos h]

theorem nstep_ex_digit {b : Nat} (h : isDigitByte b = true) :
    nstep NS.ex b = NS.exdig := by
  have hb := digit_bounds h
  simp only [nstep]
  rw [if_neg (by rintro (h2 | h2) <;> omega), if_pos h]

/-- Per-state correlation between the number automaton and the machine's
number-handler flags (`in_frac`, `in_exp`, `in_leading_zero`) together with
the last appended byte. -/
def qClassOK (q : NS) (last : Nat) (f e : Bool) (lz : Option Bool) : Prop :=
  match q with
  | NS.start => False
  | NS.sgn => last = 0x2D ∧ e = false ∧ f = false ∧ lz = none
  | NS.zer => last = 0x30 ∧ e = false ∧ f = false ∧
      isSomeTrue (number_lz_seen lz last) = true
  | NS.intg => isDigitByte last = true ∧ e = false ∧ f = false ∧
      isSomeTrue (number_lz_seen lz last) = false
  | NS.dot => last = 0x2E ∧ e = false ∧ f = true
  | NS.frac => isDigitByte last = true ∧ e = false ∧ f = true ∧
      isSomeTrue (number_lz_seen lz last) = false
  | NS.ex => (last = 0x65 ∨ last = 0x45) ∧ e = true
  | NS.exsgn => (last = 0x2D ∨ last = 0x2B) ∧ e = true
  | NS.exdig => isDigitByte last = true ∧ e = true ∧
      isSomeTrue (number_lz_seen lz last) = false
  | NS.dead => False

/-- Invariant of `number_loop`: the buffer splits into a well-formed prefix at
a value-expecting kind and the number run `s`; the run is either still pure
(mode A, tracked by the automaton) or has received its one trailing
whitespace byte (mode B). -/
def NInv (t : JsonTracker) (f e : Bool) (lz : Option Bool) : Prop :=
  ∃ p0 k0 s, t.processed = p0 ++ s ∧
    BufOK 0x1F p0 t.ident_levels k0 ∧ expectsValK k0 = true ∧
    t.in_key = false ∧ RT t ∧ PceLt t ∧
    ((∃ last, t.last_byte = some last ∧ s.getLast? = some last ∧
        qClassOK (s.foldl nstep NS.start) last f e lz ∧
        lz ≠ some true ∧
        (lz = none → s.foldl nstep NS.start = NS.sgn ∨
          s.foldl nstep NS.start = NS.zer ∨ s.foldl nstep NS.start = NS.intg)) ∨
     (∃ sn w, s = sn ++ [w] ∧ isWsByte w = true ∧ numOk sn = true ∧
        t.last_byte = some w ∧ lz = some false))

theorem ninv_rt {t : JsonTracker} {f e : Bool} {lz : Option Bool}
    (h : NInv t f e lz) : RT t := by
  obtain ⟨p0, k0, s, hproc, hb0, he0, hik, hrt, hpl, hmode⟩ := h
  exact hrt

theorem ninv_mk_a {t : JsonTracker} {f2 e2 : Bool} {lz2 : Option Bool} {b : Nat}
    {p0 : List Nat} {k0 : GKind} {s : List Nat}
    (hproc : t.processed = p0 ++ s)
    (hb0 : BufOK 0x1F p0 t.ident_levels k0) (he0 : expectsValK k0 = true)
    (hik : t.in_key = false) (hrt : RT t) (hpl : PceLt t)
    (hbnl : b ≠ 0x0A)
    (hq : qClassOK (nstep (s.foldl nstep NS.start) b) b f2 e2 lz2)
    (hlz : lz2 ≠ some true)
    (hnz : lz2 = none → nstep (s.foldl nstep NS.start) b = NS.sgn ∨
      nstep (s.foldl nstep NS.start) b = NS.zer ∨
      nstep (s.foldl nstep NS.start) b = NS.intg) :
    NInv (t.advance b) f2 e2 lz2 := by
  refine ⟨p0, k0, s ++ [b], ?_, hb0, he0, hik, rt_advance hpl hrt,
    pcelt_advance b hpl, Or.inl ⟨b, ?_, List.getLast?_concat _, ?_, hlz, ?_⟩⟩
  · show t.processed ++ [subst_newline t.replace_newlines b] = p0 ++ (s ++ [b])
    rw [subst_id hbnl, hproc]
    simp
  · show (t.processed ++ [subst_newline t.replace_newlines b]).getLast? = some b
    rw [subst_id hbnl]
    exact List.getLast?_concat _
  · rw [foldl_concat_nstep]
    exact hq
  · rw [foldl_concat_nstep]
    exact hnz

theorem ninv_mk_b {t : JsonTracker} {f2 e2 : Bool} {b : Nat}
    {p0 : List Nat} {k0 : GKind} {s : List Nat}
    (hproc : t.processed = p0 ++ s)
    (hb0 : BufOK 0x1F p0 t.ident_levels k0) (he0 : expectsValK k0 = true)
    (hik : t.in_key = false) (hrt : RT t) (hpl : PceLt t)
    (hw : isWsByte (subst_newline t.replace_newlines b) = true)
    (hnum : numOk s = true) :
    NInv (t.advance b) f2 e2 (some false) := by
  refine ⟨p0, k0, s ++ [subst_newline t.replace_newlines b], ?_, hb0, he0, hik,
    rt_advance hpl hrt, pcelt_advance b hpl,
    Or.inr ⟨s, subst_newline t.replace_newlines b, rfl, hw, hnum, ?_, rfl⟩⟩
  · show t.processed ++ [subst_newline t.replace_newlines b] = p0 ++ _
    rw [hproc]
    simp
  · show (t.processed ++ [subst_newline t.replace_newlines b]).getLast? = _
    exact List.getLast?_concat _

theorem isSomeTrue_eq {o : Option Bool} (h : isSomeTrue o = true) : o = some true := by
  cases o with
  | none => exact absurd h (by decide)
  | some x =>
    cases x
    · exact absurd h (by decide)
    · rfl

theorem number_loop_m : ∀ (rem : List Nat) (t : JsonTracker) (f e : Bool)
    (lz : Option Bool), NInv t f e lz → MPost (number_loop t f e lz rem) := by
  intro rem
  induction rem with
  | nil =>
    intro t f e lz h
    exact ninv_rt h
  | cons b rest ih =>
    intro t f e lz h
    obtain ⟨p0, k0, s, hproc, hb0, he0, hik, hrt, hpl, hmode⟩ := h
    unfold number_loop
    cases hlb : t.last_byte with
    | none => trivial
    | some lb =>
      simp only
      split
      · exact hrt
      · split
        · rename_i hc
          simp only [Bool.and_eq_true, Bool.or_eq_true, decide_eq_true_eq] at hc
          obtain ⟨hlb3, hdig⟩ := hc
          have hbd := digit_bounds hdig
          rcases hmode with ⟨last, hlbs, hgl, hq, hlznt, hnz⟩ |
            ⟨sn, w, hsw, hwws, hnum, hlbw, hlzb⟩
          · rw [hlb] at hlbs
            injection hlbs with heq
            subst heq
            cases hqe : s.foldl nstep NS.start with
            | start => rw [hqe] at hq; simp only [qClassOK] at hq
            | dead => rw [hqe] at hq; simp only [qClassOK] at hq
            | zer =>
              rw [hqe] at hq
              simp only [qClassOK] at hq
              rcases hlb3 with (h2 | h2) | h2 <;> omega
            | intg =>
              rw [hqe] at hq
              simp only [qClassOK] at hq
              have := digit_bounds hq.1
              rcases hlb3 with (h2 | h2) | h2 <;> omega
            | frac =>
              rw [hqe] at hq
              simp only [qClassOK] at hq
              have := digit_bounds hq.1
              rcases hlb3 with (h2 | h2) | h2 <;> omega
            | exdig =>
              rw [hqe] at hq
              simp only [qClassOK] at hq
              have := digit_bounds hq.1
              rcases hlb3 with (h2 | h2) | h2 <;> omega
            | ex =>
              rw [hqe] at hq
              simp only [qClassOK] at hq
              rcases hq.1 with h1 | h1 <;> rcases hlb3 with (h2 | h2) | h2 <;> omega
            | sgn =>
              rw [hqe] at hq
              simp only [qClassOK] at hq
              obtain ⟨hlbv, he2, hf2, hlzn⟩ := hq
              subst hlzn
              have hclear : number_lz_clear (number_lz_seen none lb) = none := by
                rw [hlbv]
                decide
              rw [hclear]
              by_cases h30 : b = 0x30
              · subst h30
                refine ih _ f e none
                  (ninv_mk_a hproc hb0 he0 hik hrt hpl (by omega) ?_ (by simp) ?_)
                · rw [hqe, nstep_sgn_zero]
                  exact ⟨rfl, he2, hf2, by decide⟩
                · intro hd2
                  rw [hqe, nstep_sgn_zero]
                  exact Or.inr (Or.inl rfl)
              · have hb2d : b ≠ 0x2D := by omega
                refine ih _ f e none
                  (ninv_mk_a hproc hb0 he0 hik hrt hpl (by omega) ?_ (by simp) ?_)
                · rw [hqe, nstep_sgn_digit hdig h30]
                  exact ⟨hdig, he2, hf2, by rw [seen_none_other hb2d h30]; rfl⟩
                · intro hd2
                  rw [hqe, nstep_sgn_digit hdig h30]
                  exact Or.inr (Or.inr rfl)
            | dot =>
              rw [hqe] at hq
              simp only [qClassOK] at hq
              obtain ⟨hlbv, he2, hf2⟩ := hq
              have hv : number_lz_seen lz lb = some false := by
                cases lz with
                | none => rw [hlbv]; decide
                | some x =>
                  cases x
                  · exact seen_some false lb
                  · exact absurd rfl hlznt
              rw [hv, clear_somefalse]
              refine ih _ f e (some false)
                (ninv_mk_a hproc hb0 he0 hik hrt hpl (by omega) ?_ (by simp)
                  (by intro hx; simp at hx))
              rw [hqe, nstep_dot_digit hdig]
              exact ⟨hdig, he2, hf2, by rw [seen_some false b]; rfl⟩
            | exsgn =>
              rw [hqe] at hq hnz
              simp only [qClassOK] at hq
              obtain ⟨hlbor, he2⟩ := hq
              have hlzf : lz = some false := lz_resolve hlznt
                (fun hn => by rcases hnz hn with h2 | h2 | h2 <;>
                  exact absurd h2 (by decide))
              subst hlzf
              rw [seen_some false lb, clear_somefalse]
              refine ih _ f e (some false)
                (ninv_mk_a hproc hb0 he0 hik hrt hpl (by omega) ?_ (by simp)
                  (by intro hx; simp at hx))
              rw [hqe, nstep_exsgn_digit hdig]
              exact ⟨hdig, he2, by rw [seen_some false b]; rfl⟩
          · rw [hlb] at hlbw
            injection hlbw with hww
            subst hww
            rcases hlb3 with (h2 | h2) | h2 <;> subst h2 <;>
              exact absurd hwws (by decide)
        · split
          · rename_i hc
            simp only [Bool.and_eq_true, Bool.or_eq_true, decide_eq_true_eq] at hc
            obtain ⟨hlbe, hbor⟩ := hc
            rcases hmode with ⟨last, hlbs, hgl, hq, hlznt, hnz⟩ |
              ⟨sn, w, hsw, hwws, hnum, hlbw, hlzb⟩
            · rw [hlb] at hlbs
              injection hlbs with heq
              subst heq
              cases hqe : s.foldl nstep NS.start with
              | start => rw [hqe] at hq; simp only [qClassOK] at hq
              | dead => rw [hqe] at hq; simp only [qClassOK] at hq
              | sgn =>
                rw [hqe] at hq
                simp only [qClassOK] at hq
                rcases hlbe with h2 | h2 <;> omega
              | zer =>
                rw [hqe] at hq
                simp only [qClassOK] at hq
                rcases hlbe with h2 | h2 <;> omega
              | intg =>
                rw [hqe] at hq
                simp only [qClassOK] at hq
                have := digit_bounds hq.1
                rcases hlbe with h2 | h2 <;> omega
              | dot =>
                rw [hqe] at hq
                simp only [qClassOK] at hq
                rcases hlbe with h2 | h2 <;> omega
              | frac =>
                rw [hqe] at hq
                simp only [qClassOK] at hq
                have := digit_bounds hq.1
                rcases hlbe with h2 | h2 <;> omega
              | exsgn =>
                rw [hqe] at hq
                simp only [qClassOK] at hq
                rcases hq.1 with h1 | h1 <;> rcases hlbe with h2 | h2 <;> omega
              | exdig =>
                rw [hqe] at hq
                simp only [qClassOK] at hq
                have := digit_bounds hq.1
                rcases hlbe with h2 | h2 <;> omega
              | ex =>
                rw [hqe] at hq hnz
                simp only [qClassOK] at hq
                obtain ⟨hlbor, he2⟩ := hq
                have hlzf : lz = some false := lz_resolve hlznt
                  (fun hn => by rcases hnz hn with h2 | h2 | h2 <;>
                    exact absurd h2 (by decide))
                subst hlzf
                rw [seen_some false lb, clear_somefalse]
                rcases hbor with (hd | h2d) | h2b
                · refine ih _ f e (some false)
                    (ninv_mk_a hproc hb0 he0 hik hrt hpl
                      (by have := digit_bounds hd; omega) ?_ (by simp)
                      (by intro hx; simp at hx))
                  rw [hqe, nstep_ex_digit hd]
                  exact ⟨hd, he2, by rw [seen_some false b]; rfl⟩
                · subst h2d
                  refine ih _ f e (some false)
                    (ninv_mk_a hproc hb0 he0 hik hrt hpl (by omega) ?_ (by simp)
                      (by intro hx; simp at hx))
                  rw [hqe, nstep_ex_sgn (Or.inl rfl)]
                  exact ⟨Or.inl rfl, he2⟩
                · subst h2b
                  refine ih _ f e (some false)
                    (ninv_mk_a hproc hb0 he0 hik hrt hpl (by omega) ?_ (by simp)
                      (by intro hx; simp at hx))
                  rw [hqe, nstep_ex_sgn (Or.inr rfl)]
                  exact ⟨Or.inr rfl, he2⟩
            · rw [hlb] at hlbw
              injection hlbw with hww
              subst hww
              rcases hlbe with h2 | h2 <;> subst h2 <;>
                exact absurd hwws (by decide)
          · split
            · rename_i hn0 hn1 hn2 hc
              simp only [Bool.and_eq_true, Bool.or_eq_true, decide_eq_true_eq] at hc
              obtain ⟨hlbd, hbor⟩ := hc
              have hlbb := digit_bounds hlbd
              rcases hmode with ⟨last, hlbs, hgl, hq, hlznt, hnz⟩ |
                ⟨sn, w, hsw, hwws, hnum, hlbw, hlzb⟩
              · rw [hlb] at hlbs
                injection hlbs with heq
                subst heq
                have hbd2 : isDigitByte b = true ∨ isWsByte b = true := by
                  rcases hbor with ((h2 | h2) | h2) | h2
                  · exact Or.inl h2
                  · exact Or.inr (by subst h2; decide)
                  · exact Or.inr (by subst h2; decide)
                  · exact Or.inr (by subst h2; decide)
                rcases hbd2 with hd | hwsb
                · have hs0 : isSomeTrue (number_lz_seen lz lb) = false := by
                    cases hx : isSomeTrue (number_lz_seen lz lb)
                    · rfl
                    · exact absurd (by rw [hx, hd]; decide) hn0
                  cases hqe : s.foldl nstep NS.start with
                  | start => rw [hqe] at hq; simp only [qClassOK] at hq
                  | dead => rw [hqe] at hq; simp only [qClassOK] at hq
                  | sgn =>
                    rw [hqe] at hq
                    simp only [qClassOK] at hq
                    omega
                  | dot =>
                    rw [hqe] at hq
                    simp only [qClassOK] at hq
                    omega
                  | ex =>
                    rw [hqe] at hq
                    simp only [qClassOK] at hq
                    rcases hq.1 with h1 | h1 <;> omega
                  | exsgn =>
                    rw [hqe] at hq
                    simp only [qClassOK] at hq
                    rcases hq.1 with h1 | h1 <;> omega
                  | zer =>
                    rw [hqe] at hq
                    simp only [qClassOK] at hq
                    rw [hq.2.2.2] at hs0
                    exact absurd hs0 (by decide)
                  | intg =>
                    rw [hqe] at hq
                    simp only [qClassOK] at hq
                    obtain ⟨hlbd2, he2, hf2, hst⟩ := hq
                    have hv : number_lz_seen lz lb = some false :=
                      seen_eval hlznt (by omega) hst
                    rw [hv, clear_somefalse]
                    refine ih _ f e (some false)
                      (ninv_mk_a hproc hb0 he0 hik hrt hpl
                        (by have := digit_bounds hd; omega) ?_ (by simp)
                        (by intro hx; simp at hx))
                    rw [hqe, nstep_intg_digit hd]
                    exact ⟨hd, he2, hf2, by rw [seen_some false b]; rfl⟩
                  | frac =>
                    rw [hqe] at hq
                    simp only [qClassOK] at hq
                    obtain ⟨hlbd2, he2, hf2, hst⟩ := hq
                    have hv : number_lz_seen lz lb = some false :=
                      seen_eval hlznt (by omega) hst
                    rw [hv, clear_somefalse]
                    refine ih _ f e (some false)
                      (ninv_mk_a hproc hb0 he0 hik hrt hpl
                        (by have := digit_bounds hd; omega) ?_ (by simp)
                        (by intro hx; simp at hx))
                    rw [hqe, nstep_frac_digit hd]
                    exact ⟨hd, he2, hf2, by rw [seen_some false b]; rfl⟩
                  | exdig =>
                    rw [hqe] at hq
                    simp only [qClassOK] at hq
                    obtain ⟨hlbd2, he2, hst⟩ := hq
                    have hv : number_lz_seen lz lb = some false :=
                      seen_eval hlznt (by omega) hst
                    rw [hv, clear_somefalse]
                    refine ih _ f e (some false)
                      (ninv_mk_a hproc hb0 he0 hik hrt hpl
                        (by have := digit_bounds hd; omega) ?_ (by simp)
                        (by intro hx; simp at hx))
                    rw [hqe, nstep_exdig_digit hd]
                    exact ⟨hd, he2, by rw [seen_some false b]; rfl⟩
                · cases hqe : s.foldl nstep NS.start with
                  | start => rw [hqe] at hq; simp only [qClassOK] at hq
                  | dead => rw [hqe] at hq; simp only [qClassOK] at hq
                  | sgn =>
                    rw [hqe] at hq
                    simp only [qClassOK] at hq
                    omega
                  | dot =>
                    rw [hqe] at hq
                    simp only [qClassOK] at hq
                    omega
                  | ex =>
                    rw [hqe] at hq
                    simp only [qClassOK] at hq
                    rcases hq.1 with h1 | h1 <;> omega
                  | exsgn =>
                    rw [hqe] at hq
                    simp only [qClassOK] at hq
                    rcases hq.1 with h1 | h1 <;> omega
                  | zer =>
                    rw [hqe] at hq
                    simp only [qClassOK] at hq
                    rw [isSomeTrue_eq hq.2.2.2, clear_sometrue]
                    refine ih _ f e (some false)
                      (ninv_mk_b hproc hb0 he0 hik hrt hpl (subst_ws hwsb) ?_)
                    unfold numOk
                    rw [hqe]
                    rfl
                  | intg =>
                    rw [hqe] at hq
                    simp only [qClassOK] at hq
                    have hv : number_lz_seen lz lb = some false :=
                      seen_eval hlznt (by omega) hq.2.2.2
                    rw [hv, clear_somefalse]
                    refine ih _ f e (some false)
                      (ninv_mk_b hproc hb0 he0 hik hrt hpl (subst_ws hwsb) ?_)
                    unfold numOk
                    rw [hqe]
                    rfl
                  | frac =>
                    rw [hqe] at hq
                    simp only [qClassOK] at hq
                    have hv : number_lz_seen lz lb = some false :=
                      seen_eval hlznt (by omega) hq.2.2.2
                    rw [hv, clear_somefalse]
                    refine ih _ f e (some false)
                      (ninv_mk_b hproc hb0 he0 hik hrt hpl (subst_ws hwsb) ?_)
                    unfold numOk
                    rw [hqe]
                    rfl
                  | exdig =>
                    rw [hqe] at hq
                    simp only [qClassOK] at hq
                    have hv : number_lz_seen lz lb = some false :=
                      seen_eval hlznt (by omega) hq.2.2
                    rw [hv, clear_somefalse]
                    refine ih _ f e (some false)
                      (ninv_mk_b hproc hb0 he0 hik hrt hpl (subst_ws hwsb) ?_)
                    unfold numOk
                    rw [hqe]
                    rfl
              · rw [hlb] at hlbw
                injection hlbw with hww
                subst hww
                simp only [isWsByte, Bool.or_eq_true, decide_eq_true_eq] at hwws
                rcases hwws with ((h2 | h2) | h2) | h2 <;> omega
            · split
              · split
                · exact hrt
                · rename_i hn0 hn1 hn2 hn3 hc hfe
                  simp only [Bool.and_eq_true, decide_eq_true_eq] at hc
                  obtain ⟨hlbd, hb2e⟩ := hc
                  have hlbb := digit_bounds hlbd
                  simp only [Bool.or_eq_true, not_or, Bool.not_eq_true] at hfe
                  obtain ⟨hfX, heX⟩ := hfe
                  subst hb2e
                  rcases hmode with ⟨last, hlbs, hgl, hq, hlznt, hnz⟩ |
                    ⟨sn, w, hsw, hwws, hnum, hlbw, hlzb⟩
                  · rw [hlb] at hlbs
                    injection hlbs with heq
                    subst heq
                    cases hqe : s.foldl nstep NS.start with
                    | start => rw [hqe] at hq; simp only [qClassOK] at hq
                    | dead => rw [hqe] at hq; simp only [qClassOK] at hq
                    | sgn =>
                      rw [hqe] at hq
                      simp only [qClassOK] at hq
                      omega
                    | dot =>
                      rw [hqe] at hq
                      simp only [qClassOK] at hq
                      omega
                    | ex =>
                      rw [hqe] at hq
                      simp only [qClassOK] at hq
                      rcases hq.1 with h1 | h1 <;> omega
                    | exsgn =>
                      rw [hqe] at hq
                      simp only [qClassOK] at hq
                      rcases hq.1 with h1 | h1 <;> omega
                    | frac =>
                      rw [hqe] at hq
                      simp only [qClassOK] at hq
                      rw [hfX] at hq
                      exact absurd hq.2.2.1 (by decide)
                    | exdig =>
                      rw [hqe] at hq
                      simp only [qClassOK] at hq
                      rw [heX] at hq
                      exact absurd hq.2.1 (by decide)
                    | zer =>
                      rw [hqe] at hq
                      simp only [qClassOK] at hq
                      rw [isSomeTrue_eq hq.2.2.2, clear_sometrue]
                      refine ih _ true e (some false)
                        (ninv_mk_a hproc hb0 he0 hik hrt hpl (by omega) ?_
                          (by simp) (by intro hx; simp at hx))
                      rw [hqe, nstep_zer_dot]
                      exact ⟨rfl, heX, rfl⟩
                    | intg =>
                      rw [hqe] at hq
                      simp only [qClassOK] at hq
                      have hv : number_lz_seen lz lb = some false :=
                        seen_eval hlznt (by omega) hq.2.2.2
                      rw [hv, clear_somefalse]
                      refine ih _ true e (some false)
                        (ninv_mk_a hproc hb0 he0 hik hrt hpl (by omega) ?_
                          (by simp) (by intro hx; simp at hx))
                      rw [hqe, nstep_intg_dot]
                      exact ⟨rfl, heX, rfl⟩
                  · rw [hlb] at hlbw
                    injection hlbw with hww
                    subst hww
                    simp only [isWsByte, Bool.or_eq_true, decide_eq_true_eq] at hwws
                    rcases hwws with ((h2 | h2) | h2) | h2 <;> omega
              · split
                · split
                  · exact hrt
                  · rename_i hn0 hn1 hn2 hn3 hn4 hc heT
                    simp only [Bool.and_eq_true, Bool.or_eq_true,
                      decide_eq_true_eq] at hc
                    obtain ⟨hlbd, hbe⟩ := hc
                    have hlbb := digit_bounds hlbd
                    simp only [Bool.not_eq_true] at heT
                    have hbnl : b ≠ 0x0A := by rcases hbe with h2 | h2 <;> omega
                    rcases hmode with ⟨last, hlbs, hgl, hq, hlznt, hnz⟩ |
                      ⟨sn, w, hsw, hwws, hnum, hlbw, hlzb⟩
                    · rw [hlb] at hlbs
                      injection hlbs with heq
                      subst heq
                      cases hqe : s.foldl nstep NS.start with
                      | start => rw [hqe] at hq; simp only [qClassOK] at hq
                      | dead => rw [hqe] at hq; simp only [qClassOK] at hq
                      | sgn =>
                        rw [hqe] at hq
                        simp only [qClassOK] at hq
                        omega
                      | dot =>
                        rw [hqe] at hq
                        simp only [qClassOK] at hq
                        omega
                      | ex =>
                        rw [hqe] at hq
                        simp only [qClassOK] at hq
                        rcases hq.1 with h1 | h1 <;> omega
                      | exsgn =>
                        rw [hqe] at hq
                        simp only [qClassOK] at hq
                        rcases hq.1 with h1 | h1 <;> omega
                      | exdig =>
                        rw [hqe] at hq
                        simp only [qClassOK] at hq
                        rw [heT] at hq
                        exact absurd hq.2.1 (by decide)
                      | zer =>
                        rw [hqe] at hq
                        simp only [qClassOK] at hq
                        rw [isSomeTrue_eq hq.2.2.2, clear_sometrue]
                        refine ih _ f true (some false)
                          (ninv_mk_a hproc hb0 he0 hik hrt hpl hbnl ?_
                            (by simp) (by intro hx; simp at hx))
                        rw [hqe, nstep_zer_e hbe]
                        exact ⟨hbe, rfl⟩
                      | intg =>
                        rw [hqe] at hq
                        simp only [qClassOK] at hq
                        have hv : number_lz_seen lz lb = some false :=
                          seen_eval hlznt (by omega) hq.2.2.2
                        rw [hv, clear_somefalse]
                        refine ih _ f true (some false)
                          (ninv_mk_a hproc hb0 he0 hik hrt hpl hbnl ?_
                            (by simp) (by intro hx; simp at hx))
                        rw [hqe, nstep_intg_e hbe]
                        exact ⟨hbe, rfl⟩
                      | frac =>
                        rw [hqe] at hq
                        simp only [qClassOK] at hq
                        have hv : number_lz_seen lz lb = some false :=
                          seen_eval hlznt (by omega) hq.2.2.2
                        rw [hv, clear_somefalse]
                        refine ih _ f true (some false)
                          (ninv_mk_a hproc hb0 he0 hik hrt hpl hbnl ?_
                            (by simp) (by intro hx; simp at hx))
                        rw [hqe, nstep_frac_e hbe]
                        exact ⟨hbe, rfl⟩
                    · rw [hlb] at hlbw
                      injection hlbw with hww
                      subst hww
                      simp only [isWsByte, Bool.or_eq_true, decide_eq_true_eq] at hwws
                      rcases hwws with ((h2 | h2) | h2) | h2 <;> omega
                · split
                  · rename_i hc
                    simp only [Bool.and_eq_true, Bool.or_eq_true,
                      decide_eq_true_eq] at hc
                    obtain ⟨hlbor, hbor⟩ := hc
                    have hb3 : b = 0x2C ∨ b = 0x5D ∨ b = 0x7D := by
                      rcases hbor with (h2 | h2) | h2
                      · exact Or.inl h2
                      · exact Or.inr (Or.inl h2)
                      · exact Or.inr (Or.inr h2)
                    obtain ⟨op, stk2, hstk⟩ := bufok_stack_cons hb0
                    have htop : t.ident_levels.head? = some op := by rw [hstk]; rfl
                    have hkk : (t.ident_levels.head? = some 0x5B ∧
                        afterValK op = GKind.aAK) ∨
                        (t.ident_levels.head? = some 0x7B ∧
                        afterValK op = GKind.oAK) := by
                      rcases bufok_top hb0 op htop with ⟨h1, _⟩ | ⟨h1, _⟩
                      · subst h1
                        exact Or.inl ⟨htop, by decide⟩
                      · subst h1
                        exact Or.inr ⟨htop, by decide⟩
                    have hbnew : BufOK 0x1F t.processed t.ident_levels
                        (afterValK op) := by
                      rcases hmode with ⟨last, hlbs, hgl, hq, hlznt, hnz⟩ |
                        ⟨sn, w, hsw, hwws, hnum, hlbw, hlzb⟩
                      · rw [hlb] at hlbs
                        injection hlbs with heq
                        subst heq
                        have hnum : numOk s = true := by
                          cases hqe : s.foldl nstep NS.start with
                          | start => rw [hqe] at hq; simp only [qClassOK] at hq
                          | dead => rw [hqe] at hq; simp only [qClassOK] at hq
                          | zer => unfold numOk; rw [hqe]; rfl
                          | intg => unfold numOk; rw [hqe]; rfl
                          | frac => unfold numOk; rw [hqe]; rfl
                          | exdig => unfold numOk; rw [hqe]; rfl
                          | sgn =>
                            rw [hqe] at hq
                            simp only [qClassOK] at hq
                            rcases hlbor with h2 | h2 <;> rw [hq.1] at h2 <;>
                              exact absurd h2 (by decide)
                          | dot =>
                            rw [hqe] at hq
                            simp only [qClassOK] at hq
                            rcases hlbor with h2 | h2 <;> rw [hq.1] at h2 <;>
                              exact absurd h2 (by decide)
                          | ex =>
                            rw [hqe] at hq
                            simp only [qClassOK] at hq
                            rcases hq.1 with h1 | h1 <;> subst h1 <;>
                              rcases hlbor with h2 | h2 <;>
                              exact absurd h2 (by decide)
                          | exsgn =>
                            rw [hqe] at hq
                            simp only [qClassOK] at hq
                            rcases hq.1 with h1 | h1 <;> subst h1 <;>
                              rcases hlbor with h2 | h2 <;>
                              exact absurd h2 (by decide)
                        rw [hproc]
                        exact bufok_afterVal hb0 he0 (G.num s hnum) htop
                      · have hkne : afterValK op ≠ GKind.vK := by
                          unfold afterValK
                          split <;> decide
                        have h1 := bufok_afterVal hb0 he0 (G.num sn hnum) htop
                        have h2 := bufok_inner h1
                          (fun s0 hs0 => G.wsApp _ s0 w hkne hs0 hwws)
                          (bufok_top h1)
                        rw [hproc, hsw, ← List.append_assoc]
                        exact h2
                    refine Or.inr ⟨afterValK op, ⟨hbnew, hrt, hpl⟩, ?_⟩
                    rw [hik]
                    exact dpre_sep hb3 hkk
                  · exact hrt

theorem afterval_sides {lo : Nat} {p stk : List Nat} {k0 : GKind} {op : Nat}
    (hb0 : BufOK lo p stk k0) (htop : stk.head? = some op) :
    (stk.head? = some 0x5B ∧ afterValK op = GKind.aAK) ∨
    (stk.head? = some 0x7B ∧ afterValK op = GKind.oAK) := by
  rcases bufok_top hb0 op htop with ⟨h1, _⟩ | ⟨h1, _⟩
  · subst h1
    exact Or.inl ⟨htop, by decide⟩
  · subst h1
    exact Or.inr ⟨htop, by decide⟩

/-- Invariant of `literal_tail_loop`: the buffer holds a well-formed prefix at
a value-expecting kind plus the already-matched part of the literal word whose
still-expected tail is `ls`. -/
def LInv (t : JsonTracker) (ls : List Nat) : Prop :=
  ∃ p0 k0 done, t.processed = p0 ++ done ∧
    BufOK 0x1F p0 t.ident_levels k0 ∧ expectsValK k0 = true ∧
    t.in_key = false ∧ RT t ∧ PceLt t ∧ litOk (done ++ ls) = true

theorem literal_tail_loop_m : ∀ (ls rem : List Nat) (t : JsonTracker),
    LInv t ls → MPost (literal_tail_loop ls t rem) := by
  intro ls
  induction ls with
  | nil =>
    intro rem t h
    obtain ⟨p0, k0, done, hproc, hb0, he0, hik, hrt, hpl, hlit⟩ := h
    rw [List.append_nil] at hlit
    obtain ⟨op, stk2, hstk⟩ := bufok_stack_cons hb0
    have htop : t.ident_levels.head? = some op := by rw [hstk]; rfl
    have hbnew : BufOK 0x1F t.processed t.ident_levels (afterValK op) := by
      rw [hproc]
      exact bufok_afterVal hb0 he0 (G.lit done hlit) htop
    exact sep_loop_m rem t (afterValK op) ⟨hbnew, hrt, hpl⟩ hik
      (afterval_sides hb0 htop)
  | cons l ls2 ih =>
    intro rem t h
    cases rem with
    | nil =>
      obtain ⟨p0, k0, done, hproc, hb0, he0, hik, hrt, hpl, hlit⟩ := h
      exact hrt
    | cons b rest =>
      unfold literal_tail_loop
      split
      · rename_i hl
        obtain ⟨p0, k0, done, hproc, hb0, he0, hik, hrt, hpl, hlit⟩ := h
        subst hl
        have hmem : l ∈ done ++ l :: ls2 :=
          List.mem_append.mpr (Or.inr (List.mem_cons_self l ls2))
        have hbnl : l ≠ 0x0A := by
          have := litOk_bytes hlit l hmem
          omega
        refine ih rest (t.advance l) ⟨p0, k0, done ++ [l], ?_, hb0, he0, hik,
          rt_advance hpl hrt, pcelt_advance l hpl, ?_⟩
        · show t.processed ++ [subst_newline t.replace_newlines l] = p0 ++ (done ++ [l])
          rw [subst_id hbnl, hproc]
          simp
        · have h2 : (done ++ [l]) ++ ls2 = done ++ l :: ls2 := by simp
          rw [h2]
          exact hlit
      · obtain ⟨p0, k0, done, hproc, hb0, he0, hik, hrt, hpl, hlit⟩ := h
        exact hrt

theorem mstate_add_init {t : JsonTracker} (hp : t.processed = [])
    (hi : t.ident_levels = []) (op : Nat) (hop : op = 0x5B ∨ op = 0x7B) :
    MState (t.add_ident op) (openK op) := by
  have hnl : op ≠ 0x0A := by rcases hop with h | h <;> omega
  have hm : openerMatches op (openK op) := by
    rcases hop with h | h <;> subst h
    · exact Or.inl ⟨rfl, by decide⟩
    · exact Or.inr ⟨rfl, by decide⟩
  have hg : G 0x1F (openK op) [] := by
    rcases hop with h | h <;> subst h
    · exact G.afNil
    · exact G.ofNil
  have hpr : (t.add_ident op).processed = [op] := by
    show t.processed ++ [subst_newline t.replace_newlines op] = [op]
    rw [subst_id hnl, hp]
    rfl
  have hst : (t.add_ident op).ident_levels = [op] := by
    show op :: t.ident_levels = [op]
    rw [hi]
  have hpce : (t.add_ident op).partial_close_end = 0 := by
    show t.processed.length = 0
    rw [hp]
    rfl
  refine ⟨?_, ⟨openK op, ?_, ?_⟩, pcelt_add_ident t op⟩
  · rw [hpr, hst]
    exact BufOK.one op [] (openK op) hm hg
  · rw [hpr, hst, hpce]
    exact BufOK.one op [] (openK op) hm hg
  · rcases hop with h | h <;> subst h <;> decide

theorem mstate_add_run {t : JsonTracker} {k : GKind} (h : MState t k)
    (he : expectsValK k = true) (op : Nat) (hop : op = 0x5B ∨ op = 0x7B) :
    MState (t.add_ident op) (openK op) := by
  have hnl : op ≠ 0x0A := by rcases hop with h2 | h2 <;> omega
  have hm : openerMatches op (openK op) := by
    rcases hop with h2 | h2 <;> subst h2
    · exact Or.inl ⟨rfl, by decide⟩
    · exact Or.inr ⟨rfl, by decide⟩
  have hg : G 0x1F (openK op) [] := by
    rcases hop with h2 | h2 <;> subst h2
    · exact G.afNil
    · exact G.ofNil
  have hpr : (t.add_ident op).processed = t.processed ++ [op] := by
    show t.processed ++ [subst_newline t.replace_newlines op] = _
    rw [subst_id hnl]
  have hst : (t.add_ident op).ident_levels = op :: t.ident_levels := rfl
  have hpce : (t.add_ident op).partial_close_end = t.processed.length := rfl
  refine ⟨?_, ⟨openK op, ?_, ?_⟩, pcelt_add_ident t op⟩
  · rw [hpr, hst]
    exact BufOK.push _ _ k op [] (openK op) h.1 he hm hg
  · rw [hpr, hst, hpce, List.take_of_length_le (by simp)]
    exact BufOK.push _ _ k op [] (openK op) h.1 he hm hg
  · rcases hop with h2 | h2 <;> subst h2 <;> decide

theorem mstate_pop {t : JsonTracker} {k : GKind} {exp : Nat} {c : Bool}
    {t2 : JsonTracker} (h : MState t k) (hc : closableK k = true)
    (hnl : _closing_ident exp ≠ 0x0A)
    (hr : t.remove_ident exp = some (c, t2)) (hcF : c = false) :
    ∃ o2, t2.ident_levels.head? = some o2 ∧ MState t2 (afterValK o2) ∧
      t2.in_key = t.in_key := by
  subst hcF
  have hpl2 := pcelt_remove_ident hr
  cases hstk : t.ident_levels with
  | nil => simp [JsonTracker.remove_ident, hstk] at hr
  | cons top rest =>
    simp only [JsonTracker.remove_ident, hstk] at hr
    by_cases hte : top = exp
    · rw [if_pos hte] at hr
      injection hr with hr2
      rw [Prod.mk.injEq] at hr2
      obtain ⟨hc2, ht2⟩ := hr2
      cases hrest : rest with
      | nil =>
        rw [hrest] at hc2
        exact absurd hc2 (by decide)
      | cons o2 rest2 =>
        have hstk2 : t.ident_levels = exp :: rest := by rw [hstk, hte]
        have hbt : BufOK 0x1F t.processed (exp :: o2 :: rest2) k := by
          rw [← hrest, ← hstk2]
          exact h.1
        have hbc := bufok_close hbt hc
          (show (o2 :: rest2).head? = some o2 from rfl)
        have hpr : t2.processed = t.processed ++ [_closing_ident exp] := by
          rw [← ht2]
          show t.processed ++ [subst_newline t.replace_newlines (_closing_ident exp)] = _
          rw [subst_id hnl]
        have hst2 : t2.ident_levels = o2 :: rest2 := by
          rw [← ht2, ← hrest]
          rfl
        have hpce : t2.partial_close_end = t.processed.length := by
          rw [← ht2]
          rfl
        refine ⟨o2, by rw [hst2]; rfl, ⟨?_, ⟨afterValK o2, ?_, ?_⟩, hpl2⟩, ?_⟩
        · rw [hpr, hst2]
          exact hbc
        · rw [hpr, hst2, hpce, List.take_of_length_le (by simp)]
          exact hbc
        · unfold afterValK
          split <;> rfl
        · rw [← ht2]
          rfl
    · rw [if_neg hte] at hr
      exact absurd hr (by simp)

theorem remove_ident_top {t : JsonTracker} {e : Nat} {c : Bool} {t2 : JsonTracker}
    (h : t.remove_ident e = some (c, t2)) : t.ident_levels.head? = some e := by
  cases hs : t.ident_levels with
  | nil => simp [JsonTracker.remove_ident, hs] at h
  | cons top rest =>
    simp only [JsonTracker.remove_ident, hs] at h
    by_cases hte : top = e
    · rw [hte]
      rfl
    · rw [if_neg hte] at h
      exact absurd h (by simp)

theorem qclass_init {ch : Nat} (hc : ch = 0x2D ∨ isDigitByte ch = true) :
    qClassOK (nstep NS.start ch) ch false false none ∧
    (nstep NS.start ch = NS.sgn ∨ nstep NS.start ch = NS.zer ∨
      nstep NS.start ch = NS.intg) := by
  rcases hc with h | h
  · subst h
    exact ⟨⟨rfl, rfl, rfl, rfl⟩, Or.inl rfl⟩
  · by_cases h30 : ch = 0x30
    · subst h30
      exact ⟨⟨rfl, rfl, rfl, rfl⟩, Or.inr (Or.inl rfl)⟩
    · have hb := digit_bounds h
      have hst : nstep NS.start ch = NS.intg := by
        simp only [nstep]
        rw [if_neg (by omega), if_neg h30, if_pos ⟨by omega, hb.2⟩]
      rw [hst]
      refine ⟨⟨h, rfl, rfl, ?_⟩, Or.inr (Or.inr rfl)⟩
      rw [seen_none_other (by omega) h30]
      rfl

theorem hunt_step_m (ch : Nat) (t : JsonTracker) (rem : List Nat)
    (h : HInv ch t) : MPost (hunt_step ch t rem) := by
  unfold hunt_step
  split
  · rename_i h5b
    subst h5b
    rcases h with ⟨hp, hi, hik, hch⟩ | ⟨k, hms, hd⟩
    · exact lsb_loop_m rem _ (mstate_add_init hp hi 0x5B (Or.inl rfl)) hik
    · have h1 := hd.1 (Or.inl rfl)
      exact lsb_loop_m rem _ (mstate_add_run hms h1.1 0x5B (Or.inl rfl)) h1.2
  · split
    · rename_i h7b
      subst h7b
      rcases h with ⟨hp, hi, hik, hch⟩ | ⟨k, hms, hd⟩
      · exact lcb_loop_m rem _ (mstate_add_init hp hi 0x7B (Or.inr rfl)) hik
      · have h1 := hd.1 (Or.inr rfl)
        exact lcb_loop_m rem _ (mstate_add_run hms h1.1 0x7B (Or.inr rfl)) h1.2
    · split
      · rename_i h5d
        subst h5d
        rcases h with ⟨hp, hi, hik, hch⟩ | ⟨k, hms, hd⟩
        · rcases hch with hc | hc <;> omega
        · have hd2 := hd.2.1 rfl
          unfold handle_right_square_bracket
          split
          · trivial
          · rename_i x t2 heq
            have htop5 := remove_ident_top heq
            have hcl := hd2.1 htop5
            obtain ⟨o2, ho2, hms2, hik2⟩ := mstate_pop hms hcl (by decide) heq rfl
            refine sep_loop_m rem t2 (afterValK o2) hms2 ?_ (afterval_sides hms2.1 ho2)
            rw [hik2]
            exact hd2.2
          · exact hms.2.1
      · split
        · rename_i h7d
          subst h7d
          rcases h with ⟨hp, hi, hik, hch⟩ | ⟨k, hms, hd⟩
          · rcases hch with hc | hc <;> omega
          · have hd2 := hd.2.2.1 rfl
            unfold handle_right_curly_bracket
            split
            · trivial
            · rename_i x t2 heq
              have htop7 := remove_ident_top heq
              have hcl := hd2.1 htop7
              obtain ⟨o2, ho2, hms2, hik2⟩ := mstate_pop hms hcl (by decide) heq rfl
              refine sep_loop_m rem t2 (afterValK o2) hms2 ?_ (afterval_sides hms2.1 ho2)
              rw [hik2]
              exact hd2.2
            · exact hms.2.1
        · split
          · rename_i h3a
            subst h3a
            rcases h with ⟨hp, hi, hik, hch⟩ | ⟨k, hms, hd⟩
            · rcases hch with hc | hc <;> omega
            · have hd4 := hd.2.2.2.1 rfl
              subst hd4
              unfold handle_colon
              have hms2 : MState ({ t with in_key := false }.advance 0x3A)
                  GKind.oVK := by
                have hmsk : MState { t with in_key := false } GKind.oCK :=
                  mstate_inkey hms
                refine mstate_step hmsk (fun s hs => ?_) (fun op hop => ?_)
                · rw [subst_id (show (0x3A : Nat) ≠ 0x0A by omega)]
                  exact G.oColon s hs
                · have hm := bufok_top hmsk.1 op hop
                  rcases hm with ⟨h1, h2⟩ | ⟨h1, h2⟩
                  · exact absurd h2 (by decide)
                  · exact Or.inr ⟨h1, rfl⟩
              exact value_start_loop_m rem _ GKind.oVK hms2 rfl rfl
          · split
            · rename_i h2c
              subst h2c
              rcases h with ⟨hp, hi, hik, hch⟩ | ⟨k, hms, hd⟩
              · rcases hch with hc | hc <;> omega
              · have hd5 := hd.2.2.2.2.1 rfl
                unfold handle_comma
                split
                · rename_i li heq
                  have heq2 : t.ident_levels.head? = some li := heq
                  split
                  · rename_i hli5
                    subst hli5
                    rcases hd5.1 with ⟨ht5, hk5⟩ | ⟨ht7, hk7⟩
                    · subst hk5
                      have hms2 : MState (t.advance 0x2C) GKind.aMK := by
                        refine mstate_step hms (fun s hs => ?_) (fun op hop => ?_)
                        · rw [subst_id (show (0x2C : Nat) ≠ 0x0A by omega)]
                          exact G.aComma s hs
                        · rw [ht5] at hop
                          injection hop with hop
                          subst hop
                          exact Or.inl ⟨rfl, rfl⟩
                      exact value_start_loop_m rem _ GKind.aMK hms2 hd5.2 rfl
                    · rw [ht7] at heq2
                      injection heq2 with heq2
                      omega
                  · split
                    · rename_i hli7
                      subst hli7
                      rcases hd5.1 with ⟨ht5, hk5⟩ | ⟨ht7, hk7⟩
                      · rw [ht5] at heq2
                        injection heq2 with heq2
                        omega
                      · subst hk7
                        have hms2 : MState (t.advance 0x2C) GKind.oMK := by
                          refine mstate_step hms (fun s hs => ?_) (fun op hop => ?_)
                          · rw [subst_id (show (0x2C : Nat) ≠ 0x0A by omega)]
                            exact G.oComma s hs
                          · rw [ht7] at hop
                            injection hop with hop
                            subst hop
                            exact Or.inr ⟨rfl, rfl⟩
                        exact comma_obj_loop_m rem _ hms2 hd5.2
                    · trivial
                · trivial
            · split
              · rename_i h22
                subst h22
                rcases h with ⟨hp, hi, hik, hch⟩ | ⟨k, hms, hd⟩
                · rcases hch with hc | hc <;> omega
                · have hd6 := hd.2.2.2.2.2.1 rfl
                  unfold handle_string
                  refine string_loop_m rem (t.advance 0x22) true false 0
                    (fun _ => ?_) (fun hF => absurd hF (by decide))
                  refine ⟨t.processed, k, [], ?_, hms.1,
                    rt_advance hms.2.2 hms.2.1, pcelt_advance _ hms.2.2,
                    sp_nil, hd6⟩
                  show t.processed ++ [subst_newline t.replace_newlines 0x22] =
                    t.processed ++ 0x22 :: []
                  rw [subst_id (by omega)]
              · split
                · rename_i hc
                  simp only [Bool.or_eq_true, decide_eq_true_eq] at hc
                  rcases h with ⟨hp, hi, hik, hch⟩ | ⟨k, hms, hd⟩
                  · rcases hch with h2 | h2 <;> rcases hc with h3 | h3
                    · omega
                    · have := digit_bounds h3; omega
                    · omega
                    · have := digit_bounds h3; omega
                  · have hd7 := hd.2.2.2.2.2.2.1 hc
                    have hnl : ch ≠ 0x0A := by
                      rcases hc with h2 | h2
                      · omega
                      · have := digit_bounds h2; omega
                    have hqc := qclass_init hc
                    unfold handle_number
                    refine number_loop_m rem _ false false none
                      ⟨t.processed, k, [ch], ?_, hms.1, hd7.1, hd7.2,
                        rt_advance hms.2.2 hms.2.1, pcelt_advance ch hms.2.2,
                        Or.inl ⟨ch, ?_, rfl, hqc.1, by simp, fun _ => hqc.2⟩⟩
                    · show t.processed ++ [subst_newline t.replace_newlines ch] =
                        t.processed ++ [ch]
                      rw [subst_id hnl]
                    · show ((t.advance ch).processed).getLast? = some ch
                      rw [advance_processed, subst_id hnl]
                      exact List.getLast?_concat _
                · split
                  · rename_i hc
                    simp only [Bool.or_eq_true, decide_eq_true_eq] at hc
                    rcases h with ⟨hp, hi, hik, hch⟩ | ⟨k, hms, hd⟩
                    · rcases hch with h2 | h2 <;>
                        rcases hc with (h3 | h3) | h3 <;> omega
                    · have hc2 : ch = 0x66 ∨ ch = 0x6E ∨ ch = 0x74 := by
                        rcases hc with (h2 | h2) | h2
                        · exact Or.inl h2
                        · exact Or.inr (Or.inl h2)
                        · exact Or.inr (Or.inr h2)
                      have hd8 := hd.2.2.2.2.2.2.2 hc2
                      unfold handle_literal
                      split
                      · rename_i h66
                        subst h66
                        refine literal_tail_loop_m _ rem _
                          ⟨t.processed, k, [0x66], ?_, hms.1, hd8.1, hd8.2,
                            rt_advance hms.2.2 hms.2.1, pcelt_advance _ hms.2.2,
                            by decide⟩
                        show t.processed ++ [subst_newline t.replace_newlines 0x66] =
                          t.processed ++ [0x66]
                        rw [subst_id (by omega)]
                      · split
                        · rename_i h6e
                          subst h6e
                          refine literal_tail_loop_m _ rem _
                            ⟨t.processed, k, [0x6E], ?_, hms.1, hd8.1, hd8.2,
                              rt_advance hms.2.2 hms.2.1, pcelt_advance _ hms.2.2,
                              by decide⟩
                          show t.processed ++
                            [subst_newline t.replace_newlines 0x6E] =
                            t.processed ++ [0x6E]
                          rw [subst_id (by omega)]
                        · split
                          · rename_i h74
                            subst h74
                            refine literal_tail_loop_m _ rem _
                              ⟨t.processed, k, [0x74], ?_, hms.1, hd8.1, hd8.2,
                                rt_advance hms.2.2 hms.2.1, pcelt_advance _ hms.2.2,
                                by decide⟩
                            show t.processed ++
                              [subst_newline t.replace_newlines 0x74] =
                              t.processed ++ [0x74]
                            rw [subst_id (by omega)]
                          · trivial
                  · trivial

theorem hunt_m : ∀ (fuel ch : Nat) (t : JsonTracker) (rem : List Nat),
    HInv ch t →
    ((hunt fuel ch t rem).1 = Cause.Exhausted ∨
      ∃ cb, (hunt fuel ch t rem).1 = Cause.Corrupted cb) →
    RT (hunt fuel ch t rem).2.1 := by
  intro fuel
  induction fuel with
  | zero =>
    intro ch t rem h hres
    rcases hres with h2 | ⟨cb, h2⟩ <;> simp [hunt] at h2
  | succ fuel ih =>
    intro ch t rem h hres
    have hstep := hunt_step_m ch t rem h
    rcases hr : hunt_step ch t rem with ⟨res, t2, rem2⟩
    rw [hr] at hstep
    unfold hunt at hres ⊢
    rw [hr] at hres ⊢
    cases res with
    | Found b =>
      exact ih b t2 rem2 hstep hres
    | Corrupted cb => exact hstep
    | Exhausted => exact hstep
    | Completed => rcases hres with h2 | ⟨cb2, h2⟩ <;> simp at h2
    | Panicked => rcases hres with h2 | ⟨cb2, h2⟩ <;> simp at h2
    | HuntErr => rcases hres with h2 | ⟨cb2, h2⟩ <;> simp at h2
    | Spent => rcases hres with h2 | ⟨cb2, h2⟩ <;> simp at h2

/-- C2 (corrected): when `fix_incomplete` is set and a candidate hunt ends
`Corrupted` or `Exhausted` with `partial_close_end ≥ min_size`, the repair
emission is exactly the candidate-buffer bytes at indices 0 through
`partial_close_end` inclusive, followed by one closer (`opener + 2`, via
`_closing_ident`) for each still-open container from the top of the nest
stack down, followed by a single newline — and the bytes before the newline
form a structurally valid JSON value of the relaxed grammar `G 0x1F`, i.e.
RFC 8259 structure except that strings may carry the raw control byte 0x1F
(the scanner's known off-by-one, refuting strict validity, see
`C2_repair_not_strictly_valid`). -/
theorem C2_repair_emission (c : Carver) (ch start fuel : Nat)
    (input rem2 : List Nat) (res : Cause) (t2 : JsonTracker)
    (hop : ch = 0x5B ∨ ch = 0x7B)
    (hrun : hunt fuel ch c.initTracker input = (res, t2, rem2))
    (hre : res = Cause.Exhausted ∨ ∃ cb, res = Cause.Corrupted cb)
    (hfix : c.fix_incomplete = true)
    (hmin : c.min_size ≤ t2.partial_close_end) :
    (candidate_output c res t2 start).1 =
      t2.processed.take (t2.partial_close_end + 1) ++
      t2.ident_levels.map _closing_ident ++ [0x0A] ∧
    G 0x1F GKind.vK (t2.processed.take (t2.partial_close_end + 1) ++
      t2.ident_levels.map _closing_ident) := by
  have hinv : HInv ch c.initTracker := Or.inl ⟨rfl, rfl, rfl, hop⟩
  have hres2 : (hunt fuel ch c.initTracker input).1 = Cause.Exhausted ∨
      ∃ cb, (hunt fuel ch c.initTracker input).1 = Cause.Corrupted cb := by
    rw [hrun]
    exact hre
  have hrt := hunt_m fuel ch c.initTracker input hinv hres2
  rw [hrun] at hrt
  constructor
  · rcases hre with hre | ⟨cb, hre⟩ <;> subst hre <;>
      simp only [candidate_output] <;>
      rw [if_pos hmin, hfix] <;>
      rfl
  · exact rt_repair hrt

theorem C2_repair_emission_witness :
    hunt 1 0x5B fixCfg.initTracker [] =
      (Cause.Exhausted,
       { processed := [0x5B], ident_levels := [0x5B], partial_close_end := 0,
         in_key := false, replace_newlines := false }, []) ∧
    (candidate_output fixCfg Cause.Exhausted
        { processed := [0x5B], ident_levels := [0x5B], partial_close_end := 0,
          in_key := false, replace_newlines := false } 0).1 =
      [0x5B, 0x5D, 0x0A] ∧
    G 0x1F GKind.vK [0x5B, 0x5D] := by
  have h := C2_repair_emission fixCfg 0x5B 0 1 [] []
    Cause.Exhausted
    { processed := [0x5B], ident_levels := [0x5B], partial_close_end := 0,
      in_key := false, replace_newlines := false }
    (Or.inl rfl) (by decide) (Or.inl rfl) rfl (by decide)
  exact ⟨by decide, h.1, h.2⟩
